import Mathlib

/-!
# gpgtar-create: writing a USTAR archive

A shallow embedding of `tools/gpgtar-create.c`.  Memory is a list of bytes
(`List Byte` with `Byte = Fin 256`, an `unsigned char`), a `char *` into the
512-byte record is an index into that list, and a store through a pointer is
`List.set`.  C loops are structural recursions on their counters.  The build
modelled is the POSIX one (`HAVE_DOSISH_SYSTEM` and `HAVE_DRIVE_LETTERS`
undefined, `DIRSEP_C` equal to `'/'`).
-/

set_option autoImplicit false

namespace GpgTar

/-! ## Bytes and the record layout -/

/-- One `unsigned char`. -/
abbrev Byte : Type := Fin 256

/-- Storing an integer into a `char`: the low eight bits are kept. -/
def byte (x : Nat) : Byte := ⟨x % 256, Nat.mod_lt x (by decide)⟩

/-- Modelled from the spec: `RECORDSIZE` of `gpgtar.h`, the size of one tar record. -/
abbrev RECORDSIZE : Nat := 512

/-- The fields of `struct ustar_raw_header`; `pfx` is the field `prefix`. -/
inductive RawField
  | name | mode | uid | gid | size | mtime | checksum | typeflag | linkname
  | magic | version | uname | gname | devmajor | devminor | pfx | pad
  deriving DecidableEq, Repr

/-- Modelled from the spec: the field widths of `struct ustar_raw_header` of
`gpgtar.h` (`sizeof raw->field`): name(100), mode(8), uid(8), gid(8), size(12),
mtime(12), checksum(8), typeflag(1), linkname(100), magic(6), version(2),
uname(32), gname(32), devmajor(8), devminor(8), prefix(155), padding to 512. -/
def RawField.sizeof : RawField → Nat
  | .name => 100 | .mode => 8 | .uid => 8 | .gid => 8 | .size => 12
  | .mtime => 12 | .checksum => 8 | .typeflag => 1 | .linkname => 100
  | .magic => 6 | .version => 2 | .uname => 32 | .gname => 32
  | .devmajor => 8 | .devminor => 8 | .pfx => 155 | .pad => 12

/-- Modelled from the spec: the byte offset of each field of
`struct ustar_raw_header`, the fields being laid out in the order listed. -/
def RawField.offset : RawField → Nat
  | .name => 0 | .mode => 100 | .uid => 108 | .gid => 116 | .size => 124
  | .mtime => 136 | .checksum => 148 | .typeflag => 156 | .linkname => 157
  | .magic => 257 | .version => 263 | .uname => 265 | .gname => 297
  | .devmajor => 329 | .devminor => 337 | .pfx => 345 | .pad => 500

/-- The bytes `buf[off .. off+len)`. -/
def field (buf : List Byte) (off len : Nat) : List Byte :=
  (buf.drop off).take len

/-- The C string stored at the start of a byte array: the bytes before the
first NUL. -/
def cstring (bytes : List Byte) : List Byte :=
  bytes.takeWhile (fun b => b != 0)

/-- `memcpy (buf + off, src, src.length)`: byte by byte. -/
def memcpy (buf : List Byte) (off : Nat) : List Byte → List Byte
  | [] => buf
  | b :: bs => memcpy (buf.set off b) (off + 1) bs

/-- `memset (buf + off, c, n)`. -/
def memset (buf : List Byte) (off : Nat) (c : Byte) : Nat → List Byte
  | 0 => buf
  | n + 1 => memset (buf.set off c) (off + 1) c n

/-! ## Numeric field codec: `store_xoctal` -/

/-- Loop state of `store_xoctal`: the buffer, the write pointer `p` (an index
into the buffer), the remaining value `v` and the remaining room `n`. -/
structure XState where
  buf : List Byte
  p : Nat
  v : Nat
  n : Nat

/-- The two digit loops of `store_xoctal`,
`do { *--p = zch + (v % base); v /= base; n--; } while (v && n);`
with `base = 8, zch = '0'` for the octal loop and `base = 256, zch = 0`
for the binary loop (where `*--p = v` keeps the low eight bits of `v`).
Both loops are entered with `n > 0`. -/
def digit_loop (base zch : Nat) (buf : List Byte) (p v : Nat) : Nat → XState
  | 0 => ⟨buf, p, v, 0⟩
  | n + 1 =>
    let buf1 := buf.set (p - 1) (byte (zch + v % base))
    if v / base ≠ 0 ∧ n ≠ 0 then digit_loop base zch buf1 (p - 1) (v / base) n
    else ⟨buf1, p - 1, v / base, n⟩

/-- The two padding loops of `store_xoctal`, `for ( ; n; n--) *--p = c;`.
Returns the buffer and the final `p`. -/
def pad_loop (c : Byte) (buf : List Byte) (p : Nat) : Nat → List Byte × Nat
  | 0 => (buf, p)
  | n + 1 => pad_loop c (buf.set (p - 1) c) (p - 1) n

/-- The octal attempt of `store_xoctal` (source lines 292-303): the NUL byte
and the octal digit loop. -/
def xoctal_octal (buf : List Byte) (off length value : Nat) : XState :=
  let pend := off + length
  digit_loop 8 48 (buf.set (pend - 1) 0) (pend - 1) value (length - 1)

/-- `store_xoctal (buffer, length, value)` with `buffer = buf + off`.
`none` is the abort of the process by `assert` or `BUG ()`. -/
def store_xoctal (buf : List Byte) (off length value : Nat) : Option (List Byte) :=
  if ¬ (length > 1) then none
  else
    let s := xoctal_octal buf off length value
    if s.v = 0 then
      some (pad_loop 48 s.buf s.p s.n).1
    else
      let b := digit_loop 256 0 s.buf (off + length) value length
      if b.v = 0 then
        let q := pad_loop 0 b.buf b.p b.n
        if (q.1.getD q.2 0).val &&& 0x80 ≠ 0 then none
        else some (q.1.set q.2 (byte ((q.1.getD q.2 0).val ||| 0x80)))
      else none

/-- Reading a run of ASCII octal digits as a number. -/
def octal_value (digits : List Byte) : Nat :=
  digits.foldl (fun acc d => acc * 8 + (d.val - 48)) 0

/-- Reading a run of bytes as a big-endian number. -/
def be_value (bytes : List Byte) : Nat :=
  bytes.foldl (fun acc b => acc * 256 + b.val) 0

/-- Reading a field in the binary form: the top bit of the first byte is the
marker and is stripped, the rest is a big-endian number. -/
def binary_value : List Byte → Nat
  | [] => 0
  | b :: bs => be_value (byte (b.val &&& 0x7f) :: bs)

/-- A byte that is one of the ASCII digits `'0'` .. `'7'`. -/
def is_octal_digit (b : Byte) : Prop := 48 ≤ b.val ∧ b.val ≤ 55

instance (b : Byte) : Decidable (is_octal_digit b) := by
  unfold is_octal_digit; infer_instance

/-! ## Entries, errors and the collaborators -/

/-- Modelled from the spec: `typeflag_t` of `gpgtar.h`, the entry types
{Regular, HardLink, SymbolicLink, CharDevice, BlockDevice, Directory, Fifo,
Unsupported} under the names the source uses. -/
inductive typeflag_t
  | TF_REGULAR | TF_HARDLINK | TF_SYMLINK | TF_CHARDEV | TF_BLOCKDEV
  | TF_DIRECTORY | TF_FIFO | TF_NOTSUP
  deriving DecidableEq, Repr

open typeflag_t

/-- Modelled from the spec: the integer value of each `typeflag_t` enumerator.
The enumeration of `gpgtar.h` is taken to follow the USTAR typeflag digits
`'0'` .. `'6'` that `build_header` writes, with `TF_NOTSUP` after two further
reader-only values.  Only `gpgtar_create` uses the value (`typeflag & TF_DIRECTORY`). -/
def typeflag_t.code : typeflag_t → Nat
  | TF_REGULAR => 0 | TF_HARDLINK => 1 | TF_SYMLINK => 2 | TF_CHARDEV => 3
  | TF_BLOCKDEV => 4 | TF_DIRECTORY => 5 | TF_FIFO => 6 | TF_NOTSUP => 9

/-- The error codes this file returns; `GPG_ERR_NO_ERROR` is the value 0.
`GPG_ERR_SYSTEM` stands for any `gpg_error_from_syserror ()`. -/
inductive gpg_error_t
  | GPG_ERR_NO_ERROR | GPG_ERR_TOO_LARGE | GPG_ERR_NOT_SUPPORTED
  | GPG_ERR_RESOURCE_LIMIT | GPG_ERR_SYSTEM
  deriving DecidableEq, Repr

open gpg_error_t

/-- Modelled from the spec: `struct tar_header_s` of `gpgtar.h` without the
`next` pointer (the list is a Lean list).  `name` is the C string without
its terminating NUL. -/
structure tar_header where
  mode : Nat
  nlink : Nat
  uid : Nat
  gid : Nat
  size : Nat
  mtime : Nat
  typeflag : typeflag_t
  nrecords : Nat
  name : List Byte
  deriving DecidableEq, Repr

/-- The fields of `struct stat` that `fillup_entry` reads. -/
structure stat_t where
  st_mode : Nat
  st_nlink : Nat
  st_uid : Nat
  st_gid : Nat
  st_size : Nat
  st_mtime : Nat

/-- The collaborators: the filesystem queries, the identity lookups, the
options and the output stream.  A file's readable bytes (`fopen`) are
independent of the size `lstat` reported, so files may shrink or grow between
the scan and the write.
* `lstat`, `readdir`, `readlink`, `fopen`: `none` is failure with `errno` set;
  `readdir` gives the `d_name` sequence of `opendir`/`readdir`;
* `fclose_fails`: `es_fclose` of an input stream returns an error;
* `getpwuid`, `getgrgid`: `none` is "no such id";
* `outfile`: `opt.outfile`; `create_fails`: `es_fopen (opt.outfile, "wb")` fails;
* `room`: how many more records the output stream accepts before
  `write_record` fails; `out_close_fails`: the final close or flush fails. -/
structure Env where
  lstat : List Byte → Option stat_t
  readdir : List Byte → Option (List (List Byte))
  readlink : List Byte → Option (List Byte)
  fopen : List Byte → Option (List Byte)
  fclose_fails : List Byte → Bool
  getpwuid : Nat → Option (List Byte)
  getgrgid : Nat → Option (List Byte)
  outfile : Option (List Byte)
  create_fails : Bool
  room : Nat
  out_close_fails : Bool

/-- The output stream: the records written so far and the room left. -/
structure Sink where
  records : List (List Byte)
  room : Nat

/-- Modelled from the spec: `write_record (stream, record)`, which is not in
this file: the sink appends the `RECORDSIZE` bytes of the record, or fails
with a system error and appends nothing. -/
def write_record (stream : Sink) (record : List Byte) : gpg_error_t × Sink :=
  if stream.room = 0 then (GPG_ERR_SYSTEM, stream)
  else (GPG_ERR_NO_ERROR,
    { records := stream.records ++ [record.take RECORDSIZE], room := stream.room - 1 })

/-! ## Identity cache: `store_uname`, `store_gname` -/

/-- Modelled from the spec: `mem2str (dest, src, n)` of the common library,
which copies the C string `src` truncated to `n - 1` bytes and terminates it
with a NUL; nothing is written when `n` is 0. -/
def mem2str (buf : List Byte) (off : Nat) (src : List Byte) (n : Nat) : List Byte :=
  if n = 0 then buf
  else
    let s := (cstring src).take (n - 1)
    (memcpy buf off s).set (off + s.length) 0

/-- The static variables of `store_uname` (and of `store_gname`):
`initialized`, `lastuid` and the C string held in `lastuname[32]`. -/
structure NameCache where
  initialized : Bool
  lastid : Nat
  lastname : List Byte
  deriving DecidableEq, Repr

/-- The statics of both functions; all zero when the program starts. -/
structure IdCache where
  uname : NameCache
  gname : NameCache
  deriving DecidableEq, Repr

/-- The statics of the identity cache when the program starts. -/
def initial_cache : IdCache := ⟨⟨false, 0, []⟩, ⟨false, 0, []⟩⟩

/-- The common body of `store_uname` and `store_gname`, which differ only in
the lookup (`getpwuid` / `getgrgid`) and in their statics. -/
def store_name_of_id (lookup : Nat → Option (List Byte)) (c : NameCache)
    (buf : List Byte) (off length id : Nat) : List Byte × NameCache :=
  let c1 : NameCache :=
    if ¬ c.initialized ∨ id ≠ c.lastid then
      match lookup id with
      | some nm => ⟨true, id, (cstring nm).take (32 - 1)⟩
      | none => ⟨true, id, []⟩
    else c
  (mem2str buf off c1.lastname length, c1)

/-- `store_uname (buffer, length, uid)`. -/
def store_uname (env : Env) (c : IdCache) (buf : List Byte) (off length uid : Nat) :
    List Byte × IdCache :=
  let r := store_name_of_id env.getpwuid c.uname buf off length uid
  (r.1, { c with uname := r.2 })

/-- `store_gname (buffer, length, gid)`. -/
def store_gname (env : Env) (c : IdCache) (buf : List Byte) (off length gid : Nat) :
    List Byte × IdCache :=
  let r := store_name_of_id env.getgrgid c.gname buf off length gid
  (r.1, { c with gname := r.2 })

/-! ## Header encoder: `build_header` -/

/-- The search `for (n--; n ; n--) if (hdr->name[n] == '/') break;` of
`build_header`, started at the already decremented `n`; the result is the
final `n` (0 when no slash was found at an index above 0). -/
def find_slash (name : List Byte) : Nat → Nat
  | 0 => 0
  | n + 1 => if name.getD (n + 1) 0 = 47 then n + 1 else find_slash name n

/-- "Store name and prefix" of `build_header` (source lines 398-422);
`none` is the `GPG_ERR_TOO_LARGE` return. -/
def store_name_fields (record : List Byte) (name : List Byte) : Option (List Byte) :=
  let namelen := name.length
  if namelen < RawField.name.sizeof then
    some (memcpy record RawField.name.offset name)
  else
    let n := if namelen < RawField.pfx.sizeof then namelen else RawField.pfx.sizeof
    let n := find_slash name (n - 1)
    if namelen - n < RawField.name.sizeof then
      let record := memcpy record RawField.pfx.offset (name.take n)
      some (memcpy record RawField.name.offset (name.drop (n + 1) ++ [0]))
    else none

/-- The five `store_xoctal` calls of `build_header` (source lines 424-428);
`none` is an abort inside `store_xoctal`. -/
def store_numeric_fields (record : List Byte) (hdr : tar_header) : Option (List Byte) := do
  let record ← store_xoctal record RawField.mode.offset RawField.mode.sizeof hdr.mode
  let record ← store_xoctal record RawField.uid.offset RawField.uid.sizeof hdr.uid
  let record ← store_xoctal record RawField.gid.offset RawField.gid.sizeof hdr.gid
  let record ← store_xoctal record RawField.size.offset RawField.size.sizeof hdr.size
  store_xoctal record RawField.mtime.offset RawField.mtime.sizeof hdr.mtime

/-- The `switch (hdr->typeflag)` of `build_header`: the typeflag character,
`none` for the `default:` case. -/
def typeflag_char : typeflag_t → Option Byte
  | TF_REGULAR => some 48
  | TF_HARDLINK => some 49
  | TF_SYMLINK => some 50
  | TF_CHARDEV => some 51
  | TF_BLOCKDEV => some 52
  | TF_DIRECTORY => some 53
  | TF_FIFO => some 54
  | _ => none

/-- The sum loop `for (n=0; n < RECORDSIZE; n++) chksum += *p++;`. -/
def sum_bytes (record : List Byte) : Nat :=
  ((record.take RECORDSIZE).map Fin.val).sum

/-- "Compute the checksum" of `build_header` (source lines 465-472);
`none` is an abort inside `store_xoctal`. -/
def store_checksum (record : List Byte) : Option (List Byte) :=
  let record := memset record RawField.checksum.offset 32 RawField.checksum.sizeof
  let chksum := sum_bytes record
  match store_xoctal record RawField.checksum.offset (RawField.checksum.sizeof - 1) chksum with
  | none => none
  | some record => some (record.set (RawField.checksum.offset + 7) 32)

/-- `build_header (record, hdr)`.  The result is the returned error code, the
contents of `record` at the return and the statics of the identity cache;
`none` is an abort of the process inside `store_xoctal`. -/
def build_header (env : Env) (cache : IdCache) (hdr : tar_header) :
    Option (gpg_error_t × List Byte × IdCache) :=
  let record := List.replicate RECORDSIZE (0 : Byte)
  match store_name_fields record hdr.name with
  | none => some (GPG_ERR_TOO_LARGE, record, cache)
  | some record =>
    match store_numeric_fields record hdr with
    | none => none
    | some record =>
      match typeflag_char hdr.typeflag with
      | none => some (GPG_ERR_NOT_SUPPORTED, record, cache)
      | some c =>
        let record := record.set RawField.typeflag.offset c
        let record := memcpy record RawField.magic.offset [117, 115, 116, 97, 114, 0]
        let record := record.set RawField.version.offset 48
        let record := record.set (RawField.version.offset + 1) 48
        let ru := store_uname env cache record RawField.uname.offset RawField.uname.sizeof hdr.uid
        let rg := store_gname env ru.2 ru.1 RawField.gname.offset RawField.gname.sizeof hdr.gid
        let record := rg.1
        let cache := rg.2
        let linked : Option (List Byte) :=
          if hdr.typeflag = TF_SYMLINK then
            match env.readlink hdr.name with
            | none => none
            | some target =>
              let got := target.take (RawField.linkname.sizeof - 1)
              some ((memcpy record RawField.linkname.offset got).set
                (RawField.linkname.offset + got.length) 0)
          else some record
        match linked with
        | none => some (GPG_ERR_SYSTEM, record, cache)
        | some record =>
          match store_checksum record with
          | none => none
          | some record => some (GPG_ERR_NO_ERROR, record, cache)

/-! ## Archive writer: `write_file`, `write_eof_mark` -/

/-- The data loop `while (hdr->nrecords--) { ... }` of `write_file` for an
entry of size `size`, on the counter `hdr->nrecords`.  `es_fread` takes the
next `nbytes` readable bytes of `infp` into the start of `record`; the rest
of `record` keeps what it held.  The result is the error code, the output
stream, `record` and what is left of `infp`. -/
def write_data (size : Nat) :
    Nat → Sink → List Byte → List Byte → gpg_error_t × Sink × List Byte × List Byte
  | 0, stream, record, infp => (GPG_ERR_NO_ERROR, stream, record, infp)
  | k + 1, stream, record, infp =>
    let nbytes := if k ≠ 0 then RECORDSIZE else size % RECORDSIZE
    let got := infp.take nbytes
    let record := memcpy record 0 got
    let infp := infp.drop nbytes
    if got.length ≠ nbytes then (GPG_ERR_SYSTEM, stream, record, infp)
    else
      let w := write_record stream record
      if w.1 ≠ GPG_ERR_NO_ERROR then (w.1, w.2, record, infp)
      else write_data size k w.2 record infp

/-- `write_file (stream, hdr)`.  The result is the returned error code, the
output stream and the identity cache; `none` is an abort of the process.
`hdr->nrecords` is computed in 64-bit arithmetic. -/
def write_file (env : Env) (cache : IdCache) (stream : Sink) (hdr : tar_header) :
    Option (gpg_error_t × Sink × IdCache) :=
  match build_header env cache hdr with
  | none => none
  | some (err, record, cache) =>
    if err ≠ GPG_ERR_NO_ERROR then
      if err = GPG_ERR_NOT_SUPPORTED then some (GPG_ERR_NO_ERROR, stream, cache)
      else some (err, stream, cache)
    else
      let opened : Option (Option (List Byte)) :=
        if hdr.typeflag = TF_REGULAR then
          match env.fopen hdr.name with
          | none => none
          | some data => some (some data)
        else some none
      match opened with
      | none => some (GPG_ERR_SYSTEM, stream, cache)
      | some infp =>
        let w := write_record stream record
        if w.1 ≠ GPG_ERR_NO_ERROR then some (w.1, w.2, cache)
        else
          let d : gpg_error_t × Sink :=
            if hdr.typeflag = TF_REGULAR then
              let nrecords := (hdr.size + RECORDSIZE - 1) % 2 ^ 64 / RECORDSIZE
              let r := write_data hdr.size nrecords w.2 record (infp.getD [])
              (r.1, r.2.1)
            else (GPG_ERR_NO_ERROR, w.2)
          if d.1 ≠ GPG_ERR_NO_ERROR then some (d.1, d.2, cache)
          else if infp.isSome ∧ env.fclose_fails hdr.name then some (GPG_ERR_SYSTEM, d.2, cache)
          else some (GPG_ERR_NO_ERROR, d.2, cache)

/-- `write_eof_mark (stream)`. -/
def write_eof_mark (stream : Sink) : gpg_error_t × Sink :=
  let record := List.replicate RECORDSIZE (0 : Byte)
  let w := write_record stream record
  if w.1 = GPG_ERR_NO_ERROR then write_record w.2 record else w

/-! ## Filesystem scanner -/

/-- The file type bits of `st_mode` (`S_IFMT` and the `S_IF*` values of
`<sys/stat.h>`), as tested by `S_ISREG` .. `S_ISLNK`. -/
def stat_type (st_mode : Nat) : typeflag_t :=
  let fmt := st_mode &&& 0o170000
  if fmt = 0o100000 then TF_REGULAR
  else if fmt = 0o040000 then TF_DIRECTORY
  else if fmt = 0o020000 then TF_CHARDEV
  else if fmt = 0o060000 then TF_BLOCKDEV
  else if fmt = 0o010000 then TF_FIFO
  else if fmt = 0o120000 then TF_SYMLINK
  else TF_NOTSUP

/-- The mode bits `fillup_entry` sets: each `if (sbuf.st_mode & S_Ixxx)
hdr->mode |= bit;` with the POSIX values of the macros.  `S_IXUID` and
`S_IXGID` are not POSIX macros, so those two blocks are compiled out. -/
def stat_mode_bits (st_mode : Nat) : Nat :=
  [0o400, 0o200, 0o100, 0o040, 0o020, 0o010, 0o004, 0o002, 0o001, 0o1000].foldl
    (fun mode bit => if st_mode &&& bit ≠ 0 then mode ||| bit else mode) 0

/-- `fillup_entry (hdr)` for a fresh (zeroed) header that has only its name
set; `none` is the "error stat-ing" return. -/
def fillup_entry (env : Env) (name : List Byte) : Option tar_header :=
  match env.lstat name with
  | none => none
  | some sbuf =>
    let tf := stat_type sbuf.st_mode
    some
      { mode := stat_mode_bits sbuf.st_mode
        nlink := sbuf.st_nlink % 2 ^ 64
        uid := sbuf.st_uid % 2 ^ 64
        gid := sbuf.st_gid % 2 ^ 64
        size := if tf = TF_REGULAR then sbuf.st_size % 2 ^ 64 else 0
        mtime := sbuf.st_mtime % 2 ^ 64
        typeflag := tf
        nrecords := 0
        name := name }

/-- The scan control object `struct scanctrl_s`: the list (`flist`, with
`flist_tail` its end) and the nesting level. -/
structure scanctrl_s where
  flist : List tar_header
  nestlevel : Nat

/-- `add_entry (dname, dnamelen, de, scanctrl)`, `de` being `none` for `NULL`.
Both callers pass a non-empty `dname`.  The allocation is taken to succeed,
so the function returns 0 and only the list changes. -/
def add_entry (env : Env) (dname : List Byte) (de : Option (List Byte))
    (scanctrl : scanctrl_s) : scanctrl_s :=
  let name :=
    match de with
    | some d_name =>
      if dname.getD (dname.length - 1) 0 ≠ 47 then dname ++ [47] ++ d_name
      else dname ++ d_name
    | none =>
      if dname.getD (dname.length - 1) 0 = 47 then dname.take (dname.length - 1)
      else dname
  match fillup_entry env name with
  | none => scanctrl
  | some hdr => { scanctrl with flist := scanctrl.flist ++ [hdr] }

/-- `scan_directory (dname, scanctrl)`. -/
def scan_directory (env : Env) (dname : List Byte) (scanctrl : scanctrl_s) :
    gpg_error_t × scanctrl_s :=
  if dname.length = 0 then (GPG_ERR_NO_ERROR, scanctrl)
  else
    match env.readdir dname with
    | none => (GPG_ERR_SYSTEM, scanctrl)
    | some des =>
      (GPG_ERR_NO_ERROR,
        des.foldl
          (fun sc d_name =>
            if d_name = [46] ∨ d_name = [46, 46] then sc
            else add_entry env dname (some d_name) sc)
          scanctrl)

/-- `scan_recursive (dname, scanctrl)`.  The first argument bounds the depth
of the C recursion; the test `nestlevel > 200` ends the recursion before the
bound is used up when the bound is at least `202 - nestlevel`.  The loop
over `hdr` visits the entries `scan_directory` appended (from `*start_tail`
up to `*stop_tail`). -/
def scan_recursive (env : Env) : Nat → List Byte → scanctrl_s → gpg_error_t × scanctrl_s
  | 0, _, scanctrl => (GPG_ERR_RESOURCE_LIMIT, scanctrl)
  | fuel + 1, dname, scanctrl =>
    if scanctrl.nestlevel > 200 then (GPG_ERR_RESOURCE_LIMIT, scanctrl)
    else
      let sc1 : scanctrl_s := { scanctrl with nestlevel := scanctrl.nestlevel + 1 }
      let start_tail := sc1.flist.length
      let sc2 := (scan_directory env dname sc1).2
      let sc3 := (sc2.flist.drop start_tail).foldl
        (fun sc hdr =>
          if hdr.typeflag = TF_DIRECTORY then (scan_recursive env fuel hdr.name sc).2
          else sc)
        sc2
      (GPG_ERR_NO_ERROR, { sc3 with nestlevel := sc3.nestlevel - 1 })

/-- `pattern_valid_p (pattern)`. -/
def pattern_valid_p (pattern : List Byte) : Bool :=
  if pattern.getD 0 0 = 0 then false
  else if pattern.getD 0 0 = 46 ∧ pattern.getD 1 0 = 46 then false
  else if pattern.getD 0 0 = 47 then false
  else true

/-- The pattern loop of `gpgtar_create` (source lines 580-593). -/
def scan_patterns (env : Env) (inpattern : List (List Byte)) (scanctrl : scanctrl_s) :
    scanctrl_s :=
  inpattern.foldl
    (fun sc pattern =>
      if pattern.getD 0 0 = 0 then sc
      else if ¬ pattern_valid_p pattern then sc
      else
        let start_tail := sc.flist.length
        let sc1 := add_entry env pattern none sc
        match sc1.flist.drop start_tail with
        | hdr :: _ =>
          if hdr.typeflag.code &&& TF_DIRECTORY.code ≠ 0 then
            (scan_recursive env 202 pattern sc1).2
          else sc1
        | [] => sc1)
    scanctrl

/-! ## `gpgtar_create` -/

/-- The loop `for (hdr = scanctrl->flist; hdr; hdr = hdr->next)` of
`gpgtar_create` with its `goto leave` on the first error. -/
def write_files (env : Env) :
    IdCache → Sink → List tar_header → Option (gpg_error_t × Sink × IdCache)
  | cache, stream, [] => some (GPG_ERR_NO_ERROR, stream, cache)
  | cache, stream, hdr :: rest =>
    match write_file env cache stream hdr with
    | none => none
    | some (err, stream, cache) =>
      if err ≠ GPG_ERR_NO_ERROR then some (err, stream, cache)
      else write_files env cache stream rest

/-- What `gpgtar_create` leaves behind: the final value of `err`, the records
written to the output stream, and whether `gnupg_remove (opt.outfile)` ran. -/
structure Created where
  err : gpg_error_t
  records : List (List Byte)
  removed : Bool

/-- The writing half of `gpgtar_create` (source lines 595-636) for the list
the scan produced and the statics `cache`; `none` is an abort of the process. -/
def create_archive (env : Env) (cache : IdCache) (flist : List tar_header) :
    Option Created :=
  if env.outfile.isSome ∧ env.create_fails then
    some { err := GPG_ERR_SYSTEM, records := [], removed := true }
  else
    match write_files env cache { records := [], room := env.room } flist with
    | none => none
    | some (err, stream, _) =>
      let e : gpg_error_t × Sink :=
        if err ≠ GPG_ERR_NO_ERROR then (err, stream) else write_eof_mark stream
      let err :=
        if e.1 = GPG_ERR_NO_ERROR then
          (if env.out_close_fails then GPG_ERR_SYSTEM else GPG_ERR_NO_ERROR)
        else e.1
      some { err := err, records := e.2.records,
             removed := decide (err ≠ GPG_ERR_NO_ERROR ∧ env.outfile.isSome) }

/-- `gpgtar_create (inpattern)`, run from the initial statics. -/
def gpgtar_create (env : Env) (inpattern : List (List Byte)) : Option Created :=
  let scanctrl := scan_patterns env inpattern { flist := [], nestlevel := 0 }
  create_archive env initial_cache scanctrl.flist


/-! ## The identity cache as the spec describes it -/

/-- The test `!initialized || uid != lastuid` of `store_uname` (and of
`store_gname`): whether the call performs the external lookup. -/
def lookup_performed (c : NameCache) (id : Nat) : Bool :=
  decide (¬ c.initialized ∨ id ≠ c.lastid)

/-- A run of calls of the common body of `store_uname` / `store_gname` on the
ids given, each call writing at `buf + off`: for every call the buffer it
leaves and whether it performed the lookup. -/
def store_name_run (lookup : Nat → Option (List Byte)) (buf : List Byte) (off length : Nat) :
    NameCache → List Nat → List (List Byte × Bool)
  | _, [] => []
  | c, id :: ids =>
    ((store_name_of_id lookup c buf off length id).1, lookup_performed c id) ::
      store_name_run lookup buf off length (store_name_of_id lookup c buf off length id).2 ids

/-- The name of an id as the spec words it: the looked-up name truncated to
31 bytes, or the empty string when the lookup finds no name. -/
def uncached_name (lookup : Nat → Option (List Byte)) (id : Nat) : List Byte :=
  match lookup id with
  | some nm => (cstring nm).take 31
  | none => []

/-- An implementation without a cache, as the spec words it: look the id up
and write the name, NUL-terminated. -/
def store_name_uncached (lookup : Nat → Option (List Byte)) (buf : List Byte)
    (off length id : Nat) : List Byte :=
  mem2str buf off (uncached_name lookup id) length

/-- When the lookup is performed, as the spec words it: on the first call
(`prev = none`) and on every call whose id differs from the previous one. -/
def lookup_expected : Option Nat → List Nat → List Bool
  | _, [] => []
  | prev, id :: ids => decide (prev ≠ some id) :: lookup_expected (some id) ids

/-! ## The nesting level during a scan -/

/-- The largest value `scanctrl->nestlevel` holds while `scan_recursive
(dname, scanctrl)` runs: the value at entry, the value after `nestlevel++`,
and the values during the nested calls, which are made on the states
`scan_recursive` itself passes on. -/
def nestlevel_peak (env : Env) : Nat → List Byte → scanctrl_s → Nat
  | 0, _, scanctrl => scanctrl.nestlevel
  | fuel + 1, dname, scanctrl =>
    if scanctrl.nestlevel > 200 then scanctrl.nestlevel
    else
      let sc1 : scanctrl_s := { scanctrl with nestlevel := scanctrl.nestlevel + 1 }
      let start_tail := sc1.flist.length
      let sc2 := (scan_directory env dname sc1).2
      ((sc2.flist.drop start_tail).foldl
        (fun (p : Nat × scanctrl_s) hdr =>
          if hdr.typeflag = TF_DIRECTORY then
            (max p.1 (nestlevel_peak env fuel hdr.name p.2),
              (scan_recursive env fuel hdr.name p.2).2)
          else p)
        (sc1.nestlevel, sc2)).1

/-- The largest value `scanctrl->nestlevel` holds during the pattern loop of
`gpgtar_create`, the states being those of `scan_patterns`. -/
def scan_patterns_peak (env : Env) : List (List Byte) → scanctrl_s → Nat
  | [], scanctrl => scanctrl.nestlevel
  | pattern :: rest, scanctrl =>
    let here :=
      if pattern.getD 0 0 = 0 then scanctrl.nestlevel
      else if ¬ pattern_valid_p pattern then scanctrl.nestlevel
      else
        let sc1 := add_entry env pattern none scanctrl
        match sc1.flist.drop scanctrl.flist.length with
        | hdr :: _ =>
          if hdr.typeflag.code &&& TF_DIRECTORY.code ≠ 0 then nestlevel_peak env 202 pattern sc1
          else scanctrl.nestlevel
        | [] => scanctrl.nestlevel
    max here (scan_patterns_peak env rest (scan_patterns env [pattern] scanctrl))

/-! ## The directory walk as the spec describes it -/

/-- Whether `name` is a directory: `lstat` succeeds and reports `S_IFDIR`. -/
def is_dir (env : Env) (name : List Byte) : Bool :=
  match env.lstat name with
  | some sbuf => decide (stat_type sbuf.st_mode = TF_DIRECTORY)
  | none => false

/-- The names `d/c` for every child `c` of `d` other than `.` and `..`, in
directory-listing order; there are none when `d` cannot be listed. -/
def children (env : Env) (d : List Byte) : List (List Byte) :=
  match env.readdir d with
  | none => []
  | some des =>
    (des.filter (fun c => ¬ (c = [46] ∨ c = [46, 46]))).map (fun c => d ++ [47] ++ c)

/-- The `walk (d)` of the spec, followed through `depth` levels of
directories: the children of `d`, then the walk of each child that is a
directory, in the same order. -/
def walk (env : Env) : Nat → List Byte → List (List Byte)
  | 0, _ => []
  | depth + 1, d =>
    children env d ++ ((children env d).filter (is_dir env)).flatMap (walk env depth)

/-- The directories `depth` levels below `d` (`d` itself at level 0). -/
def dirs_below (env : Env) : Nat → List Byte → List (List Byte)
  | 0, d => [d]
  | depth + 1, d => ((children env d).filter (is_dir env)).flatMap (dirs_below env depth)

/-! ## Entry names as the spec describes them -/

/-- The names the spec allows for an entry: non-empty, not absolute (no
leading `/`) and not beginning with `..`. -/
def relative_name (name : List Byte) : Prop :=
  name ≠ [] ∧ name.head? ≠ some 47 ∧ name.take 2 ≠ [46, 46]

/-! ## Example inputs -/

/-- Collaborators in which every file holds the `bytes` given, user 0 is
`root`, no group has a name, nothing is a link or a directory, the archive
goes to standard output and the output stream accepts 100 records. -/
def example_env (bytes : List Byte) : Env where
  lstat := fun _ => none
  readdir := fun _ => none
  readlink := fun _ => none
  fopen := fun _ => some bytes
  fclose_fails := fun _ => false
  getpwuid := fun uid => if uid = 0 then some [114, 111, 111, 116] else none
  getgrgid := fun _ => none
  outfile := none
  create_fails := false
  room := 100
  out_close_fails := false

/-- A regular file entry (mode 0644, owner 0:0) of the given name and size. -/
def example_entry (name : List Byte) (size : Nat) : tar_header :=
  { mode := 0o644, nlink := 1, uid := 0, gid := 0, size := size, mtime := 1234567,
    typeflag := TF_REGULAR, nrecords := 0, name := name }

/-- A 121-byte name: sixty `a`, a slash, sixty `b`. -/
def example_long_name : List Byte :=
  List.replicate 60 97 ++ [47] ++ List.replicate 60 98

/-- A 101-byte name `a/bbb...b` whose only slash is followed by 99 bytes. -/
def example_name_99 : List Byte :=
  [97, 47] ++ List.replicate 99 98

/-- An entry of a type `build_header` does not support (a socket, say). -/
def example_unsupported (name : List Byte) : tar_header :=
  { mode := 0o644, nlink := 1, uid := 0, gid := 0, size := 0, mtime := 1234567,
    typeflag := TF_NOTSUP, nrecords := 0, name := name }

/-- A filesystem with one regular file `f` for which `lstat` reports 1000
bytes and of which only 500 bytes can be read; the archive goes to the owned
output file `out`. -/
def example_shrunk_env : Env :=
  { example_env (List.replicate 500 120) with
    lstat := fun name =>
      if name = [102] then some ⟨0o100644, 1, 0, 0, 1000, 1234567⟩ else none
    outfile := some [111, 117, 116] }

/-- A filesystem in which every name is a directory that lists the one
child `d`: directories nest without bound. -/
def example_deep_env : Env :=
  { example_env [] with
    lstat := fun _ => some ⟨0o040755, 2, 0, 0, 0, 1234567⟩
    readdir := fun _ => some [[100]] }

/-- The directory `src` holding the 10-byte file `a.txt` and the empty
directory `sub`, listed in that order after `.` and `..`. -/
def example_src_env : Env :=
  { example_env (List.replicate 10 120) with
    lstat := fun name =>
      if name = [115, 114, 99] then some ⟨0o040755, 2, 0, 0, 4096, 1234567⟩
      else if name = [115, 114, 99, 47, 97, 46, 116, 120, 116] then
        some ⟨0o100644, 1, 0, 0, 10, 1234567⟩
      else if name = [115, 114, 99, 47, 115, 117, 98] then
        some ⟨0o040755, 2, 0, 0, 4096, 1234567⟩
      else none
    readdir := fun name =>
      if name = [115, 114, 99] then
        some [[46], [46, 46], [97, 46, 116, 120, 116], [115, 117, 98]]
      else if name = [115, 114, 99, 47, 115, 117, 98] then some [[46], [46, 46]]
      else none }

/-! ## Lemmas on byte buffers -/

theorem byte_val (x : Nat) : (byte x).val = x % 256 := rfl

theorem length_memcpy (src : List Byte) : ∀ (buf : List Byte) (off : Nat),
    (memcpy buf off src).length = buf.length := by
  induction src with
  | nil => intro buf off; rfl
  | cons b bs ih => intro buf off; simp [memcpy, ih]

theorem length_memset (c : Byte) (n : Nat) : ∀ (buf : List Byte) (off : Nat),
    (memset buf off c n).length = buf.length := by
  induction n with
  | zero => intro buf off; rfl
  | succ n ih => intro buf off; simp [memset, ih]

theorem getElem?_memcpy (src : List Byte) : ∀ (buf : List Byte) (off i : Nat),
    off + src.length ≤ buf.length →
    (memcpy buf off src)[i]? =
      if off ≤ i ∧ i < off + src.length then src[i - off]? else buf[i]? := by
  induction src with
  | nil => intro buf off i _; rw [memcpy, if_neg (by simp)]
  | cons b bs ih =>
    intro buf off i h
    simp only [List.length_cons] at h
    rw [memcpy, ih _ _ _ (by simp; omega)]
    by_cases h1 : off + 1 ≤ i ∧ i < off + 1 + bs.length
    · rw [if_pos h1, if_pos (by simp only [List.length_cons]; omega)]
      have : i - off = (i - (off + 1)) + 1 := by omega
      rw [this, List.getElem?_cons_succ]
    · rw [if_neg h1, List.getElem?_set]
      by_cases h2 : off = i
      · subst h2
        rw [if_pos rfl, if_pos (by omega), if_pos (by simp only [List.length_cons]; omega)]
        simp
      · rw [if_neg h2, if_neg (by simp only [List.length_cons]; omega)]

theorem getElem?_memset (c : Byte) (n : Nat) : ∀ (buf : List Byte) (off i : Nat),
    off + n ≤ buf.length →
    (memset buf off c n)[i]? = if off ≤ i ∧ i < off + n then some c else buf[i]? := by
  induction n with
  | zero => intro buf off i _; rw [memset, if_neg (by omega)]
  | succ n ih =>
    intro buf off i h
    rw [memset, ih _ _ _ (by simp; omega)]
    by_cases h1 : off + 1 ≤ i ∧ i < off + 1 + n
    · rw [if_pos h1, if_pos (by omega)]
    · rw [if_neg h1, List.getElem?_set]
      by_cases h2 : off = i
      · subst h2
        rw [if_pos rfl, if_pos (by omega), if_pos (by omega)]
      · rw [if_neg h2, if_neg (by omega)]

theorem getElem?_field (buf : List Byte) (off len i : Nat) :
    (field buf off len)[i]? = if i < len then buf[off + i]? else none := by
  simp [field, List.getElem?_take, List.getElem?_drop]

theorem length_field (buf : List Byte) (off len : Nat) (h : off + len ≤ buf.length) :
    (field buf off len).length = len := by
  simp [field]; omega

/-- Two buffers that agree on `[off, off+len)` have the same field there. -/
theorem field_congr (a b : List Byte) (off len : Nat)
    (h : ∀ i, off ≤ i → i < off + len → a[i]? = b[i]?) :
    field a off len = field b off len := by
  apply List.ext_getElem?
  intro i
  rw [getElem?_field, getElem?_field]
  by_cases hi : i < len
  · rw [if_pos hi, if_pos hi]; exact h _ (by omega) (by omega)
  · rw [if_neg hi, if_neg hi]

/-! ## Lemmas on `store_xoctal` -/

theorem digit_loop_spec (base zch : Nat) : ∀ (n : Nat) (buf : List Byte) (p v : Nat),
    n + 1 ≤ p → p ≤ buf.length →
    ∃ k, 1 ≤ k ∧ k ≤ n + 1 ∧
      (digit_loop base zch buf p v (n + 1)).p = p - k ∧
      (digit_loop base zch buf p v (n + 1)).n = n + 1 - k ∧
      (digit_loop base zch buf p v (n + 1)).v = v / base ^ k ∧
      (digit_loop base zch buf p v (n + 1)).buf.length = buf.length ∧
      ((digit_loop base zch buf p v (n + 1)).v = 0 ∨
        (digit_loop base zch buf p v (n + 1)).n = 0) ∧
      ∀ i, (digit_loop base zch buf p v (n + 1)).buf[i]? =
        if p - k ≤ i ∧ i < p then some (byte (zch + v / base ^ (p - 1 - i) % base)) else buf[i]? := by
  intro n
  induction n with
  | zero =>
    intro buf p v hp hl
    refine ⟨1, le_refl _, le_refl _, ?_, ?_, ?_, ?_, ?_, ?_⟩ <;> simp only [digit_loop]
    all_goals simp
    intro i
    rw [List.getElem?_set]
    by_cases h : p - 1 = i
    · subst h
      rw [if_pos rfl, if_pos (by omega), if_pos (by omega)]
      simp
    · rw [if_neg h, if_neg (by omega)]
  | succ n ih =>
    intro buf p v hp hl
    by_cases hc : v / base ≠ 0 ∧ n + 1 ≠ 0
    · have hrec : digit_loop base zch buf p v (n + 1 + 1) =
          digit_loop base zch (buf.set (p - 1) (byte (zch + v % base))) (p - 1) (v / base) (n + 1) := by
        rw [digit_loop]; exact if_pos hc
      obtain ⟨k, hk1, hk2, h1, h2, h3, h4, h5, h6⟩ :=
        ih (buf.set (p - 1) (byte (zch + v % base))) (p - 1) (v / base) (by omega) (by simp; omega)
      rw [hrec]
      refine ⟨k + 1, by omega, by omega, ?_, ?_, ?_, ?_, h5, ?_⟩
      · rw [h1]; omega
      · rw [h2]; omega
      · rw [h3, Nat.div_div_eq_div_mul, pow_succ, Nat.mul_comm]
      · rw [h4]; simp
      · intro i
        rw [h6 i, List.getElem?_set]
        by_cases hi : p - 1 - k ≤ i ∧ i < p - 1
        · rw [if_pos hi, if_pos (by omega)]
          have : p - 1 - i = (p - 1 - 1 - i) + 1 := by omega
          rw [this, pow_succ, Nat.mul_comm, ← Nat.div_div_eq_div_mul]
        · rw [if_neg hi]
          by_cases h : p - 1 = i
          · subst h
            rw [if_pos rfl, if_pos (by omega), if_pos (by omega)]
            simp
          · rw [if_neg h, if_neg (by omega)]
    · have hrec : digit_loop base zch buf p v (n + 1 + 1) =
          ⟨buf.set (p - 1) (byte (zch + v % base)), p - 1, v / base, n + 1⟩ := by
        rw [digit_loop]; exact if_neg hc
      rw [hrec]
      have hv : v / base = 0 := by
        by_contra h; exact hc ⟨h, by omega⟩
      refine ⟨1, le_refl _, by omega, rfl, by simp, by simp, by simp, Or.inl hv, ?_⟩
      intro i
      simp only []
      rw [List.getElem?_set]
      by_cases h : p - 1 = i
      · subst h
        rw [if_pos rfl, if_pos (by omega), if_pos (by omega)]
        simp
      · rw [if_neg h, if_neg (by omega)]

theorem pad_loop_spec (c : Byte) : ∀ (n : Nat) (buf : List Byte) (p : Nat),
    n ≤ p → p ≤ buf.length →
    (pad_loop c buf p n).2 = p - n ∧ (pad_loop c buf p n).1.length = buf.length ∧
    ∀ i, (pad_loop c buf p n).1[i]? = if p - n ≤ i ∧ i < p then some c else buf[i]? := by
  intro n
  induction n with
  | zero =>
    intro buf p _ _
    refine ⟨rfl, rfl, ?_⟩
    intro i
    rw [if_neg (by omega)]; rfl
  | succ n ih =>
    intro buf p hp hl
    obtain ⟨h1, h2, h3⟩ := ih (buf.set (p - 1) c) (p - 1) (by omega) (by simp; omega)
    rw [pad_loop]
    refine ⟨by rw [h1]; omega, by rw [h2]; simp, ?_⟩
    intro i
    rw [h3 i, List.getElem?_set]
    by_cases hi : p - 1 - n ≤ i ∧ i < p - 1
    · rw [if_pos hi, if_pos (by omega)]
    · rw [if_neg hi]
      by_cases h : p - 1 = i
      · subst h
        rw [if_pos rfl, if_pos (by omega), if_pos (by omega)]
      · rw [if_neg h, if_neg (by omega)]


theorem div_pow_eq_zero_of_le (b v k e : Nat) (hb : 0 < b) (h : v / b ^ k = 0) (hke : k ≤ e) :
    v / b ^ e = 0 := by
  have h1 : v < b ^ k := by
    by_contra hc
    have := Nat.div_pos (Nat.le_of_not_lt hc) (Nat.pow_pos hb)
    omega
  exact Nat.div_eq_of_lt (lt_of_lt_of_le h1 (Nat.pow_le_pow_right hb hke))

theorem xoctal_octal_fits (buf : List Byte) (off m v : Nat) (hl : off + (m + 2) ≤ buf.length) :
    (xoctal_octal buf off (m + 2) v).v = 0 ↔ v < 8 ^ (m + 1) := by
  obtain ⟨k, hk1, hk2, -, h2, h3, -, h5, -⟩ :=
    digit_loop_spec 8 48 m (buf.set (off + (m + 2) - 1) 0) (off + (m + 2) - 1) v
      (by omega) (by simp; omega)
  have e : xoctal_octal buf off (m + 2) v =
      digit_loop 8 48 (buf.set (off + (m + 2) - 1) 0) (off + (m + 2) - 1) v (m + 1) := rfl
  rw [e]
  constructor
  · intro h0
    rw [h3] at h0
    have := div_pow_eq_zero_of_le 8 v k (m + 1) (by omega) h0 hk2
    by_contra hc
    have := Nat.div_pos (Nat.le_of_not_lt hc) (Nat.pow_pos (by omega : 0 < 8))
    omega
  · intro hv
    rcases h5 with h | h
    · exact h
    · rw [h2] at h
      have hk : k = m + 1 := by omega
      rw [h3, hk]
      exact Nat.div_eq_of_lt hv

theorem store_xoctal_octal (buf : List Byte) (off m v : Nat)
    (hl : off + (m + 2) ≤ buf.length) (hv : v < 8 ^ (m + 1)) :
    ∃ res, store_xoctal buf off (m + 2) v = some res ∧ res.length = buf.length ∧
      ∀ i, res[i]? =
        if off ≤ i ∧ i < off + m + 1 then some (byte (48 + v / 8 ^ (off + m - i) % 8))
        else if i = off + m + 1 then some 0 else buf[i]? := by
  have hfit := (xoctal_octal_fits buf off m v hl).2 hv
  obtain ⟨k, hk1, hk2, h1, h2, h3, h4, -, h6⟩ :=
    digit_loop_spec 8 48 m (buf.set (off + (m + 2) - 1) 0) (off + (m + 2) - 1) v
      (by omega) (by simp; omega)
  have e : xoctal_octal buf off (m + 2) v =
      digit_loop 8 48 (buf.set (off + (m + 2) - 1) 0) (off + (m + 2) - 1) v (m + 1) := rfl
  rw [← e] at h1 h2 h3 h4 h6
  obtain ⟨-, q2, q3⟩ := pad_loop_spec 48 (xoctal_octal buf off (m + 2) v).n
    (xoctal_octal buf off (m + 2) v).buf (xoctal_octal buf off (m + 2) v).p
    (by rw [h1, h2]; omega) (by rw [h1, h4]; simp; omega)
  refine ⟨(pad_loop 48 (xoctal_octal buf off (m + 2) v).buf (xoctal_octal buf off (m + 2) v).p
    (xoctal_octal buf off (m + 2) v).n).1, ?_, ?_, ?_⟩
  · unfold store_xoctal
    rw [if_neg (by omega)]
    simp only []
    rw [if_pos hfit]
  · rw [q2, h4]; simp
  · intro i
    rw [q3 i, h6 i, h1, h2, List.getElem?_set]
    rw [h3] at hfit
    by_cases ha : off + (m + 2) - 1 - k - (m + 1 - k) ≤ i ∧ i < off + (m + 2) - 1 - k
    · rw [if_pos ha, if_pos (by omega)]
      rw [div_pow_eq_zero_of_le 8 v k (off + m - i) (by omega) hfit (by omega)]
      rfl
    · rw [if_neg ha]
      by_cases hb : off + (m + 2) - 1 - k ≤ i ∧ i < off + (m + 2) - 1
      · rw [if_pos hb, if_pos (by omega)]
        have : off + (m + 2) - 1 - 1 - i = off + m - i := by omega
        rw [this]
      · rw [if_neg hb]
        by_cases hc : off + (m + 2) - 1 = i
        · rw [if_pos hc, if_pos (by omega), if_neg (by omega), if_pos (by omega)]
        · rw [if_neg hc, if_neg (by omega), if_neg (by omega)]


theorem land_128_of_lt : ∀ x, x < 128 → x &&& 128 = 0 := by decide

theorem lor_128_of_lt : ∀ x, x < 128 → x ||| 128 = x + 128 := by decide

set_option maxRecDepth 8192 in
theorem land_128_of_ge : ∀ x, x < 256 → 128 ≤ x → x &&& 128 ≠ 0 := by decide

theorem two_pow_bits (m : Nat) : 2 ^ (8 * (m + 2) - 1) = 128 * 256 ^ (m + 1) := by
  have : 8 * (m + 2) - 1 = 8 * (m + 1) + 7 := by omega
  rw [this, pow_add, pow_mul]
  norm_num
  ring

/-- The binary attempt of `store_xoctal` on any buffer: the byte loop followed
by the zero padding writes the big-endian bytes of `v` over the whole field. -/
theorem binary_phase (buf0 : List Byte) (off m v : Nat) (hl : off + (m + 2) ≤ buf0.length) :
    ((digit_loop 256 0 buf0 (off + (m + 2)) v (m + 2)).v = 0 ↔ v < 256 ^ (m + 2)) ∧
    ((digit_loop 256 0 buf0 (off + (m + 2)) v (m + 2)).v = 0 →
      (pad_loop 0 (digit_loop 256 0 buf0 (off + (m + 2)) v (m + 2)).buf
        (digit_loop 256 0 buf0 (off + (m + 2)) v (m + 2)).p
        (digit_loop 256 0 buf0 (off + (m + 2)) v (m + 2)).n).2 = off ∧
      (pad_loop 0 (digit_loop 256 0 buf0 (off + (m + 2)) v (m + 2)).buf
        (digit_loop 256 0 buf0 (off + (m + 2)) v (m + 2)).p
        (digit_loop 256 0 buf0 (off + (m + 2)) v (m + 2)).n).1.length = buf0.length ∧
      ∀ i, (pad_loop 0 (digit_loop 256 0 buf0 (off + (m + 2)) v (m + 2)).buf
        (digit_loop 256 0 buf0 (off + (m + 2)) v (m + 2)).p
        (digit_loop 256 0 buf0 (off + (m + 2)) v (m + 2)).n).1[i]? =
        if off ≤ i ∧ i < off + (m + 2) then some (byte (v / 256 ^ (off + m + 1 - i) % 256))
        else buf0[i]?) := by
  obtain ⟨k, hk1, hk2, h1, h2, h3, h4, h5, h6⟩ :=
    digit_loop_spec 256 0 (m + 1) buf0 (off + (m + 2)) v (by omega) hl
  generalize digit_loop 256 0 buf0 (off + (m + 2)) v (m + 2) = b at *
  constructor
  · constructor
    · intro h0
      rw [h3] at h0
      have := div_pow_eq_zero_of_le 256 v k (m + 2) (by omega) h0 hk2
      by_contra hc
      have := Nat.div_pos (Nat.le_of_not_lt hc) (Nat.pow_pos (by omega : 0 < 256))
      omega
    · intro hv
      rcases h5 with h | h
      · exact h
      · rw [h2] at h
        have hk : k = m + 2 := by omega
        rw [h3, hk]
        exact Nat.div_eq_of_lt hv
  · intro h0
    obtain ⟨q1, q2, q3⟩ := pad_loop_spec 0 b.n b.buf b.p
      (by rw [h1, h2]; omega) (by rw [h1, h4]; omega)
    refine ⟨by rw [q1, h1, h2]; omega, by rw [q2, h4], ?_⟩
    intro i
    rw [q3 i, h6 i, h1, h2]
    rw [h3] at h0
    by_cases ha : off + (m + 2) - k - (m + 1 + 1 - k) ≤ i ∧ i < off + (m + 2) - k
    · rw [if_pos ha, if_pos (by omega)]
      rw [div_pow_eq_zero_of_le 256 v k (off + m + 1 - i) (by omega) h0 (by omega)]
      rfl
    · rw [if_neg ha]
      by_cases hb : off + (m + 2) - k ≤ i ∧ i < off + (m + 2)
      · rw [if_pos hb, if_pos (by omega)]
        have : off + (m + 2) - 1 - i = off + m + 1 - i := by omega
        rw [this, Nat.zero_add]
      · rw [if_neg hb, if_neg (by omega)]

/-- Outside the field the octal attempt leaves the buffer alone. -/
theorem xoctal_octal_frame (buf : List Byte) (off m v : Nat) (hl : off + (m + 2) ≤ buf.length) :
    (xoctal_octal buf off (m + 2) v).buf.length = buf.length ∧
    ∀ i, ¬ (off ≤ i ∧ i < off + (m + 2)) →
      (xoctal_octal buf off (m + 2) v).buf[i]? = buf[i]? := by
  obtain ⟨k, hk1, hk2, -, -, -, h4, -, h6⟩ :=
    digit_loop_spec 8 48 m (buf.set (off + (m + 2) - 1) 0) (off + (m + 2) - 1) v
      (by omega) (by simp; omega)
  have e : xoctal_octal buf off (m + 2) v =
      digit_loop 8 48 (buf.set (off + (m + 2) - 1) 0) (off + (m + 2) - 1) v (m + 1) := rfl
  rw [← e] at h4 h6
  refine ⟨by rw [h4]; simp, ?_⟩
  intro i hi
  rw [h6 i, if_neg (by omega), List.getElem?_set, if_neg (by omega)]

theorem store_xoctal_binary (buf : List Byte) (off m v : Nat)
    (hl : off + (m + 2) ≤ buf.length) (hlo : 8 ^ (m + 1) ≤ v)
    (hhi : v < 2 ^ (8 * (m + 2) - 1)) :
    ∃ res, store_xoctal buf off (m + 2) v = some res ∧ res.length = buf.length ∧
      ∀ i, res[i]? =
        if i = off then some (byte (v / 256 ^ (m + 1) + 128))
        else if off < i ∧ i < off + (m + 2) then some (byte (v / 256 ^ (off + m + 1 - i) % 256))
        else buf[i]? := by
  have hnfit : ¬ (xoctal_octal buf off (m + 2) v).v = 0 := by
    rw [xoctal_octal_fits buf off m v hl]; omega
  obtain ⟨f1, f2⟩ := xoctal_octal_frame buf off m v hl
  rw [two_pow_bits] at hhi
  have hlt : v < 256 ^ (m + 2) := by
    have : 256 ^ (m + 2) = 256 * 256 ^ (m + 1) := by ring
    omega
  have hx : v / 256 ^ (m + 1) < 128 := by
    rw [Nat.div_lt_iff_lt_mul (Nat.pow_pos (by omega))]
    omega
  obtain ⟨b1, b2⟩ := binary_phase (xoctal_octal buf off (m + 2) v).buf off m v (by rw [f1]; exact hl)
  have hb0 := b1.2 hlt
  obtain ⟨q1, q2, q3⟩ := b2 hb0
  have hs : store_xoctal buf off (m + 2) v = some
      ((pad_loop 0 (digit_loop 256 0 (xoctal_octal buf off (m + 2) v).buf
        (off + (m + 2)) v (m + 2)).buf
        (digit_loop 256 0 (xoctal_octal buf off (m + 2) v).buf (off + (m + 2)) v (m + 2)).p
        (digit_loop 256 0 (xoctal_octal buf off (m + 2) v).buf (off + (m + 2)) v (m + 2)).n).1.set
        off (byte (v / 256 ^ (m + 1) + 128))) := by
    unfold store_xoctal
    rw [if_neg (by omega)]
    simp only []
    rw [if_neg hnfit, if_pos hb0]
    generalize pad_loop 0 (digit_loop 256 0 (xoctal_octal buf off (m + 2) v).buf
        (off + (m + 2)) v (m + 2)).buf
        (digit_loop 256 0 (xoctal_octal buf off (m + 2) v).buf (off + (m + 2)) v (m + 2)).p
        (digit_loop 256 0 (xoctal_octal buf off (m + 2) v).buf (off + (m + 2)) v (m + 2)).n = q
      at q1 q2 q3
    have hget : (q.1.getD q.2 0).val = v / 256 ^ (m + 1) := by
      rw [q1, List.getD_eq_getElem?_getD, q3 off, if_pos (by omega)]
      have : off + m + 1 - off = m + 1 := by omega
      rw [this, Option.getD_some, byte_val, Nat.mod_mod, Nat.mod_eq_of_lt (by omega)]
    rw [hget, q1, if_neg (by rw [land_128_of_lt _ hx]; simp), lor_128_of_lt _ hx]
  refine ⟨_, hs, ?_, ?_⟩
  · rw [List.length_set, q2, f1]
  · intro i
    rw [List.getElem?_set, q2, f1]
    by_cases h : off = i
    · subst h
      rw [if_pos rfl, if_pos (by omega), if_pos rfl]
    · rw [if_neg h, q3 i, if_neg (show ¬ i = off from fun e => h e.symm)]
      by_cases h2 : off ≤ i ∧ i < off + (m + 2)
      · rw [if_pos h2, if_pos (by omega)]
      · rw [if_neg h2, if_neg (by omega)]
        exact f2 i h2

theorem store_xoctal_bug (buf : List Byte) (off m v : Nat)
    (hl : off + (m + 2) ≤ buf.length) (hhi : 2 ^ (8 * (m + 2) - 1) ≤ v) :
    store_xoctal buf off (m + 2) v = none := by
  have h8 : 8 ^ (m + 1) ≤ 2 ^ (8 * (m + 2) - 1) := by
    have : (8 : Nat) ^ (m + 1) = 2 ^ (3 * (m + 1)) := by rw [pow_mul]; norm_num
    rw [this]
    exact Nat.pow_le_pow_right (by omega) (by omega)
  have hnfit : ¬ (xoctal_octal buf off (m + 2) v).v = 0 := by
    rw [xoctal_octal_fits buf off m v hl]; omega
  obtain ⟨f1, -⟩ := xoctal_octal_frame buf off m v hl
  rw [two_pow_bits] at hhi
  obtain ⟨b1, b2⟩ := binary_phase (xoctal_octal buf off (m + 2) v).buf off m v (by rw [f1]; exact hl)
  unfold store_xoctal
  rw [if_neg (by omega)]
  simp only []
  rw [if_neg hnfit]
  by_cases hb0 : (digit_loop 256 0 (xoctal_octal buf off (m + 2) v).buf
      (off + (m + 2)) v (m + 2)).v = 0
  · rw [if_pos hb0]
    obtain ⟨q1, q2, q3⟩ := b2 hb0
    have hlt := b1.1 hb0
    have hx : v / 256 ^ (m + 1) < 256 := by
      rw [Nat.div_lt_iff_lt_mul (Nat.pow_pos (by omega))]
      have : 256 ^ (m + 2) = 256 * 256 ^ (m + 1) := by ring
      omega
    have hx2 : 128 ≤ v / 256 ^ (m + 1) := by
      rw [Nat.le_div_iff_mul_le (Nat.pow_pos (by omega))]
      exact hhi
    generalize pad_loop 0 (digit_loop 256 0 (xoctal_octal buf off (m + 2) v).buf
        (off + (m + 2)) v (m + 2)).buf
        (digit_loop 256 0 (xoctal_octal buf off (m + 2) v).buf (off + (m + 2)) v (m + 2)).p
        (digit_loop 256 0 (xoctal_octal buf off (m + 2) v).buf (off + (m + 2)) v (m + 2)).n = q
      at q1 q2 q3
    have hget : (q.1.getD q.2 0).val = v / 256 ^ (m + 1) := by
      rw [q1, List.getD_eq_getElem?_getD, q3 off, if_pos (by omega)]
      have : off + m + 1 - off = m + 1 := by omega
      rw [this, Option.getD_some, byte_val, Nat.mod_mod, Nat.mod_eq_of_lt hx]
    rw [hget, if_pos (land_128_of_ge _ hx hx2)]
  · rw [if_neg hb0]

/-! ## Lemmas on reading fields back -/

/-- Reading back `n` big-endian digits `zch + (v / base^(n-1-i)) % base`. -/
theorem foldl_digits (base zch : Nat) : ∀ (n : Nat) (ds : List Nat) (v : Nat),
    ds.length = n → (∀ i, i < n → ds[i]? = some (zch + v / base ^ (n - 1 - i) % base)) →
    ds.foldl (fun acc d => acc * base + (d - zch)) 0 = v % base ^ n := by
  intro n
  induction n with
  | zero =>
    intro ds v hl _
    have : ds = [] := List.length_eq_zero.mp hl
    subst this
    simp [Nat.mod_one]
  | succ n ih =>
    intro ds v hl h
    obtain ⟨xs, d, rfl⟩ : ∃ xs d, ds = xs ++ [d] := by
      refine ⟨ds.dropLast, ds.getLast (by intro e; rw [e] at hl; simp at hl), ?_⟩
      exact (List.dropLast_append_getLast _).symm
    have hxl : xs.length = n := by simpa using hl
    have hd : d = zch + v % base := by
      have := h n (by omega)
      rw [List.getElem?_append_right (by omega), hxl] at this
      simp at this
      exact this
    have hxs : ∀ i, i < n → xs[i]? = some (zch + (v / base) / base ^ (n - 1 - i) % base) := by
      intro i hi
      have := h i (by omega)
      rw [List.getElem?_append_left (by omega)] at this
      rw [this, Nat.div_div_eq_div_mul]
      have e : n + 1 - 1 - i = (n - 1 - i) + 1 := by omega
      rw [e, pow_succ, Nat.mul_comm]
    rw [List.foldl_append, ih xs (v / base) hxl hxs]
    simp only [List.foldl_cons, List.foldl_nil]
    rw [hd, Nat.add_sub_cancel_left, pow_succ', Nat.mod_mul]
    ring

theorem octal_value_eq (ds : List Byte) (n v : Nat) (hl : ds.length = n)
    (h : ∀ i, i < n → ds[i]? = some (byte (48 + v / 8 ^ (n - 1 - i) % 8))) :
    octal_value ds = v % 8 ^ n := by
  have := foldl_digits 8 48 n (ds.map Fin.val) v (by simpa using hl) (by
    intro i hi
    rw [List.getElem?_map, h i hi]
    simp only [Option.map_some', byte_val]
    congr 1
    omega)
  rw [List.foldl_map] at this
  exact this

theorem be_value_eq (ds : List Byte) (n v : Nat) (hl : ds.length = n)
    (h : ∀ i, i < n → ds[i]? = some (byte (v / 256 ^ (n - 1 - i) % 256))) :
    be_value ds = v % 256 ^ n := by
  have := foldl_digits 256 0 n (ds.map Fin.val) v (by simpa using hl) (by
    intro i hi
    rw [List.getElem?_map, h i hi]
    simp only [Option.map_some', byte_val]
    congr 1
    omega)
  rw [List.foldl_map] at this
  exact this

theorem and_127_add_128 : ∀ x, x < 128 → (x + 128) &&& 0x7f = x := by decide

theorem digit_loop_length (base zch : Nat) : ∀ (n : Nat) (buf : List Byte) (p v : Nat),
    (digit_loop base zch buf p v n).buf.length = buf.length := by
  intro n
  induction n with
  | zero => intro buf p v; rfl
  | succ n ih =>
    intro buf p v
    rw [digit_loop]
    split
    · rw [ih]; simp
    · simp

theorem pad_loop_length (c : Byte) : ∀ (n : Nat) (buf : List Byte) (p : Nat),
    (pad_loop c buf p n).1.length = buf.length := by
  intro n
  induction n with
  | zero => intro buf p; rfl
  | succ n ih => intro buf p; rw [pad_loop, ih]; simp

theorem store_xoctal_length (buf : List Byte) (off L v : Nat) (res : List Byte)
    (h : store_xoctal buf off L v = some res) : res.length = buf.length := by
  unfold store_xoctal at h
  split at h
  · exact Option.noConfusion h
  · simp only [] at h
    split at h
    · have := Option.some.inj h
      rw [← this, pad_loop_length, xoctal_octal, digit_loop_length]
      simp
    · split at h
      · split at h
        · exact Option.noConfusion h
        · have := Option.some.inj h
          rw [← this, List.length_set, pad_loop_length, digit_loop_length, xoctal_octal,
            digit_loop_length]
          simp
      · exact Option.noConfusion h

/-- `store_xoctal` only writes inside its field. -/
theorem store_xoctal_frame (buf : List Byte) (off L v : Nat) (res : List Byte)
    (hl : off + L ≤ buf.length) (h : store_xoctal buf off L v = some res) :
    ∀ i, ¬ (off ≤ i ∧ i < off + L) → res[i]? = buf[i]? := by
  have hL : 1 < L := by
    by_contra hc
    unfold store_xoctal at h
    rw [if_pos (by omega)] at h
    exact Option.noConfusion h
  obtain ⟨m, rfl⟩ : ∃ m, L = m + 2 := ⟨L - 2, by omega⟩
  intro i hi
  by_cases h1 : v < 8 ^ (m + 1)
  · obtain ⟨r, hr, -, hg⟩ := store_xoctal_octal buf off m v hl h1
    rw [hr] at h
    rw [← Option.some.inj h, hg, if_neg (by omega), if_neg (by omega)]
  · by_cases h2 : v < 2 ^ (8 * (m + 2) - 1)
    · obtain ⟨r, hr, -, hg⟩ := store_xoctal_binary buf off m v hl (by omega) h2
      rw [hr] at h
      rw [← Option.some.inj h, hg, if_neg (by omega), if_neg (by omega)]
    · rw [store_xoctal_bug buf off m v hl (by omega)] at h
      exact Option.noConfusion h

theorem length_mem2str (buf : List Byte) (off : Nat) (src : List Byte) (n : Nat) :
    (mem2str buf off src n).length = buf.length := by
  unfold mem2str
  split
  · rfl
  · simp [length_memcpy]

theorem mem2str_frame (buf : List Byte) (off : Nat) (src : List Byte) (n : Nat)
    (hl : off + n ≤ buf.length) :
    ∀ i, ¬ (off ≤ i ∧ i < off + n) → (mem2str buf off src n)[i]? = buf[i]? := by
  intro i hi
  unfold mem2str
  split
  · rfl
  · rename_i hn
    have hs : ((cstring src).take (n - 1)).length ≤ n - 1 := by
      rw [List.length_take]; omega
    simp only []
    rw [List.getElem?_set, if_neg (by omega), getElem?_memcpy _ _ _ _ (by omega),
      if_neg (by omega)]

/-- The octal path on the field: for `L > 1` and `v < 8^(L-1)`,
`store_xoctal` fills the `L`-byte field with exactly `L-1` ASCII octal digits
followed by one NUL byte, and reading those digits as an octal number gives
`v`; the bytes outside the field are untouched. -/
theorem store_xoctal_octal_fields (buf : List Byte) (off L v : Nat)
    (hL : 1 < L) (hbuf : off + L ≤ buf.length) (hv : v < 8 ^ (L - 1)) :
    ∃ res, store_xoctal buf off L v = some res ∧
      res.length = buf.length ∧
      (field res off (L - 1)).length = L - 1 ∧
      (∀ d ∈ field res off (L - 1), is_octal_digit d) ∧
      field res off L = field res off (L - 1) ++ [0] ∧
      octal_value (field res off (L - 1)) = v ∧
      (∀ i, ¬ (off ≤ i ∧ i < off + L) → res[i]? = buf[i]?) := by
  obtain ⟨m, rfl⟩ : ∃ m, L = m + 2 := ⟨L - 2, by omega⟩
  have e1 : m + 2 - 1 = m + 1 := by omega
  rw [e1] at hv ⊢
  obtain ⟨res, hres, hlen, hget⟩ := store_xoctal_octal buf off m v hbuf hv
  have hdig : ∀ i, i < m + 1 →
      (field res off (m + 1))[i]? = some (byte (48 + v / 8 ^ (m + 1 - 1 - i) % 8)) := by
    intro i hi
    rw [getElem?_field, if_pos hi, hget, if_pos (by omega)]
    have : off + m - (off + i) = m + 1 - 1 - i := by omega
    rw [this]
  have hfl : (field res off (m + 1)).length = m + 1 := length_field _ _ _ (by omega)
  refine ⟨res, hres, hlen, hfl, ?_, ?_, ?_, ?_⟩
  · intro d hd
    obtain ⟨i, hi⟩ := List.mem_iff_getElem?.mp hd
    have hi' : i < m + 1 := by
      by_contra hc
      rw [getElem?_field, if_neg hc] at hi
      exact Option.noConfusion hi
    rw [hdig i hi'] at hi
    have := Option.some.inj hi
    subst this
    unfold is_octal_digit
    rw [byte_val]
    omega
  · apply List.ext_getElem?
    intro i
    rw [getElem?_field, List.getElem?_append, hfl]
    by_cases h1 : i < m + 1
    · rw [if_pos (by omega), if_pos h1, getElem?_field, if_pos h1]
    · rw [if_neg h1]
      by_cases h2 : i = m + 1
      · subst h2
        rw [if_pos (by omega), hget, if_neg (by omega), if_pos (by omega)]
        simp
      · rw [if_neg (by omega)]
        have : i - (m + 1) = (i - (m + 2)) + 1 := by omega
        rw [this]
        simp
  · rw [octal_value_eq _ (m + 1) v hfl hdig]
    exact Nat.mod_eq_of_lt hv
  · intro i hi
    rw [hget, if_neg (by omega), if_neg (by omega)]

/-! ## Lemmas on `build_header` -/

theorem store_numeric_fields_frame (r0 : List Byte) (hdr : tar_header) (r1 : List Byte)
    (hl : r0.length = 512) (h : store_numeric_fields r0 hdr = some r1) :
    r1.length = 512 ∧ ∀ i, ¬ (100 ≤ i ∧ i < 148) → r1[i]? = r0[i]? := by
  simp only [store_numeric_fields, Option.bind_eq_bind, Option.bind_eq_some] at h
  obtain ⟨a, ha, b, hb, c, hc, d, hd, he⟩ := h
  have la := store_xoctal_length _ _ _ _ _ ha
  have lb := store_xoctal_length _ _ _ _ _ hb
  have lc := store_xoctal_length _ _ _ _ _ hc
  have ld := store_xoctal_length _ _ _ _ _ hd
  have le := store_xoctal_length _ _ _ _ _ he
  have fa := store_xoctal_frame _ _ _ _ _ (by rw [hl]; decide) ha
  have fb := store_xoctal_frame _ _ _ _ _ (by rw [la, hl]; decide) hb
  have fc := store_xoctal_frame _ _ _ _ _ (by rw [lb, la, hl]; decide) hc
  have fd := store_xoctal_frame _ _ _ _ _ (by rw [lc, lb, la, hl]; decide) hd
  have fe := store_xoctal_frame _ _ _ _ _ (by rw [ld, lc, lb, la, hl]; decide) he
  simp only [RawField.offset, RawField.sizeof] at fa fb fc fd fe
  refine ⟨by rw [le, ld, lc, lb, la, hl], ?_⟩
  intro i hi
  rw [fe i (by omega), fd i (by omega), fc i (by omega), fb i (by omega), fa i (by omega)]

theorem store_name_of_id_frame (lookup : Nat → Option (List Byte)) (c : NameCache)
    (buf : List Byte) (off length id : Nat) (hl : off + length ≤ buf.length) :
    (store_name_of_id lookup c buf off length id).1.length = buf.length ∧
    ∀ i, ¬ (off ≤ i ∧ i < off + length) →
      (store_name_of_id lookup c buf off length id).1[i]? = buf[i]? := by
  unfold store_name_of_id
  exact ⟨length_mem2str _ _ _ _, mem2str_frame _ _ _ _ hl⟩

theorem store_name_fields_length (record name r0 : List Byte)
    (h : store_name_fields record name = some r0) : r0.length = record.length := by
  unfold store_name_fields at h
  simp only [] at h
  generalize (if name.length < RawField.pfx.sizeof then name.length
    else RawField.pfx.sizeof) = n0 at h
  split at h
  · rw [← Option.some.inj h, length_memcpy]
  · split at h
    · rw [← Option.some.inj h, length_memcpy, length_memcpy]
    · exact Option.noConfusion h

/-- The writes of `build_header` between the numeric fields and the owner
names: typeflag, magic and version. -/
theorem fixed_fields_frame (r1 : List Byte) (c : Byte) (hl : r1.length = 512) :
    (((memcpy (r1.set RawField.typeflag.offset c) RawField.magic.offset
      [117, 115, 116, 97, 114, 0]).set RawField.version.offset 48).set
      (RawField.version.offset + 1) 48).length = 512 ∧
    ∀ i, ¬ (156 ≤ i ∧ i < 265) →
      (((memcpy (r1.set RawField.typeflag.offset c) RawField.magic.offset
        [117, 115, 116, 97, 114, 0]).set RawField.version.offset 48).set
        (RawField.version.offset + 1) 48)[i]? = r1[i]? := by
  refine ⟨by simp [length_memcpy, hl], ?_⟩
  intro i hi
  simp only [RawField.offset]
  rw [List.getElem?_set, if_neg (by omega), List.getElem?_set, if_neg (by omega),
    getElem?_memcpy _ _ _ _ (by simp [hl]), if_neg (by simp; omega), List.getElem?_set,
    if_neg (by omega)]

/-- The symbolic-link stage of `build_header`. -/
theorem linkname_frame (rg target : List Byte) (hl : rg.length = 512) :
    ((memcpy rg RawField.linkname.offset (target.take (RawField.linkname.sizeof - 1))).set
      (RawField.linkname.offset + (target.take (RawField.linkname.sizeof - 1)).length) 0).length
      = 512 ∧
    ∀ i, ¬ (157 ≤ i ∧ i < 257) →
      ((memcpy rg RawField.linkname.offset (target.take (RawField.linkname.sizeof - 1))).set
        (RawField.linkname.offset + (target.take (RawField.linkname.sizeof - 1)).length) 0)[i]?
        = rg[i]? := by
  have hg : (target.take (RawField.linkname.sizeof - 1)).length ≤ 99 := by
    rw [List.length_take]
    simp only [RawField.sizeof]
    omega
  refine ⟨by simp [length_memcpy, hl], ?_⟩
  intro i hi
  simp only [RawField.offset] at hg ⊢
  rw [List.getElem?_set, if_neg (by omega), getElem?_memcpy _ _ _ _ (by omega),
    if_neg (by omega)]

theorem build_header_ok (env : Env) (cache : IdCache) (hdr : tar_header)
    (record : List Byte) (cache' : IdCache)
    (h : build_header env cache hdr = some (GPG_ERR_NO_ERROR, record, cache')) :
    ∃ r0 r5, store_name_fields (List.replicate RECORDSIZE 0) hdr.name = some r0 ∧
      r0.length = 512 ∧ r5.length = 512 ∧
      (∀ i, ¬ (100 ≤ i ∧ i < 329) → r5[i]? = r0[i]?) ∧
      store_checksum r5 = some record ∧ (typeflag_char hdr.typeflag).isSome := by
  unfold build_header at h
  simp only [] at h
  split at h
  · simp at h
  · rename_i r0 h0
    have l0 : r0.length = 512 := by
      rw [store_name_fields_length _ _ _ h0]; simp
    split at h
    · simp at h
    · rename_i r1 h1
      obtain ⟨l1, f1⟩ := store_numeric_fields_frame r0 hdr r1 l0 h1
      split at h
      · simp at h
      · rename_i c hc
        obtain ⟨l2, f2⟩ := fixed_fields_frame r1 c l1
        generalize (((memcpy (r1.set RawField.typeflag.offset c) RawField.magic.offset
          [117, 115, 116, 97, 114, 0]).set RawField.version.offset 48).set
          (RawField.version.offset + 1) 48) = r2 at h l2 f2
        obtain ⟨lu, fu⟩ := store_name_of_id_frame env.getpwuid cache.uname r2
          RawField.uname.offset RawField.uname.sizeof hdr.uid (by rw [l2]; decide)
        have eu : (store_uname env cache r2 RawField.uname.offset RawField.uname.sizeof
            hdr.uid).1 = (store_name_of_id env.getpwuid cache.uname r2
            RawField.uname.offset RawField.uname.sizeof hdr.uid).1 := rfl
        rw [← eu] at lu fu
        generalize store_uname env cache r2 RawField.uname.offset RawField.uname.sizeof
          hdr.uid = ru at h lu fu
        obtain ⟨lg, fg⟩ := store_name_of_id_frame env.getgrgid ru.2.gname ru.1
          RawField.gname.offset RawField.gname.sizeof hdr.gid (by rw [lu, l2]; decide)
        have eg : (store_gname env ru.2 ru.1 RawField.gname.offset RawField.gname.sizeof
            hdr.gid).1 = (store_name_of_id env.getgrgid ru.2.gname ru.1
            RawField.gname.offset RawField.gname.sizeof hdr.gid).1 := rfl
        rw [← eg] at lg fg
        generalize store_gname env ru.2 ru.1 RawField.gname.offset RawField.gname.sizeof
          hdr.gid = rg at h lg fg
        simp only [RawField.offset, RawField.sizeof] at fu fg
        have lg' : rg.1.length = 512 := by rw [lg, lu, l2]
        split at h
        · simp at h
        · rename_i r4 h4
          split at h
          · simp at h
          · rename_i r5 h5
            simp only [Option.some.injEq, Prod.mk.injEq, true_and] at h
            obtain ⟨rfl, -⟩ := h
            have hr4 : r4.length = 512 ∧ ∀ i, ¬ (157 ≤ i ∧ i < 257) → r4[i]? = rg.1[i]? := by
              split at h4
              · split at h4
                · exact Option.noConfusion h4
                · rename_i target _
                  rw [← Option.some.inj h4]
                  exact linkname_frame rg.1 target lg'
              · rw [← Option.some.inj h4]
                exact ⟨lg', fun _ _ => rfl⟩
            refine ⟨r0, r4, h0, l0, hr4.1, ?_, h5, by rw [hc]; rfl⟩
            intro i hi
            rw [hr4.2 i (by omega), fg i (by omega), fu i (by omega), f2 i (by omega),
              f1 i (by omega)]

theorem sum_val_le (l : List Byte) : (l.map Fin.val).sum ≤ 255 * l.length := by
  induction l with
  | nil => simp
  | cons b bs ih =>
    simp only [List.map_cons, List.sum_cons, List.length_cons]
    have := b.isLt
    omega

theorem field_succ (buf : List Byte) (off n : Nat) :
    field buf off (n + 1) = field buf off n ++ (buf[off + n]?).toList := by
  unfold field
  rw [List.take_succ, List.getElem?_drop]

/-- The checksum stage on a 512-byte record. -/
theorem store_checksum_spec (r : List Byte) (hl : r.length = 512) :
    ∃ res, store_checksum r = some res ∧ res.length = 512 ∧
      (field res 148 6).length = 6 ∧
      (∀ d ∈ field res 148 6, is_octal_digit d) ∧
      field res 148 8 = field res 148 6 ++ [0, 32] ∧
      octal_value (field res 148 6) = ((memset res 148 32 8).map Fin.val).sum ∧
      (∀ i, ¬ (148 ≤ i ∧ i < 156) → res[i]? = r[i]?) := by
  have l1 : (memset r 148 32 8).length = 512 := by rw [length_memset, hl]
  have g1 := getElem?_memset 32 8 r 148
  have hsum : sum_bytes (memset r 148 32 8) = ((memset r 148 32 8).map Fin.val).sum := by
    unfold sum_bytes
    rw [List.take_of_length_le (by rw [l1])]
  have hb : sum_bytes (memset r 148 32 8) < 8 ^ (7 - 1) := by
    rw [hsum]
    have := sum_val_le (memset r 148 32 8)
    rw [l1] at this
    have : (8 : Nat) ^ (7 - 1) = 262144 := by norm_num
    omega
  obtain ⟨res1, h1, hl1, hfl, hdig, hf7, hval, hframe⟩ :=
    store_xoctal_octal_fields (memset r 148 32 8) 148 7 (sum_bytes (memset r 148 32 8))
      (by omega) (by rw [l1]; decide) hb
  have e6 : field (res1.set 155 32) 148 6 = field res1 148 6 := by
    apply field_congr
    intro i _ _
    rw [List.getElem?_set, if_neg (by omega)]
  have e7 : field (res1.set 155 32) 148 7 = field res1 148 7 := by
    apply field_congr
    intro i _ _
    rw [List.getElem?_set, if_neg (by omega)]
  have hr : store_checksum r = some (res1.set 155 32) := by
    unfold store_checksum
    simp only [RawField.offset, RawField.sizeof]
    rw [h1]
  refine ⟨res1.set 155 32, hr, by rw [List.length_set, hl1, l1], ?_, ?_, ?_, ?_, ?_⟩
  · rw [e6]; exact hfl
  · rw [e6]; exact hdig
  · rw [e6, field_succ, e7, hf7, List.getElem?_set, if_pos (by omega),
      if_pos (by rw [hl1, l1]; decide)]
    simp
  · rw [e6, hval, hsum]
    congr 2
    apply List.ext_getElem?
    intro i
    rw [g1 i (by rw [hl]; decide),
      getElem?_memset 32 8 _ 148 i (by rw [List.length_set, hl1, l1]; decide)]
    by_cases hi : 148 ≤ i ∧ i < 148 + 8
    · rw [if_pos hi, if_pos hi]
    · rw [if_neg hi, if_neg hi, List.getElem?_set, if_neg (by omega), hframe i (by omega),
        g1 i (by rw [hl]; decide), if_neg hi]
  · intro i hi
    rw [List.getElem?_set, if_neg (by omega), hframe i (by omega), g1 i (by rw [hl]; decide),
      if_neg (by omega)]

/-- What `build_header` leaves outside the bytes 100 .. 328 is what the name
stage wrote. -/
theorem build_header_frame (env : Env) (cache : IdCache) (hdr : tar_header)
    (record : List Byte) (cache' : IdCache)
    (h : build_header env cache hdr = some (GPG_ERR_NO_ERROR, record, cache')) :
    ∃ r0, store_name_fields (List.replicate RECORDSIZE 0) hdr.name = some r0 ∧
      record.length = 512 ∧ ∀ i, ¬ (100 ≤ i ∧ i < 329) → record[i]? = r0[i]? := by
  obtain ⟨r0, r5, h0, -, l5, f5, h5, -⟩ := build_header_ok env cache hdr record cache' h
  obtain ⟨res, hres, lres, -, -, -, -, fres⟩ := store_checksum_spec r5 l5
  rw [h5] at hres
  have := Option.some.inj hres
  subst this
  refine ⟨r0, h0, lres, ?_⟩
  intro i hi
  rw [fres i (by omega), f5 i hi]

theorem cstring_append_zero (xs rest : List Byte) (h : ∀ b ∈ xs, b ≠ 0) :
    cstring (xs ++ 0 :: rest) = xs := by
  unfold cstring
  rw [List.takeWhile_append_of_pos (by
    intro a ha
    simpa using h a ha)]
  simp

theorem cstring_zeros (k : Nat) : cstring (List.replicate k (0 : Byte)) = [] := by
  cases k with
  | zero => rfl
  | succ k => rw [List.replicate_succ]; unfold cstring; simp

/-- A copy into a zeroed field: the field holds the copied bytes and is zero
after them. -/
theorem field_memcpy_zero (buf src : List Byte) (off W : Nat)
    (hz : ∀ i, off ≤ i → i < off + W → buf[i]? = some 0) (hs : src.length ≤ W)
    (hl : off + W ≤ buf.length) :
    field (memcpy buf off src) off W = src ++ List.replicate (W - src.length) 0 := by
  apply List.ext_getElem?
  intro i
  rw [getElem?_field, List.getElem?_append, getElem?_memcpy _ _ _ _ (by omega)]
  by_cases h1 : i < src.length
  · rw [if_pos (by omega), if_pos (by omega), if_pos h1]
    congr 1
    omega
  · rw [if_neg h1, List.getElem?_replicate]
    by_cases h2 : i < W
    · rw [if_pos h2, if_neg (by omega), if_pos (by omega)]
      exact hz _ (by omega) (by omega)
    · rw [if_neg h2, if_neg (by omega)]

theorem find_slash_spec (name : List Byte) : ∀ s,
    find_slash name s ≤ s ∧
    (find_slash name s = 0 ∨ name.getD (find_slash name s) 0 = 47) ∧
    ∀ k, find_slash name s < k → k ≤ s → name.getD k 0 ≠ 47 := by
  intro s
  induction s with
  | zero => exact ⟨le_refl _, Or.inl rfl, fun k h1 h2 => by simp [find_slash] at h1; omega⟩
  | succ s ih =>
    rw [find_slash]
    split
    · rename_i h
      exact ⟨le_refl _, Or.inr h, fun k h1 h2 => by omega⟩
    · rename_i h
      obtain ⟨i1, i2, i3⟩ := ih
      refine ⟨by omega, i2, ?_⟩
      intro k h1 h2
      by_cases hk : k = s + 1
      · rw [hk]; exact h
      · exact i3 k h1 (by omega)

theorem getD_eq_slash (name : List Byte) (n : Nat) (h : name.getD n 0 = 47) :
    n < name.length ∧ name[n]? = some 47 := by
  rw [List.getD_eq_getElem?_getD] at h
  by_cases hn : n < name.length
  · refine ⟨hn, ?_⟩
    rw [List.getElem?_eq_getElem hn] at h ⊢
    simpa using h
  · rw [List.getElem?_eq_none (by omega)] at h
    simp at h

theorem split_at (name : List Byte) (n : Nat) (b : Byte) (h : name[n]? = some b) :
    name.take n ++ [b] ++ name.drop (n + 1) = name := by
  have hn : n < name.length := by
    by_contra hc
    rw [List.getElem?_eq_none (by omega)] at h
    exact Option.noConfusion h
  rw [List.getElem?_eq_getElem hn] at h
  have hb := Option.some.inj h
  rw [List.append_assoc, List.singleton_append, ← hb, ← List.drop_eq_getElem_cons hn,
    List.take_append_drop]

theorem recordsize_eq : RECORDSIZE = 512 := rfl

theorem zeros_getElem? (i : Nat) (hi : i < 512) :
    (List.replicate RECORDSIZE (0 : Byte))[i]? = some 0 := by
  rw [List.getElem?_replicate, if_pos hi]

theorem store_name_fields_short (record name : List Byte) (h : name.length < 100) :
    store_name_fields record name = some (memcpy record 0 name) := by
  unfold store_name_fields
  simp only [RawField.sizeof, RawField.offset]
  rw [if_pos h]

theorem store_name_fields_long (record name : List Byte) (h : 100 ≤ name.length) :
    store_name_fields record name =
      if name.length - find_slash name ((if name.length < 155 then name.length else 155) - 1)
          < 100 then
        some (memcpy (memcpy record 345 (name.take
            (find_slash name ((if name.length < 155 then name.length else 155) - 1))))
          0 (name.drop
            (find_slash name ((if name.length < 155 then name.length else 155) - 1) + 1)
            ++ [0]))
      else none := by
  unfold store_name_fields
  simp only [RawField.sizeof, RawField.offset]
  rw [if_neg (by omega)]

/-- The fields a split at `n` leaves in a zeroed record `Z`. -/
theorem split_fields (Z name : List Byte) (n : Nat) (hZ : Z.length = 512)
    (hz : ∀ i, i < 512 → Z[i]? = some 0) (hn : n ≤ 154) (hnl : n < name.length)
    (hlen : name.length - n < 100) :
    field (memcpy (memcpy Z 345 (name.take n)) 0 (name.drop (n + 1) ++ [0])) 0 100
      = name.drop (n + 1) ++ 0 :: List.replicate (100 - (name.length - n)) 0 ∧
    field (memcpy (memcpy Z 345 (name.take n)) 0 (name.drop (n + 1) ++ [0])) 345 155
      = name.take n ++ List.replicate (155 - n) 0 := by
  have ht : (name.take n).length = n := by rw [List.length_take]; omega
  have hd : (name.drop (n + 1) ++ [0]).length = name.length - n := by
    rw [List.length_append, List.length_drop, List.length_singleton]; omega
  constructor
  · rw [field_memcpy_zero _ _ 0 100 ?_ (by omega) (by rw [length_memcpy, hZ]; omega), hd]
    · rw [List.append_assoc, List.singleton_append]
    · intro i _ hi
      rw [getElem?_memcpy _ _ _ _ (by rw [ht, hZ]; omega), if_neg (by omega),
        hz i (by omega)]
  · have : field (memcpy (memcpy Z 345 (name.take n)) 0 (name.drop (n + 1) ++ [0])) 345 155
        = field (memcpy Z 345 (name.take n)) 345 155 := by
      apply field_congr
      intro i h1 h2
      rw [getElem?_memcpy _ _ _ _ (by rw [hd, length_memcpy, hZ]; omega), if_neg (by omega)]
    rw [this, field_memcpy_zero _ _ 345 155 ?_ (by omega) (by rw [hZ]; omega), ht]
    intro i _ hi
    exact hz i (by omega)

theorem short_fields (Z name : List Byte) (hZ : Z.length = 512)
    (hz : ∀ i, i < 512 → Z[i]? = some 0) (h : name.length < 100) :
    field (memcpy Z 0 name) 0 100 = name ++ 0 :: List.replicate (99 - name.length) 0 ∧
    field (memcpy Z 0 name) 345 155 = List.replicate 155 0 := by
  constructor
  · rw [field_memcpy_zero _ _ 0 100 ?_ (by omega) (by rw [hZ]; omega)]
    · have : 100 - name.length = (99 - name.length) + 1 := by omega
      rw [this, List.replicate_succ]
    · intro i _ hi
      exact hz i (by omega)
  · apply List.ext_getElem?
    intro i
    rw [getElem?_field, getElem?_memcpy _ _ _ _ (by rw [hZ]; omega)]
    by_cases hi : i < 155
    · rw [if_pos hi, if_neg (by omega), hz _ (by omega), List.getElem?_replicate, if_pos hi]
    · rw [if_neg hi, List.getElem?_replicate, if_neg hi]

/-- A `build_header` result whose error code evaluates to 0 is a success with
some record and statics. -/
theorem build_header_eval_ok (x : Option (gpg_error_t × List Byte × IdCache))
    (h : x.map (fun r => r.1) = some GPG_ERR_NO_ERROR) :
    ∃ record cache', x = some (GPG_ERR_NO_ERROR, record, cache') := by
  match x, h with
  | some (e, r, c), h =>
    simp only [Option.map_some', Option.some.injEq] at h
    subst h
    exact ⟨r, c, rfl⟩

/-- `build_header` returns `GPG_ERR_TOO_LARGE` exactly when the name stage
fails, and then nothing but the `memset` has touched the record. -/
theorem build_header_too_large_iff (env : Env) (cache : IdCache) (hdr : tar_header) :
    (store_name_fields (List.replicate RECORDSIZE 0) hdr.name = none →
      build_header env cache hdr
        = some (GPG_ERR_TOO_LARGE, List.replicate RECORDSIZE 0, cache)) ∧
    (∀ r0, store_name_fields (List.replicate RECORDSIZE 0) hdr.name = some r0 →
      ∀ r c, build_header env cache hdr ≠ some (GPG_ERR_TOO_LARGE, r, c)) := by
  constructor
  · intro h0
    unfold build_header
    simp only []
    rw [h0]
  · intro r0 h0 r c h
    unfold build_header at h
    simp only [] at h
    rw [h0] at h
    simp only [] at h
    split at h
    · exact Option.noConfusion h
    · split at h
      · simp at h
      · split at h
        · simp at h
        · split at h
          · exact Option.noConfusion h
          · simp at h

/-- `store_xoctal` returns for every value that fits below the marker bit. -/
theorem store_xoctal_ok (buf : List Byte) (off L v : Nat) (hL : 1 < L)
    (hl : off + L ≤ buf.length) (hv : v < 2 ^ (8 * L - 1)) :
    ∃ res, store_xoctal buf off L v = some res := by
  obtain ⟨m, rfl⟩ : ∃ m, L = m + 2 := ⟨L - 2, by omega⟩
  by_cases h1 : v < 8 ^ (m + 1)
  · obtain ⟨r, hr, -⟩ := store_xoctal_octal buf off m v hl h1
    exact ⟨r, hr⟩
  · obtain ⟨r, hr, -⟩ := store_xoctal_binary buf off m v hl (by omega) hv
    exact ⟨r, hr⟩

/-- The numeric fields can be stored when mode, uid and gid are below `2^63`
and size and mtime below `2^95`. -/
theorem store_numeric_fields_ok (r0 : List Byte) (hdr : tar_header) (hl : r0.length = 512)
    (hmode : hdr.mode < 2 ^ 63) (huid : hdr.uid < 2 ^ 63) (hgid : hdr.gid < 2 ^ 63)
    (hsize : hdr.size < 2 ^ 95) (hmtime : hdr.mtime < 2 ^ 95) :
    ∃ r1, store_numeric_fields r0 hdr = some r1 := by
  obtain ⟨a, ha⟩ := store_xoctal_ok r0 RawField.mode.offset RawField.mode.sizeof hdr.mode
    (by decide) (by rw [hl]; decide) hmode
  have la := store_xoctal_length _ _ _ _ _ ha
  obtain ⟨b, hb⟩ := store_xoctal_ok a RawField.uid.offset RawField.uid.sizeof hdr.uid
    (by decide) (by rw [la, hl]; decide) huid
  have lb := store_xoctal_length _ _ _ _ _ hb
  obtain ⟨c, hc⟩ := store_xoctal_ok b RawField.gid.offset RawField.gid.sizeof hdr.gid
    (by decide) (by rw [lb, la, hl]; decide) hgid
  have lc := store_xoctal_length _ _ _ _ _ hc
  obtain ⟨d, hd⟩ := store_xoctal_ok c RawField.size.offset RawField.size.sizeof hdr.size
    (by decide) (by rw [lc, lb, la, hl]; decide) hsize
  have ld := store_xoctal_length _ _ _ _ _ hd
  obtain ⟨e, he⟩ := store_xoctal_ok d RawField.mtime.offset RawField.mtime.sizeof hdr.mtime
    (by decide) (by rw [ld, lc, lb, la, hl]; decide) hmtime
  refine ⟨e, ?_⟩
  simp only [store_numeric_fields, Option.bind_eq_bind, ha, hb, hc, hd, he, Option.some_bind]

/-- `build_header` on a type outside the switch: `GPG_ERR_NOT_SUPPORTED`, once
name and numeric fields are stored. -/
theorem build_header_not_supported (env : Env) (cache : IdCache) (hdr : tar_header)
    (r0 r1 : List Byte)
    (h0 : store_name_fields (List.replicate RECORDSIZE 0) hdr.name = some r0)
    (h1 : store_numeric_fields r0 hdr = some r1)
    (ht : typeflag_char hdr.typeflag = none) :
    build_header env cache hdr = some (GPG_ERR_NOT_SUPPORTED, r1, cache) := by
  unfold build_header
  simp only []
  rw [h0]
  simp only []
  rw [h1]
  simp only []
  rw [ht]

/-- `build_header` on a type of the switch: it returns, not with
`GPG_ERR_NOT_SUPPORTED`, and the typeflag byte of the record is the character
of the switch. -/
theorem build_header_typeflag (env : Env) (cache : IdCache) (hdr : tar_header)
    (r0 r1 : List Byte) (c : Byte)
    (h0 : store_name_fields (List.replicate RECORDSIZE 0) hdr.name = some r0)
    (h1 : store_numeric_fields r0 hdr = some r1)
    (ht : typeflag_char hdr.typeflag = some c) :
    ∃ err record cache', build_header env cache hdr = some (err, record, cache') ∧
      (err = GPG_ERR_NO_ERROR ∨ err = GPG_ERR_SYSTEM) ∧
      record[RawField.typeflag.offset]? = some c := by
  have l0 : r0.length = 512 := by
    rw [store_name_fields_length _ _ _ h0]; exact List.length_replicate _ _
  obtain ⟨l1, -⟩ := store_numeric_fields_frame r0 hdr r1 l0 h1
  obtain ⟨l2, -⟩ := fixed_fields_frame r1 c l1
  have g2 : (((memcpy (r1.set RawField.typeflag.offset c) RawField.magic.offset
      [117, 115, 116, 97, 114, 0]).set RawField.version.offset 48).set
      (RawField.version.offset + 1) 48)[156]? = some c := by
    simp only [RawField.offset]
    rw [List.getElem?_set, if_neg (by omega), List.getElem?_set, if_neg (by omega),
      getElem?_memcpy _ _ _ _ (by rw [List.length_set, l1]; decide),
      if_neg (by simp), List.getElem?_set, if_pos rfl, if_pos (by omega)]
  unfold build_header
  simp only []
  rw [h0]
  simp only []
  rw [h1]
  simp only []
  rw [ht]
  simp only []
  generalize (((memcpy (r1.set RawField.typeflag.offset c) RawField.magic.offset
    [117, 115, 116, 97, 114, 0]).set RawField.version.offset 48).set
    (RawField.version.offset + 1) 48) = r2 at l2 g2 ⊢
  obtain ⟨lu, fu⟩ := store_name_of_id_frame env.getpwuid cache.uname r2
    RawField.uname.offset RawField.uname.sizeof hdr.uid (by rw [l2]; decide)
  have eu : (store_uname env cache r2 RawField.uname.offset RawField.uname.sizeof
      hdr.uid).1 = (store_name_of_id env.getpwuid cache.uname r2
      RawField.uname.offset RawField.uname.sizeof hdr.uid).1 := rfl
  rw [← eu] at lu fu
  generalize store_uname env cache r2 RawField.uname.offset RawField.uname.sizeof
    hdr.uid = ru at lu fu ⊢
  obtain ⟨lg, fg⟩ := store_name_of_id_frame env.getgrgid ru.2.gname ru.1
    RawField.gname.offset RawField.gname.sizeof hdr.gid (by rw [lu, l2]; decide)
  have eg : (store_gname env ru.2 ru.1 RawField.gname.offset RawField.gname.sizeof
      hdr.gid).1 = (store_name_of_id env.getgrgid ru.2.gname ru.1
      RawField.gname.offset RawField.gname.sizeof hdr.gid).1 := rfl
  rw [← eg] at lg fg
  generalize store_gname env ru.2 ru.1 RawField.gname.offset RawField.gname.sizeof
    hdr.gid = rg at lg fg ⊢
  simp only [RawField.offset, RawField.sizeof] at fu fg
  have lg' : rg.1.length = 512 := by rw [lg, lu, l2]
  have gg : rg.1[156]? = some c := by
    rw [fg 156 (by omega), fu 156 (by omega), g2]
  have hfin : ∀ r4 : List Byte, r4.length = 512 → r4[156]? = some c →
      ∃ err record cache', (match store_checksum r4 with
        | none => none
        | some record => some (GPG_ERR_NO_ERROR, record, rg.2)) = some (err, record, cache') ∧
        (err = GPG_ERR_NO_ERROR ∨ err = GPG_ERR_SYSTEM) ∧ record[156]? = some c := by
    intro r4 l4 g4
    obtain ⟨res, hres, -, -, -, -, -, fres⟩ := store_checksum_spec r4 l4
    rw [hres]
    exact ⟨_, res, _, rfl, Or.inl rfl, by rw [fres 156 (by omega), g4]⟩
  split
  · rename_i hlink
    split at hlink
    · split at hlink
      · exact ⟨_, _, _, rfl, Or.inr rfl, gg⟩
      · exact Option.noConfusion hlink
    · exact Option.noConfusion hlink
  · rename_i r4 hlink
    split at hlink
    · split at hlink
      · exact Option.noConfusion hlink
      · rename_i target _
        have := Option.some.inj hlink
        subst this
        obtain ⟨l4, f4⟩ := linkname_frame rg.1 target lg'
        exact hfin _ l4 (by rw [f4 156 (by omega), gg])
    · have := Option.some.inj hlink
      subst this
      exact hfin _ lg' gg

/-! ## Lemmas on the archive writer -/

theorem write_record_ok (stream : Sink) (record : List Byte) (h : 0 < stream.room) :
    write_record stream record =
      (GPG_ERR_NO_ERROR,
        { records := stream.records ++ [record.take RECORDSIZE], room := stream.room - 1 }) := by
  unfold write_record
  rw [if_neg (by omega)]

/-- `write_file` for a regular file whose header was built and whose source
was opened: the header record, the data loop and the close. -/
theorem write_file_regular (env : Env) (cache : IdCache) (stream : Sink) (hdr : tar_header)
    (header : List Byte) (cache' : IdCache) (data : List Byte)
    (hreg : hdr.typeflag = TF_REGULAR)
    (hb : build_header env cache hdr = some (GPG_ERR_NO_ERROR, header, cache'))
    (hopen : env.fopen hdr.name = some data) (hroom : 0 < stream.room) :
    write_file env cache stream hdr =
      if (write_data hdr.size ((hdr.size + RECORDSIZE - 1) % 2 ^ 64 / RECORDSIZE)
          ⟨stream.records ++ [header.take RECORDSIZE], stream.room - 1⟩ header data).1
          ≠ GPG_ERR_NO_ERROR then
        some ((write_data hdr.size ((hdr.size + RECORDSIZE - 1) % 2 ^ 64 / RECORDSIZE)
          ⟨stream.records ++ [header.take RECORDSIZE], stream.room - 1⟩ header data).1,
          (write_data hdr.size ((hdr.size + RECORDSIZE - 1) % 2 ^ 64 / RECORDSIZE)
          ⟨stream.records ++ [header.take RECORDSIZE], stream.room - 1⟩ header data).2.1, cache')
      else if env.fclose_fails hdr.name then
        some (GPG_ERR_SYSTEM,
          (write_data hdr.size ((hdr.size + RECORDSIZE - 1) % 2 ^ 64 / RECORDSIZE)
          ⟨stream.records ++ [header.take RECORDSIZE], stream.room - 1⟩ header data).2.1, cache')
      else
        some (GPG_ERR_NO_ERROR,
          (write_data hdr.size ((hdr.size + RECORDSIZE - 1) % 2 ^ 64 / RECORDSIZE)
          ⟨stream.records ++ [header.take RECORDSIZE], stream.room - 1⟩ header data).2.1, cache') := by
  unfold write_file
  rw [hb]
  simp only [ne_eq, not_true_eq_false, if_false, hreg, if_true, hopen, write_record_ok _ _ hroom,
    Option.getD_some, Option.isSome_some, true_and]

/-- The data loop when the file holds every byte the loop asks for. -/
theorem write_data_ok (size : Nat) : ∀ (k : Nat) (stream : Sink) (record infp : List Byte),
    record.length = 512 → k ≤ stream.room →
    (k ≠ 0 → (k - 1) * 512 + size % 512 ≤ infp.length) →
    ∃ recs record' infp',
      write_data size k stream record infp =
        (GPG_ERR_NO_ERROR, ⟨stream.records ++ recs, stream.room - k⟩, record', infp') ∧
      recs.length = k ∧ ∀ r ∈ recs, r.length = 512 := by
  intro k
  induction k with
  | zero =>
    intro stream record infp _ _ _
    exact ⟨[], record, infp, by simp [write_data], rfl, by simp⟩
  | succ k ih =>
    intro stream record infp hl hroom hneed
    have hneed' := hneed (by omega)
    have hmod : size % 512 < 512 := Nat.mod_lt _ (by omega)
    have hnb : (if k ≠ 0 then RECORDSIZE else size % RECORDSIZE) ≤ infp.length := by
      rw [recordsize_eq]
      split
      · have : k + 1 - 1 = (k - 1) + 1 := by omega
        rw [this, Nat.add_mul] at hneed'
        omega
      · rename_i hk
        have : k = 0 := by omega
        subst this
        omega
    have hgot : (infp.take (if k ≠ 0 then RECORDSIZE else size % RECORDSIZE)).length
        = (if k ≠ 0 then RECORDSIZE else size % RECORDSIZE) := by
      rw [List.length_take]; omega
    have hl1 : (memcpy record 0
        (infp.take (if k ≠ 0 then RECORDSIZE else size % RECORDSIZE))).length = 512 := by
      rw [length_memcpy, hl]
    obtain ⟨recs, record', infp', h1, h2, h3⟩ :=
      ih ⟨stream.records ++ [(memcpy record 0
          (infp.take (if k ≠ 0 then RECORDSIZE else size % RECORDSIZE))).take RECORDSIZE],
          stream.room - 1⟩
        (memcpy record 0 (infp.take (if k ≠ 0 then RECORDSIZE else size % RECORDSIZE)))
        (infp.drop (if k ≠ 0 then RECORDSIZE else size % RECORDSIZE))
        hl1 (by simp only []; omega) (by
          intro hk
          rw [List.length_drop, if_pos hk, recordsize_eq]
          have : k + 1 - 1 = (k - 1) + 1 := by omega
          rw [this, Nat.add_mul] at hneed'
          omega)
    refine ⟨(memcpy record 0
        (infp.take (if k ≠ 0 then RECORDSIZE else size % RECORDSIZE))).take RECORDSIZE :: recs,
      record', infp', ?_, by simp [h2], ?_⟩
    · rw [write_data]
      simp only []
      rw [if_neg (by rw [hgot]; simp), write_record_ok _ _ (by omega)]
      simp only []
      rw [if_neg (by simp), h1]
      simp only [List.append_assoc, List.singleton_append, Prod.mk.injEq, true_and, and_true]
      congr 1
      omega
    · intro r hr
      rcases List.mem_cons.mp hr with rfl | hr
      · rw [List.length_take, hl1]
        rfl
      · exact h3 r hr


/-- A regular file of declared size 512: the data loop asks `es_fread` for
`512 % 512 = 0` bytes, so the one data record is the header block again,
whatever the file holds. -/
theorem write_file_size_512 (env : Env) (cache : IdCache) (stream : Sink) (hdr : tar_header)
    (header : List Byte) (cache' : IdCache) (data : List Byte)
    (hreg : hdr.typeflag = TF_REGULAR) (hsize : hdr.size = 512)
    (hb : build_header env cache hdr = some (GPG_ERR_NO_ERROR, header, cache'))
    (hopen : env.fopen hdr.name = some data) (hroom : 2 ≤ stream.room)
    (hclose : env.fclose_fails hdr.name = false) :
    write_file env cache stream hdr =
      some (GPG_ERR_NO_ERROR,
        ⟨stream.records ++ [header.take RECORDSIZE, header.take RECORDSIZE], stream.room - 2⟩,
        cache') := by
  rw [write_file_regular env cache stream hdr header cache' data hreg hb hopen (by omega), hsize]
  have hk : (512 + RECORDSIZE - 1) % 2 ^ 64 / RECORDSIZE = 1 := by decide
  have hw : write_data 512 1 ⟨stream.records ++ [header.take RECORDSIZE], stream.room - 1⟩
      header data =
      (GPG_ERR_NO_ERROR,
        ⟨stream.records ++ [header.take RECORDSIZE, header.take RECORDSIZE], stream.room - 2⟩,
        header, data) := by
    rw [write_data]
    simp only [ne_eq, not_true_eq_false, if_false]
    have h0 : 512 % RECORDSIZE = 0 := by decide
    rw [h0, List.take_zero, List.drop_zero]
    simp only [List.length_nil, not_true_eq_false, if_false, memcpy]
    rw [write_record_ok _ _ (by simp only []; omega)]
    simp only [not_true_eq_false, if_false, write_data, List.append_assoc, List.singleton_append,
      Prod.mk.injEq, true_and, and_true]
    congr 1
  rw [hk, hw]
  simp only [ne_eq, not_true_eq_false, if_false, hclose]
  rfl

/-- A regular file of declared size `0 < s < 512` holding at least `s` bytes:
the one data record is the header block with its first `s` bytes replaced by
the file's. -/
theorem write_file_small (env : Env) (cache : IdCache) (stream : Sink) (hdr : tar_header)
    (header : List Byte) (cache' : IdCache) (data : List Byte)
    (hreg : hdr.typeflag = TF_REGULAR) (hs0 : 0 < hdr.size) (hs1 : hdr.size < 512)
    (hb : build_header env cache hdr = some (GPG_ERR_NO_ERROR, header, cache'))
    (hopen : env.fopen hdr.name = some data) (hdata : hdr.size ≤ data.length)
    (hroom : 2 ≤ stream.room) (hclose : env.fclose_fails hdr.name = false) :
    write_file env cache stream hdr =
      some (GPG_ERR_NO_ERROR,
        ⟨stream.records ++ [header.take RECORDSIZE,
          (memcpy header 0 (data.take hdr.size)).take RECORDSIZE], stream.room - 2⟩,
        cache') := by
  rw [write_file_regular env cache stream hdr header cache' data hreg hb hopen (by omega)]
  have hk : (hdr.size + RECORDSIZE - 1) % 2 ^ 64 / RECORDSIZE = 1 := by
    rw [recordsize_eq]; omega
  have hm : hdr.size % RECORDSIZE = hdr.size := Nat.mod_eq_of_lt hs1
  have hw : write_data hdr.size 1 ⟨stream.records ++ [header.take RECORDSIZE], stream.room - 1⟩
      header data =
      (GPG_ERR_NO_ERROR,
        ⟨stream.records ++ [header.take RECORDSIZE,
          (memcpy header 0 (data.take hdr.size)).take RECORDSIZE], stream.room - 2⟩,
        memcpy header 0 (data.take hdr.size), data.drop hdr.size) := by
    rw [write_data]
    simp only [ne_eq, not_true_eq_false, if_false]
    rw [hm, if_neg (by rw [List.length_take]; omega),
      write_record_ok _ _ (by simp only []; omega)]
    simp only [not_true_eq_false, if_false, write_data, List.append_assoc, List.singleton_append,
      Prod.mk.injEq, true_and, and_true]
    congr 1
  rw [hk, hw]
  simp only [ne_eq, not_true_eq_false, if_false, hclose]
  rfl

/-- Evaluating a projection of the record of a successful `build_header`. -/
theorem build_header_eval {β : Type} (x : Option (gpg_error_t × List Byte × IdCache))
    (f : List Byte → β) (v : β)
    (h : x.map (fun r => (r.1, f r.2.1)) = some (GPG_ERR_NO_ERROR, v)) :
    ∃ record cache', x = some (GPG_ERR_NO_ERROR, record, cache') ∧ f record = v := by
  match x, h with
  | some (e, r, c), h =>
    simp only [Option.map_some', Option.some.injEq, Prod.mk.injEq] at h
    obtain ⟨h1, h2⟩ := h
    subst h1
    exact ⟨r, c, rfl, h2⟩

theorem build_header_length (env : Env) (cache : IdCache) (hdr : tar_header)
    (record : List Byte) (cache' : IdCache)
    (h : build_header env cache hdr = some (GPG_ERR_NO_ERROR, record, cache')) :
    record.length = 512 := by
  obtain ⟨_, _, hl, _⟩ := build_header_frame env cache hdr record cache' h
  exact hl

theorem write_eof_mark_ok (stream : Sink) (h : 2 ≤ stream.room) :
    write_eof_mark stream =
      (GPG_ERR_NO_ERROR,
        ⟨stream.records ++ [List.replicate RECORDSIZE 0, List.replicate RECORDSIZE 0],
          stream.room - 2⟩) := by
  have ht : (List.replicate RECORDSIZE (0 : Byte)).take RECORDSIZE = List.replicate RECORDSIZE 0 :=
    List.take_of_length_le (by rw [List.length_replicate])
  unfold write_eof_mark
  simp only []
  rw [write_record_ok _ _ (by omega)]
  simp only [if_true]
  rw [write_record_ok _ _ (by simp only []; omega), ht]
  simp only [List.append_assoc, List.singleton_append, Prod.mk.injEq, true_and]
  congr 1

/-- The writing half of `gpgtar_create` when the output stream opens, every
`write_file` call succeeds and the stream accepts two more records. -/
theorem create_archive_ok (env : Env) (cache : IdCache) (flist : List tar_header)
    (stream : Sink) (cache' : IdCache)
    (hopen : ¬ (env.outfile.isSome ∧ env.create_fails))
    (hfiles : write_files env cache ⟨[], env.room⟩ flist
      = some (GPG_ERR_NO_ERROR, stream, cache'))
    (hroom : 2 ≤ stream.room) :
    create_archive env cache flist =
      some { err := if env.out_close_fails then GPG_ERR_SYSTEM else GPG_ERR_NO_ERROR,
             records := stream.records ++
               [List.replicate RECORDSIZE 0, List.replicate RECORDSIZE 0],
             removed := decide ((if env.out_close_fails then GPG_ERR_SYSTEM
               else GPG_ERR_NO_ERROR) ≠ GPG_ERR_NO_ERROR ∧ env.outfile.isSome) } := by
  unfold create_archive
  rw [if_neg hopen, hfiles]
  simp only [ne_eq, not_true_eq_false, if_false, write_eof_mark_ok stream hroom, if_true]

theorem scan_patterns_dotdot (env : Env) (scanctrl : scanctrl_s) :
    scan_patterns env [[46, 46]] scanctrl = scanctrl := rfl

/-- Evaluating a projection of the output stream of a successful run of the
entry loop. -/
theorem write_files_eval {β : Type} (x : Option (gpg_error_t × Sink × IdCache))
    (f : Sink → β) (v : β)
    (h : x.map (fun r => (r.1, f r.2.1)) = some (GPG_ERR_NO_ERROR, v)) :
    ∃ stream cache', x = some (GPG_ERR_NO_ERROR, stream, cache') ∧ f stream = v := by
  match x, h with
  | some (e, r, c), h =>
    simp only [Option.map_some', Option.some.injEq, Prod.mk.injEq] at h
    obtain ⟨h1, h2⟩ := h
    subst h1
    exact ⟨r, c, rfl, h2⟩

/-! ## Lemmas on the scanner -/

/-- One step of the pattern loop of `gpgtar_create`. -/
theorem scan_patterns_cons (env : Env) (pattern : List Byte) (rest : List (List Byte))
    (sc : scanctrl_s) :
    scan_patterns env (pattern :: rest) sc =
      scan_patterns env rest (scan_patterns env [pattern] sc) := rfl

theorem scan_patterns_nil (env : Env) (sc : scanctrl_s) : scan_patterns env [] sc = sc := rfl

/-- A pattern that is empty or not valid leaves the scan state alone. -/
theorem scan_patterns_invalid (env : Env) (pattern : List Byte) (sc : scanctrl_s)
    (h : pattern_valid_p pattern = false) : scan_patterns env [pattern] sc = sc := by
  unfold scan_patterns
  simp only [List.foldl_cons, List.foldl_nil, h]
  split
  · rfl
  · rfl

theorem pattern_valid_p_eq_false (pattern : List Byte) (hstr : ∀ b ∈ pattern, b ≠ 0) :
    pattern_valid_p pattern = false ↔
      pattern = [] ∨ pattern.take 2 = [46, 46] ∨ pattern.head? = some 47 := by
  unfold pattern_valid_p
  match pattern, hstr with
  | [], _ => simp
  | [a], h =>
    have ha : a ≠ 0 := h a (by simp)
    simp only [List.getD_cons_zero, ha, if_false, List.getD_cons_succ, List.getD_nil]
    by_cases h47 : a = 47
    · subst h47; simp
    · simp [h47]
  | a :: b :: rest, h =>
    have ha : a ≠ 0 := h a (by simp)
    simp only [List.getD_cons_zero, ha, if_false, List.getD_cons_succ]
    by_cases h1 : a = 46 ∧ b = 46
    · obtain ⟨rfl, rfl⟩ := h1
      simp
    · rw [if_neg h1]
      by_cases h47 : a = 47
      · subst h47; simp
      · rw [if_neg h47]
        simp only [Bool.true_eq_false, List.take_succ_cons, List.take_zero, List.cons.injEq,
          and_true, List.head?_cons, Option.some.injEq, false_iff, reduceCtorEq, false_or,
          not_or]
        exact ⟨h1, h47⟩

/-! ## Lemmas on the identity cache -/

theorem cstring_no_nul (l : List Byte) : ∀ b ∈ cstring l, b ≠ 0 := by
  intro b hb
  have := List.mem_takeWhile_imp hb
  simpa using this

theorem uncached_name_spec (lookup : Nat → Option (List Byte)) (id : Nat) :
    (uncached_name lookup id).length ≤ 31 ∧ ∀ b ∈ uncached_name lookup id, b ≠ 0 := by
  unfold uncached_name
  split
  · refine ⟨by rw [List.length_take]; omega, ?_⟩
    intro b hb
    exact cstring_no_nul _ b (List.mem_of_mem_take hb)
  · exact ⟨by simp, by simp⟩

theorem cstring_idem (s : List Byte) (h : ∀ b ∈ s, b ≠ 0) : cstring s = s := by
  unfold cstring
  rw [List.takeWhile_eq_self_iff]
  intro b hb
  simpa using h b hb

/-- What `mem2str` leaves at `buf + off` reads back as the string copied. -/
theorem cstring_mem2str (buf : List Byte) (off : Nat) (s : List Byte) (n : Nat)
    (hn : s.length < n) (hs : ∀ b ∈ s, b ≠ 0) (hl : off + n ≤ buf.length) :
    cstring (field (mem2str buf off s n) off n) = s := by
  have hc : cstring s = s := cstring_idem s hs
  have ht : (cstring s).take (n - 1) = s := by
    rw [hc]; exact List.take_of_length_le (by omega)
  have e : field (mem2str buf off s n) off n
      = s ++ 0 :: (field (mem2str buf off s n) off n).drop (s.length + 1) := by
    apply List.ext_getElem?
    intro i
    rw [List.getElem?_append]
    by_cases hi : i < s.length
    · rw [if_pos hi, getElem?_field, if_pos (by omega)]
      unfold mem2str
      rw [if_neg (by omega)]
      simp only [ht]
      rw [List.getElem?_set, if_neg (by omega), getElem?_memcpy _ _ _ _ (by omega),
        if_pos (by omega)]
      congr 1
      omega
    · rw [if_neg hi]
      by_cases hi2 : i = s.length
      · subst hi2
        rw [Nat.sub_self, List.getElem?_cons_zero, getElem?_field, if_pos (by omega)]
        unfold mem2str
        rw [if_neg (by omega)]
        simp only [ht]
        rw [List.getElem?_set, if_pos rfl, if_pos (by rw [length_memcpy]; omega)]
      · have : i - s.length = (i - (s.length + 1)) + 1 := by omega
        rw [this, List.getElem?_cons_succ, List.getElem?_drop]
        congr 1
        omega
  rw [e]
  exact cstring_append_zero _ _ hs

/-- The statics of the cache agree with the previous call: not initialised
before the first call, and afterwards holding the previous id and its name. -/
theorem store_name_run_spec (lookup : Nat → Option (List Byte)) (buf : List Byte)
    (off length : Nat) : ∀ (ids : List Nat) (c : NameCache) (prev : Option Nat),
    ((prev = none ∧ c.initialized = false) ∨
      (∃ p, prev = some p ∧ c.initialized = true ∧ c.lastid = p ∧
        c.lastname = uncached_name lookup p)) →
    (store_name_run lookup buf off length c ids).map Prod.fst
      = ids.map (store_name_uncached lookup buf off length) ∧
    (store_name_run lookup buf off length c ids).map Prod.snd = lookup_expected prev ids := by
  intro ids
  induction ids with
  | nil => intro c prev _; exact ⟨rfl, rfl⟩
  | cons id ids ih =>
    intro c prev hinv
    have hstep : (store_name_of_id lookup c buf off length id).1
          = store_name_uncached lookup buf off length id ∧
        lookup_performed c id = decide (prev ≠ some id) ∧
        (store_name_of_id lookup c buf off length id).2.initialized = true ∧
        (store_name_of_id lookup c buf off length id).2.lastid = id ∧
        (store_name_of_id lookup c buf off length id).2.lastname = uncached_name lookup id := by
      unfold store_name_of_id lookup_performed store_name_uncached uncached_name
      rcases hinv with ⟨rfl, hi⟩ | ⟨p, rfl, hi, hid, hnm⟩
      · simp only [hi, Bool.false_eq_true, not_false_eq_true, true_or, if_true]
        cases lookup id <;> simp
      · by_cases hp : id = p
        · subst hp
          simp only [hi, not_true_eq_false, hid, ne_eq, or_self, if_false, hnm]
          unfold uncached_name
          simp
        · have hne : id ≠ c.lastid := by rw [hid]; exact hp
          simp only [hi, not_true_eq_false, ne_eq, hne, not_false_eq_true, or_true, if_true]
          cases lookup id <;> simp [Ne.symm hp]
    obtain ⟨h1, h2, h3, h4, h5⟩ := hstep
    obtain ⟨i1, i2⟩ := ih (store_name_of_id lookup c buf off length id).2 (some id)
      (Or.inr ⟨id, rfl, h3, h4, h5⟩)
    constructor
    · simp only [store_name_run, List.map_cons, h1, i1]
    · simp only [store_name_run, List.map_cons, h2, i2, lookup_expected]

/-! ## Lemmas on a failing archive write -/

theorem write_record_appends (stream : Sink) (record : List Byte) :
    ∃ recs, (write_record stream record).2.records = stream.records ++ recs := by
  unfold write_record
  split
  · exact ⟨[], by simp⟩
  · exact ⟨[record.take RECORDSIZE], rfl⟩

theorem write_data_appends (size : Nat) : ∀ (k : Nat) (stream : Sink) (record infp : List Byte),
    ∃ recs, (write_data size k stream record infp).2.1.records = stream.records ++ recs := by
  intro k
  induction k with
  | zero => intro stream record infp; exact ⟨[], by simp [write_data]⟩
  | succ k ih =>
    intro stream record infp
    unfold write_data
    dsimp only
    generalize (if k ≠ 0 then RECORDSIZE else size % RECORDSIZE) = nb
    by_cases hg : (infp.take nb).length ≠ nb
    · rw [if_pos hg]; exact ⟨[], by simp⟩
    · rw [if_neg hg]
      obtain ⟨r1, h1⟩ := write_record_appends stream (memcpy record 0 (infp.take nb))
      by_cases hw : (write_record stream (memcpy record 0 (infp.take nb))).1 ≠ GPG_ERR_NO_ERROR
      · rw [if_pos hw]; exact ⟨r1, h1⟩
      · rw [if_neg hw]
        obtain ⟨r2, h2⟩ := ih (write_record stream (memcpy record 0 (infp.take nb))).2
          (memcpy record 0 (infp.take nb)) (infp.drop nb)
        exact ⟨r1 ++ r2, by rw [h2, h1, List.append_assoc]⟩

/-- `write_file` only appends to the output stream. -/
theorem write_file_appends (env : Env) (cache : IdCache) (stream : Sink) (hdr : tar_header)
    (err : gpg_error_t) (stream' : Sink) (cache' : IdCache)
    (h : write_file env cache stream hdr = some (err, stream', cache')) :
    ∃ recs, stream'.records = stream.records ++ recs := by
  unfold write_file at h
  cases hb : build_header env cache hdr with
  | none => rw [hb] at h; exact Option.noConfusion h
  | some r =>
    obtain ⟨e, record, c⟩ := r
    rw [hb] at h
    dsimp only at h
    obtain ⟨rw1, hw1⟩ := write_record_appends stream record
    by_cases he : e ≠ GPG_ERR_NO_ERROR
    · rw [if_pos he] at h
      by_cases hn : e = GPG_ERR_NOT_SUPPORTED
      · rw [if_pos hn] at h
        simp only [Option.some.injEq, Prod.mk.injEq] at h
        exact ⟨[], by rw [← h.2.1]; simp⟩
      · rw [if_neg hn] at h
        simp only [Option.some.injEq, Prod.mk.injEq] at h
        exact ⟨[], by rw [← h.2.1]; simp⟩
    · rw [if_neg he] at h
      split at h
      · have h' := Option.some.inj h
        simp only [Prod.mk.injEq] at h'
        exact ⟨[], by rw [← h'.2.1]; simp⟩
      · rename_i infp _
        by_cases hw : (write_record stream record).1 ≠ GPG_ERR_NO_ERROR
        · rw [if_pos hw] at h
          simp only [Option.some.injEq, Prod.mk.injEq] at h
          exact ⟨rw1, by rw [← h.2.1]; exact hw1⟩
        · rw [if_neg hw] at h
          have hd : ∃ recs, (if hdr.typeflag = TF_REGULAR then
                ((write_data hdr.size ((hdr.size + RECORDSIZE - 1) % 2 ^ 64 / RECORDSIZE)
                  (write_record stream record).2 record (infp.getD [])).1,
                 (write_data hdr.size ((hdr.size + RECORDSIZE - 1) % 2 ^ 64 / RECORDSIZE)
                  (write_record stream record).2 record (infp.getD [])).2.1)
              else (GPG_ERR_NO_ERROR, (write_record stream record).2)).2.records
              = stream.records ++ recs := by
            by_cases hr : hdr.typeflag = TF_REGULAR
            · rw [if_pos hr]
              obtain ⟨r2, h2⟩ := write_data_appends hdr.size
                ((hdr.size + RECORDSIZE - 1) % 2 ^ 64 / RECORDSIZE)
                (write_record stream record).2 record (infp.getD [])
              exact ⟨rw1 ++ r2, by dsimp only; rw [h2, hw1, List.append_assoc]⟩
            · rw [if_neg hr]
              exact ⟨rw1, hw1⟩
          generalize (if hdr.typeflag = TF_REGULAR then
                ((write_data hdr.size ((hdr.size + RECORDSIZE - 1) % 2 ^ 64 / RECORDSIZE)
                  (write_record stream record).2 record (infp.getD [])).1,
                 (write_data hdr.size ((hdr.size + RECORDSIZE - 1) % 2 ^ 64 / RECORDSIZE)
                  (write_record stream record).2 record (infp.getD [])).2.1)
              else (GPG_ERR_NO_ERROR, (write_record stream record).2)) = d at h hd
          by_cases h1 : d.1 ≠ GPG_ERR_NO_ERROR
          · rw [if_pos h1] at h
            simp only [Option.some.injEq, Prod.mk.injEq] at h
            rw [← h.2.1]; exact hd
          · rw [if_neg h1] at h
            by_cases h2 : infp.isSome ∧ env.fclose_fails hdr.name
            · rw [if_pos h2] at h
              simp only [Option.some.injEq, Prod.mk.injEq] at h
              rw [← h.2.1]; exact hd
            · rw [if_neg h2] at h
              simp only [Option.some.injEq, Prod.mk.injEq] at h
              rw [← h.2.1]; exact hd

/-- The entry loop stops at the first entry for which `write_file` fails. -/
theorem write_files_append (env : Env) : ∀ (pre : List tar_header) (cache : IdCache)
    (stream : Sink) (rest : List tar_header) (s1 : Sink) (c1 : IdCache),
    write_files env cache stream pre = some (GPG_ERR_NO_ERROR, s1, c1) →
    write_files env cache stream (pre ++ rest) = write_files env c1 s1 rest := by
  intro pre
  induction pre with
  | nil =>
    intro cache stream rest s1 c1 h
    simp only [write_files, Option.some.injEq, Prod.mk.injEq, true_and] at h
    obtain ⟨rfl, rfl⟩ := h
    rfl
  | cons hdr pre ih =>
    intro cache stream rest s1 c1 h
    simp only [List.cons_append, write_files] at h ⊢
    split at h
    · exact Option.noConfusion h
    · rename_i e s c hw
      split at h
      · rename_i hne
        simp only [Option.some.injEq, Prod.mk.injEq] at h
        exact absurd h.1 hne
      · rename_i he
        rw [if_neg he]
        exact ih c s rest s1 c1 h

theorem write_files_fail (env : Env) (cache : IdCache) (stream : Sink) (hdr : tar_header)
    (post : List tar_header) (err : gpg_error_t) (s2 : Sink) (c2 : IdCache)
    (h : write_file env cache stream hdr = some (err, s2, c2)) (herr : err ≠ GPG_ERR_NO_ERROR) :
    write_files env cache stream (hdr :: post) = some (err, s2, c2) := by
  simp only [write_files, h, if_pos herr]

/-- A regular file of declared size 1000 of which 500 bytes can be read: the
header record is written, the first read comes up short, and nothing more is
written. -/
theorem write_file_shrunk_1000 (env : Env) (cache : IdCache) (stream : Sink) (hdr : tar_header)
    (header : List Byte) (cache' : IdCache) (data : List Byte)
    (hreg : hdr.typeflag = TF_REGULAR) (hsize : hdr.size = 1000) (hdata : data.length = 500)
    (hb : build_header env cache hdr = some (GPG_ERR_NO_ERROR, header, cache'))
    (hopen : env.fopen hdr.name = some data) (hroom : 0 < stream.room) :
    write_file env cache stream hdr =
      some (GPG_ERR_SYSTEM, ⟨stream.records ++ [header.take RECORDSIZE], stream.room - 1⟩,
        cache') := by
  rw [write_file_regular env cache stream hdr header cache' data hreg hb hopen hroom, hsize]
  have hk : (1000 + RECORDSIZE - 1) % 2 ^ 64 / RECORDSIZE = 1 + 1 := by decide
  rw [hk]
  have hw : ∀ (s : Sink),
      write_data 1000 (1 + 1) s header data
        = (GPG_ERR_SYSTEM, s, memcpy header 0 (data.take RECORDSIZE), data.drop RECORDSIZE) := by
    intro s
    unfold write_data
    simp only [ne_eq, one_ne_zero, not_false_eq_true, if_true]
    rw [if_pos]
    rw [List.length_take, hdata]
    decide
  rw [hw]
  simp

theorem write_file_eval {β : Type} (x : Option (gpg_error_t × Sink × IdCache))
    (f : Sink → β) (e : gpg_error_t) (v : β)
    (h : x.map (fun r => (r.1, f r.2.1)) = some (e, v)) :
    ∃ stream cache', x = some (e, stream, cache') ∧ f stream = v := by
  match x, h with
  | some (e', r, c), h =>
    simp only [Option.map_some', Option.some.injEq, Prod.mk.injEq] at h
    obtain ⟨h1, h2⟩ := h
    subst h1
    exact ⟨r, c, rfl, h2⟩

theorem create_archive_fail (env : Env) (cache : IdCache) (flist : List tar_header)
    (err : gpg_error_t) (stream : Sink) (cache' : IdCache)
    (hopen : ¬ (env.outfile.isSome ∧ env.create_fails))
    (hfiles : write_files env cache ⟨[], env.room⟩ flist = some (err, stream, cache'))
    (herr : err ≠ GPG_ERR_NO_ERROR) :
    create_archive env cache flist =
      some { err := err, records := stream.records, removed := env.outfile.isSome } := by
  unfold create_archive
  rw [if_neg hopen, hfiles]
  simp only [ne_eq, herr, not_false_eq_true, if_true, if_false, true_and]
  simp

/-! ## Lemmas on entry names -/

theorem fillup_entry_name (env : Env) (name : List Byte) (hdr : tar_header)
    (h : fillup_entry env name = some hdr) : hdr.name = name := by
  unfold fillup_entry at h
  split at h
  · exact Option.noConfusion h
  · simp only [Option.some.injEq] at h
    rw [← h]

/-- `add_entry` leaves the list alone or appends one entry, whose name is the
one it composed. -/
theorem add_entry_flist (env : Env) (dname : List Byte) (de : Option (List Byte))
    (sc : scanctrl_s) :
    (add_entry env dname de sc).nestlevel = sc.nestlevel ∧
    ((add_entry env dname de sc).flist = sc.flist ∨
      ∃ hdr, (add_entry env dname de sc).flist = sc.flist ++ [hdr] ∧
        fillup_entry env (match de with
          | some d_name =>
            if dname.getD (dname.length - 1) 0 ≠ 47 then dname ++ [47] ++ d_name
            else dname ++ d_name
          | none =>
            if dname.getD (dname.length - 1) 0 = 47 then dname.take (dname.length - 1)
            else dname) = some hdr) := by
  unfold add_entry
  dsimp only
  split
  · exact ⟨rfl, Or.inl rfl⟩
  · rename_i hdr hf
    exact ⟨rfl, Or.inr ⟨hdr, rfl, hf⟩⟩

theorem relative_name_child (dname d_name : List Byte) (h : relative_name dname) :
    relative_name (if dname.getD (dname.length - 1) 0 ≠ 47 then dname ++ [47] ++ d_name
      else dname ++ d_name) := by
  obtain ⟨h1, h2, h3⟩ := h
  match dname, h1, h2, h3 with
  | [x], _, h2, _ =>
    have hx : x ≠ 47 := fun e => h2 (by rw [e]; rfl)
    rw [if_pos (by simpa using hx)]
    refine ⟨by simp, by simpa using hx, ?_⟩
    intro e
    have e1 := congrArg (fun l => l.getD 1 0) e
    simp at e1
  | x :: y :: t, _, h2, h3 =>
    split
    · refine ⟨by simp, by simpa using h2, ?_⟩
      simpa using h3
    · refine ⟨by simp, by simpa using h2, ?_⟩
      simpa using h3

theorem relative_name_pattern (pattern : List Byte) (h0 : ¬ pattern.getD 0 0 = 0)
    (hv : pattern_valid_p pattern = true) :
    relative_name pattern ∧
    relative_name (if pattern.getD (pattern.length - 1) 0 = 47
      then pattern.take (pattern.length - 1) else pattern) := by
  unfold pattern_valid_p at hv
  rw [if_neg h0] at hv
  by_cases h1 : pattern.getD 0 0 = 46 ∧ pattern.getD 1 0 = 46
  · rw [if_pos h1] at hv; exact Bool.noConfusion hv
  · by_cases h2 : pattern.getD 0 0 = 47
    · rw [if_neg h1, if_pos h2] at hv; exact Bool.noConfusion hv
    · match pattern, h0, h1, h2 with
      | [], h0, _, _ => exact absurd rfl h0
      | [x], _, _, h2 =>
        have hx : x ≠ 47 := by simpa using h2
        have hg : ¬ ([x] : List Byte).getD (([x] : List Byte).length - 1) 0 = 47 := by
          simpa using hx
        rw [if_neg hg]
        have : relative_name [x] := ⟨by simp, by simpa using hx, by simp⟩
        exact ⟨this, this⟩
      | [x, y], _, h1, h2 =>
        have hx : x ≠ 47 := by simpa using h2
        have hxy : ¬ (x = 46 ∧ y = 46) := by simpa using h1
        have hp : relative_name [x, y] := ⟨by simp, by simpa using hx, by simpa using hxy⟩
        refine ⟨hp, ?_⟩
        split
        · exact ⟨by simp, by simpa using hx, by simp⟩
        · exact hp
      | x :: y :: z :: t, _, h1, h2 =>
        have hx : x ≠ 47 := by simpa using h2
        have hxy : ¬ (x = 46 ∧ y = 46) := by simpa using h1
        have hp : relative_name (x :: y :: z :: t) :=
          ⟨by simp, by simpa using hx, by simpa using hxy⟩
        refine ⟨hp, ?_⟩
        split
        · refine ⟨?_, ?_, ?_⟩
          · simp [List.take_succ_cons]
          · simp only [List.length_cons, Nat.add_sub_cancel, List.take_succ_cons]
            simpa using hx
          · simp only [List.length_cons, Nat.add_sub_cancel, List.take_succ_cons]
            simpa using hxy
        · exact hp

theorem add_entry_relative (env : Env) (dname : List Byte) (de : Option (List Byte))
    (sc : scanctrl_s)
    (hname : relative_name (match de with
          | some d_name =>
            if dname.getD (dname.length - 1) 0 ≠ 47 then dname ++ [47] ++ d_name
            else dname ++ d_name
          | none =>
            if dname.getD (dname.length - 1) 0 = 47 then dname.take (dname.length - 1)
            else dname))
    (hsc : ∀ hdr ∈ sc.flist, relative_name hdr.name) :
    ∀ hdr ∈ (add_entry env dname de sc).flist, relative_name hdr.name := by
  obtain ⟨_, h | ⟨hdr, h, hf⟩⟩ := add_entry_flist env dname de sc
  · rw [h]; exact hsc
  · rw [h]
    intro x hx
    rcases List.mem_append.1 hx with hx | hx
    · exact hsc x hx
    · rw [List.mem_singleton.1 hx, fillup_entry_name env _ hdr hf]
      exact hname

theorem scan_directory_relative (env : Env) (dname : List Byte) (sc : scanctrl_s)
    (hd : relative_name dname) (hsc : ∀ hdr ∈ sc.flist, relative_name hdr.name) :
    ∀ hdr ∈ (scan_directory env dname sc).2.flist, relative_name hdr.name := by
  unfold scan_directory
  split
  · exact hsc
  · split
    · exact hsc
    · rename_i des hrd
      dsimp only
      clear hrd
      generalize hsc0 : sc = sc0 at hsc
      clear hsc0
      induction des generalizing sc0 with
      | nil => exact hsc
      | cons d des ih =>
        rw [List.foldl_cons]
        apply ih
        split
        · exact hsc
        · exact add_entry_relative env dname (some d) sc0 (relative_name_child dname d hd) hsc

theorem scan_recursive_relative (env : Env) : ∀ (fuel : Nat) (dname : List Byte)
    (sc : scanctrl_s), relative_name dname → (∀ hdr ∈ sc.flist, relative_name hdr.name) →
    ∀ hdr ∈ (scan_recursive env fuel dname sc).2.flist, relative_name hdr.name := by
  intro fuel
  induction fuel with
  | zero => intro dname sc _ hsc; exact hsc
  | succ fuel ih =>
    intro dname sc hd hsc
    unfold scan_recursive
    split
    · exact hsc
    · dsimp only
      have h2 := scan_directory_relative env dname ⟨sc.flist, sc.nestlevel + 1⟩ hd hsc
      generalize (scan_directory env dname ⟨sc.flist, sc.nestlevel + 1⟩).2 = sc2 at h2 ⊢
      have hl : ∀ hdr ∈ sc2.flist.drop sc.flist.length, relative_name hdr.name :=
        fun hdr hm => h2 hdr (List.mem_of_mem_drop hm)
      generalize sc2.flist.drop sc.flist.length = l at hl
      induction l generalizing sc2 with
      | nil => exact h2
      | cons x l ihl =>
        rw [List.foldl_cons]
        apply ihl
        · split
          · exact ih x.name sc2 (hl x (List.mem_cons_self _ _)) h2
          · exact h2
        · exact fun hdr hm => hl hdr (List.mem_cons_of_mem _ hm)

theorem scan_patterns_relative (env : Env) : ∀ (inpattern : List (List Byte)) (sc : scanctrl_s),
    (∀ hdr ∈ sc.flist, relative_name hdr.name) →
    ∀ hdr ∈ (scan_patterns env inpattern sc).flist, relative_name hdr.name := by
  intro inpattern
  induction inpattern with
  | nil => intro sc hsc; exact hsc
  | cons pattern rest ih =>
    intro sc hsc
    rw [scan_patterns_cons]
    apply ih
    unfold scan_patterns
    rw [List.foldl_cons, List.foldl_nil]
    by_cases h0 : pattern.getD 0 0 = 0
    · rw [if_pos h0]; exact hsc
    · rw [if_neg h0]
      by_cases hv : pattern_valid_p pattern = true
      · rw [if_neg (by simpa using hv)]
        obtain ⟨hp, hs⟩ := relative_name_pattern pattern h0 hv
        have h1 := add_entry_relative env pattern none sc hs hsc
        dsimp only
        split
        · split
          · exact scan_recursive_relative env 202 pattern _ hp h1
          · exact h1
        · exact h1
      · rw [if_pos (by simpa using hv)]; exact hsc

/-! ## Lemmas on the nesting level -/

/-- A loop whose body keeps an invariant keeps it. -/
theorem foldl_invariant {α β : Type} (Inv : β → Prop) (f : β → α → β) :
    ∀ (l : List α) (s : β), Inv s → (∀ s x, x ∈ l → Inv s → Inv (f s x)) →
    Inv (l.foldl f s) := by
  intro l
  induction l with
  | nil => intro s h _; exact h
  | cons x l ih =>
    intro s h hstep
    rw [List.foldl_cons]
    exact ih (f s x) (hstep s x (List.mem_cons_self _ _) h)
      (fun s y hy hs => hstep s y (List.mem_cons_of_mem _ hy) hs)

/-- Two loop bodies that agree on the states of an invariant give the same loop. -/
theorem foldl_congr_invariant {α β : Type} (Inv : β → Prop) (f g : β → α → β) :
    ∀ (l : List α) (s : β), Inv s →
    (∀ s x, x ∈ l → Inv s → f s x = g s x ∧ Inv (g s x)) →
    l.foldl f s = l.foldl g s := by
  intro l
  induction l with
  | nil => intro s _ _; rfl
  | cons x l ih =>
    intro s h hstep
    rw [List.foldl_cons, List.foldl_cons, (hstep s x (List.mem_cons_self _ _) h).1]
    exact ih (g s x) (hstep s x (List.mem_cons_self _ _) h).2
      (fun s y hy hs => hstep s y (List.mem_cons_of_mem _ hy) hs)

/-- `scan_directory` keeps the nesting level and only appends to the list. -/
theorem scan_directory_appends (env : Env) (dname : List Byte) (sc : scanctrl_s) :
    (scan_directory env dname sc).2.nestlevel = sc.nestlevel ∧
    ∃ l, (scan_directory env dname sc).2.flist = sc.flist ++ l := by
  unfold scan_directory
  split
  · exact ⟨rfl, [], by simp⟩
  · split
    · exact ⟨rfl, [], by simp⟩
    · rename_i des _
      dsimp only
      exact foldl_invariant
        (fun s : scanctrl_s => s.nestlevel = sc.nestlevel ∧ ∃ l, s.flist = sc.flist ++ l) _
        des sc ⟨rfl, [], by simp⟩ (by
          intro s x _ hs
          obtain ⟨hn, l, hl⟩ := hs
          split
          · exact ⟨hn, l, hl⟩
          · obtain ⟨h1, h2 | ⟨hdr, h2, _⟩⟩ := add_entry_flist env dname (some x) s
            · exact ⟨h1.trans hn, l, h2.trans hl⟩
            · exact ⟨h1.trans hn, l ++ [hdr], by rw [h2, hl, List.append_assoc]⟩)

/-- `scan_recursive` returns with the nesting level it was entered with, on
both of its return paths, and only appends to the list. -/
theorem scan_recursive_appends (env : Env) : ∀ (fuel : Nat) (dname : List Byte)
    (sc : scanctrl_s),
    (scan_recursive env fuel dname sc).2.nestlevel = sc.nestlevel ∧
    ∃ l, (scan_recursive env fuel dname sc).2.flist = sc.flist ++ l := by
  intro fuel
  induction fuel with
  | zero => intro dname sc; exact ⟨rfl, [], by simp [scan_recursive]⟩
  | succ fuel ih =>
    intro dname sc
    unfold scan_recursive
    split
    · exact ⟨rfl, [], by simp⟩
    · dsimp only
      obtain ⟨hn2, l2, hl2⟩ := scan_directory_appends env dname ⟨sc.flist, sc.nestlevel + 1⟩
      have hinv := foldl_invariant
        (fun s : scanctrl_s => s.nestlevel = sc.nestlevel + 1 ∧ ∃ l, s.flist = sc.flist ++ l)
        (fun sc hdr =>
          if hdr.typeflag = TF_DIRECTORY then (scan_recursive env fuel hdr.name sc).2 else sc)
        ((scan_directory env dname ⟨sc.flist, sc.nestlevel + 1⟩).2.flist.drop sc.flist.length)
        (scan_directory env dname ⟨sc.flist, sc.nestlevel + 1⟩).2 ⟨hn2, l2, hl2⟩ (by
          intro s x _ hs
          obtain ⟨hn, l, hl⟩ := hs
          dsimp only
          split
          · obtain ⟨h1, l', h2⟩ := ih x.name s
            exact ⟨h1.trans hn, l ++ l', by rw [h2, hl, List.append_assoc]⟩
          · exact ⟨hn, l, hl⟩)
      obtain ⟨h1, l, h2⟩ := hinv
      exact ⟨by rw [h1]; rfl, l, h2⟩

/-- The depth bound of the model is never used up: from 202 levels less the
nesting level on, one more level changes nothing. -/
theorem scan_recursive_fuel (env : Env) : ∀ (fuel : Nat) (dname : List Byte) (sc : scanctrl_s),
    202 ≤ sc.nestlevel + fuel →
    scan_recursive env (fuel + 1) dname sc = scan_recursive env fuel dname sc := by
  intro fuel
  induction fuel with
  | zero =>
    intro dname sc h
    unfold scan_recursive
    rw [if_pos (by omega)]
  | succ fuel ih =>
    intro dname sc h
    rw [scan_recursive, scan_recursive]
    by_cases hg : sc.nestlevel > 200
    · rw [if_pos hg, if_pos hg]
    · rw [if_neg hg, if_neg hg]
      dsimp only
      obtain ⟨hn2, _⟩ := scan_directory_appends env dname ⟨sc.flist, sc.nestlevel + 1⟩
      rw [foldl_congr_invariant (fun s : scanctrl_s => s.nestlevel = sc.nestlevel + 1)
        (fun (sc : scanctrl_s) (hdr : tar_header) =>
          if hdr.typeflag = TF_DIRECTORY then (scan_recursive env (fuel + 1) hdr.name sc).2
          else sc)
        (fun (sc : scanctrl_s) (hdr : tar_header) =>
          if hdr.typeflag = TF_DIRECTORY then (scan_recursive env fuel hdr.name sc).2 else sc)
        ((scan_directory env dname ⟨sc.flist, sc.nestlevel + 1⟩).2.flist.drop sc.flist.length)
        (scan_directory env dname ⟨sc.flist, sc.nestlevel + 1⟩).2 hn2 (by
          intro s x _ hs
          dsimp only
          split
          · rw [ih x.name s (by omega)]
            exact ⟨rfl, (scan_recursive_appends env fuel x.name s).1.trans hs⟩
          · exact ⟨rfl, hs⟩)]

theorem scan_recursive_fuel_le (env : Env) (dname : List Byte) (sc : scanctrl_s) :
    ∀ (k fuel : Nat), 202 ≤ sc.nestlevel + fuel →
    scan_recursive env (fuel + k) dname sc = scan_recursive env fuel dname sc := by
  intro k
  induction k with
  | zero => intro fuel _; rfl
  | succ k ih =>
    intro fuel h
    rw [← Nat.add_assoc, scan_recursive_fuel env (fuel + k) dname sc (by omega)]
    exact ih fuel h

/-- One pattern keeps the nesting level and only appends to the list. -/
theorem scan_patterns_appends (env : Env) : ∀ (inpattern : List (List Byte)) (sc : scanctrl_s),
    (scan_patterns env inpattern sc).nestlevel = sc.nestlevel ∧
    ∃ l, (scan_patterns env inpattern sc).flist = sc.flist ++ l := by
  intro inpattern sc
  unfold scan_patterns
  exact foldl_invariant
    (fun s : scanctrl_s => s.nestlevel = sc.nestlevel ∧ ∃ l, s.flist = sc.flist ++ l) _
    inpattern sc ⟨rfl, [], by simp⟩ (by
      intro s pattern _ hs
      obtain ⟨hn, l, hl⟩ := hs
      dsimp only
      have ha : (add_entry env pattern none s).nestlevel = sc.nestlevel ∧
          ∃ l, (add_entry env pattern none s).flist = sc.flist ++ l := by
        obtain ⟨h1, h2 | ⟨hdr, h2, _⟩⟩ := add_entry_flist env pattern none s
        · exact ⟨h1.trans hn, l, h2.trans hl⟩
        · exact ⟨h1.trans hn, l ++ [hdr], by rw [h2, hl, List.append_assoc]⟩
      split
      · exact ⟨hn, l, hl⟩
      · split
        · exact ⟨hn, l, hl⟩
        · split
          · split
            · obtain ⟨h1, l', h2⟩ := scan_recursive_appends env 202 pattern
                (add_entry env pattern none s)
              obtain ⟨ha1, la, ha2⟩ := ha
              exact ⟨h1.trans ha1, la ++ l', by rw [h2, ha2, List.append_assoc]⟩
            · exact ha
          · exact ha)

/-- The nesting level never passes 201 during `scan_recursive`, unless it was
above that at entry. -/
theorem nestlevel_peak_le (env : Env) : ∀ (fuel : Nat) (dname : List Byte) (sc : scanctrl_s),
    nestlevel_peak env fuel dname sc ≤ max sc.nestlevel 201 := by
  intro fuel
  induction fuel with
  | zero => intro dname sc; exact le_max_left _ _
  | succ fuel ih =>
    intro dname sc
    unfold nestlevel_peak
    by_cases hg : sc.nestlevel > 200
    · rw [if_pos hg]; exact le_max_left _ _
    · rw [if_neg hg]
      dsimp only
      obtain ⟨hn2, _⟩ := scan_directory_appends env dname ⟨sc.flist, sc.nestlevel + 1⟩
      have hinv := foldl_invariant
        (fun p : Nat × scanctrl_s => p.1 ≤ 201 ∧ p.2.nestlevel = sc.nestlevel + 1)
        (fun (p : Nat × scanctrl_s) (hdr : tar_header) =>
          if hdr.typeflag = TF_DIRECTORY then
            (max p.1 (nestlevel_peak env fuel hdr.name p.2),
              (scan_recursive env fuel hdr.name p.2).2)
          else p)
        ((scan_directory env dname ⟨sc.flist, sc.nestlevel + 1⟩).2.flist.drop sc.flist.length)
        (sc.nestlevel + 1, (scan_directory env dname ⟨sc.flist, sc.nestlevel + 1⟩).2)
        ⟨by dsimp only; omega, hn2⟩ (by
          intro p x _ hp
          obtain ⟨h1, h2⟩ := hp
          dsimp only
          split
          · refine ⟨?_, (scan_recursive_appends env fuel x.name p.2).1.trans h2⟩
            have := ih x.name p.2
            rw [h2] at this
            dsimp only
            have h3 : max (sc.nestlevel + 1) 201 = 201 := max_eq_right (by omega)
            rw [h3] at this
            exact max_le h1 this
          · exact ⟨h1, h2⟩)
      exact le_trans hinv.1 (le_max_right _ _)

/-- A call entered below the cap raises the nesting level by one. -/
theorem nestlevel_peak_ge (env : Env) (fuel : Nat) (dname : List Byte) (sc : scanctrl_s)
    (h : sc.nestlevel ≤ 200) : sc.nestlevel + 1 ≤ nestlevel_peak env (fuel + 1) dname sc := by
  unfold nestlevel_peak
  rw [if_neg (by omega)]
  dsimp only
  exact foldl_invariant (fun p : Nat × scanctrl_s => sc.nestlevel + 1 ≤ p.1)
    (fun (p : Nat × scanctrl_s) (hdr : tar_header) =>
      if hdr.typeflag = TF_DIRECTORY then
        (max p.1 (nestlevel_peak env fuel hdr.name p.2),
          (scan_recursive env fuel hdr.name p.2).2)
      else p)
    ((scan_directory env dname ⟨sc.flist, sc.nestlevel + 1⟩).2.flist.drop sc.flist.length)
    (sc.nestlevel + 1, (scan_directory env dname ⟨sc.flist, sc.nestlevel + 1⟩).2)
    (le_refl _) (by
      intro p x _ hp
      dsimp only
      split
      · exact le_trans hp (le_max_left _ _)
      · exact hp)

theorem scan_patterns_peak_le (env : Env) : ∀ (inpattern : List (List Byte)) (sc : scanctrl_s),
    scan_patterns_peak env inpattern sc ≤ max sc.nestlevel 201 := by
  intro inpattern
  induction inpattern with
  | nil => intro sc; exact le_max_left _ _
  | cons pattern rest ih =>
    intro sc
    unfold scan_patterns_peak
    dsimp only
    apply max_le
    · split
      · exact le_max_left _ _
      · split
        · exact le_max_left _ _
        · split
          · split
            · have h := nestlevel_peak_le env 202 pattern (add_entry env pattern none sc)
              rw [(add_entry_flist env pattern none sc).1] at h
              exact h
            · exact le_max_left _ _
          · exact le_max_left _ _
    · have h := ih (scan_patterns env [pattern] sc)
      rw [(scan_patterns_appends env [pattern] sc).1] at h
      exact h

theorem scan_recursive_too_deep (env : Env) (fuel : Nat) (dname : List Byte) (sc : scanctrl_s)
    (h : sc.nestlevel > 200) :
    scan_recursive env fuel dname sc = (GPG_ERR_RESOURCE_LIMIT, sc) := by
  cases fuel with
  | zero => rfl
  | succ fuel => unfold scan_recursive; rw [if_pos h]

theorem scan_recursive_below_cap (env : Env) (fuel : Nat) (dname : List Byte) (sc : scanctrl_s)
    (h : sc.nestlevel ≤ 200) :
    (scan_recursive env (fuel + 1) dname sc).1 = GPG_ERR_NO_ERROR := by
  unfold scan_recursive
  rw [if_neg (by omega)]

/-! ## Lemmas on the directory walk -/

/-- The loop of `scan_directory` over the listing of a directory whose name
does not end in a slash. -/
theorem scan_directory_loop (env : Env) (dname : List Byte)
    (hs : dname.getD (dname.length - 1) 0 ≠ 47) : ∀ (des : List (List Byte)) (sc : scanctrl_s),
    des.foldl
        (fun sc d_name =>
          if d_name = [46] ∨ d_name = [46, 46] then sc
          else add_entry env dname (some d_name) sc) sc
      = ⟨sc.flist ++ ((des.filter (fun c => ¬ (c = [46] ∨ c = [46, 46]))).map
            (fun c => dname ++ [47] ++ c)).filterMap (fillup_entry env), sc.nestlevel⟩ := by
  intro des
  induction des with
  | nil => intro sc; simp
  | cons c des ih =>
    intro sc
    rw [List.foldl_cons, ih]
    by_cases hc : c = [46] ∨ c = [46, 46]
    · rw [if_pos hc, List.filter_cons_of_neg (by rw [decide_eq_true_eq]; exact not_not.2 hc)]
    · rw [if_neg hc, List.filter_cons_of_pos (by rw [decide_eq_true_eq]; exact hc), List.map_cons,
        List.filterMap_cons]
      unfold add_entry
      dsimp only
      rw [if_pos hs]
      cases hf : fillup_entry env (dname ++ [47] ++ c) with
      | none => rfl
      | some hdr => simp

theorem scan_directory_children (env : Env) (dname : List Byte) (sc : scanctrl_s)
    (hne : dname ≠ []) (hs : dname.getD (dname.length - 1) 0 ≠ 47) :
    (scan_directory env dname sc).2
      = ⟨sc.flist ++ (children env dname).filterMap (fillup_entry env), sc.nestlevel⟩ := by
  unfold scan_directory children
  rw [if_neg (by simpa using hne)]
  cases env.readdir dname with
  | none => simp
  | some des => exact scan_directory_loop env dname hs des sc

theorem is_dir_fillup (env : Env) (name : List Byte) :
    (∀ hdr, fillup_entry env name = some hdr →
      hdr.name = name ∧ (is_dir env name = true ↔ hdr.typeflag = TF_DIRECTORY)) ∧
    (fillup_entry env name = none → is_dir env name = false) := by
  unfold fillup_entry is_dir
  cases env.lstat name with
  | none => exact ⟨fun hdr h => Option.noConfusion h, fun _ => rfl⟩
  | some sbuf =>
    refine ⟨?_, fun h => Option.noConfusion h⟩
    intro hdr h
    simp only [Option.some.injEq] at h
    rw [← h]
    simp

/-- The directories among the entries made of a list of names are the
entries of the directories among the names. -/
theorem filter_dir_entries (env : Env) (g : List Byte → List tar_header) :
    ∀ C : List (List Byte),
    ((C.filterMap (fillup_entry env)).filter (fun h => h.typeflag = TF_DIRECTORY)).flatMap
        (fun h => g h.name)
      = (C.filter (is_dir env)).flatMap g := by
  intro C
  induction C with
  | nil => rfl
  | cons c C ih =>
    obtain ⟨h1, h2⟩ := is_dir_fillup env c
    cases hf : fillup_entry env c with
    | none =>
      rw [List.filterMap_cons_none hf, List.filter_cons_of_neg (by rw [h2 hf]; simp), ih]
    | some hdr =>
      obtain ⟨hn, hd⟩ := h1 hdr hf
      rw [List.filterMap_cons_some hf]
      by_cases hdir : hdr.typeflag = TF_DIRECTORY
      · rw [List.filter_cons_of_pos (by simpa using hdir), List.filter_cons_of_pos (hd.2 hdir),
          List.flatMap_cons, List.flatMap_cons, ih, hn]
      · rw [List.filter_cons_of_neg (by simpa using hdir),
          List.filter_cons_of_neg (by rw [hd]; exact hdir), ih]

theorem filterMap_flatMap_walk {α β γ : Type} (f : β → Option γ) (g : α → List β) :
    ∀ l : List α, (l.flatMap g).filterMap f = l.flatMap (fun x => (g x).filterMap f) := by
  intro l
  induction l with
  | nil => rfl
  | cons x l ih => rw [List.flatMap_cons, List.flatMap_cons, List.filterMap_append, ih]

/-- The loop of `scan_recursive` over the new entries, each nested call
appending what `g` says for the directory it is made on. -/
theorem scan_recursive_loop (env : Env) (fuel : Nat) (g : List Byte → List tar_header)
    (P : tar_header → Prop) (lvl : Nat)
    (hcall : ∀ (hdr : tar_header) (sc : scanctrl_s), P hdr → sc.nestlevel = lvl →
      (scan_recursive env fuel hdr.name sc).2.flist = sc.flist ++ g hdr.name) :
    ∀ (E : List tar_header) (sc : scanctrl_s), (∀ hdr ∈ E, P hdr) → sc.nestlevel = lvl →
    (E.foldl (fun sc hdr =>
        if hdr.typeflag = TF_DIRECTORY then (scan_recursive env fuel hdr.name sc).2 else sc)
      sc).flist
      = sc.flist ++ (E.filter (fun h => h.typeflag = TF_DIRECTORY)).flatMap
          (fun h => g h.name) := by
  intro E
  induction E with
  | nil => intro sc _ _; simp
  | cons x E ih =>
    intro sc hP hl
    rw [List.foldl_cons]
    by_cases hd : x.typeflag = TF_DIRECTORY
    · rw [if_pos hd, ih _ (fun h hm => hP h (List.mem_cons_of_mem _ hm))
          ((scan_recursive_appends env fuel x.name sc).1.trans hl),
        hcall x sc (hP x (List.mem_cons_self _ _)) hl,
        List.filter_cons_of_pos (by simpa using hd), List.flatMap_cons, List.append_assoc]
    · rw [if_neg hd, ih _ (fun h hm => hP h (List.mem_cons_of_mem _ hm)) hl,
        List.filter_cons_of_neg (by simpa using hd)]

/-- The child names of a directory do not end in a slash. -/
theorem children_clean (env : Env) (d : List Byte)
    (hnames : ∀ d des, env.readdir d = some des → ∀ c ∈ des, c ≠ [] ∧ 47 ∉ c) :
    ∀ n ∈ children env d, n ≠ [] ∧ n.getD (n.length - 1) 0 ≠ 47 := by
  intro n hn
  unfold children at hn
  cases hr : env.readdir d with
  | none => rw [hr] at hn; exact absurd hn (List.not_mem_nil _)
  | some des =>
    rw [hr] at hn
    obtain ⟨c, hc, rfl⟩ := List.mem_map.1 hn
    obtain ⟨hc1, hc2⟩ := hnames d des hr c (List.mem_of_mem_filter hc)
    refine ⟨by simp, ?_⟩
    intro h
    apply hc2
    have hlen : 0 < c.length := List.length_pos.2 hc1
    have hi : (d ++ [47] ++ c).length - 1 = (d ++ [47]).length + (c.length - 1) := by
      simp only [List.length_append, List.length_singleton]; omega
    rw [hi, List.getD_eq_getElem?_getD, List.getElem?_append_right (Nat.le_add_right _ _),
      Nat.add_sub_cancel_left, List.getElem?_eq_getElem (by omega)] at h
    simp only [Option.getD_some] at h
    rw [← h]
    exact List.getElem_mem _

/-- `scan_recursive` appends the entries of the walk of the directory,
followed through as many levels as the cap leaves. -/
theorem scan_recursive_walk (env : Env)
    (hnames : ∀ d des, env.readdir d = some des → ∀ c ∈ des, c ≠ [] ∧ 47 ∉ c) :
    ∀ (n fuel : Nat) (d : List Byte) (sc : scanctrl_s),
    sc.nestlevel + n = 201 → n < fuel → d ≠ [] → d.getD (d.length - 1) 0 ≠ 47 →
    (scan_recursive env fuel d sc).2.flist
      = sc.flist ++ (walk env n d).filterMap (fillup_entry env) := by
  intro n
  induction n with
  | zero =>
    intro fuel d sc hl _ _ _
    rw [scan_recursive_too_deep env fuel d sc (by omega)]
    simp [walk]
  | succ n ih =>
    intro fuel d sc hl hf hne hs
    obtain ⟨f, rfl⟩ : ∃ f, fuel = f + 1 := ⟨fuel - 1, by omega⟩
    unfold scan_recursive
    rw [if_neg (by omega)]
    dsimp only
    rw [scan_directory_children env d ⟨sc.flist, sc.nestlevel + 1⟩ hne hs]
    dsimp only
    rw [List.drop_left]
    rw [scan_recursive_loop env f (fun name => (walk env n name).filterMap (fillup_entry env))
      (fun hdr => hdr.name ≠ [] ∧ hdr.name.getD (hdr.name.length - 1) 0 ≠ 47)
      (sc.nestlevel + 1)
      (fun hdr s hp hlv => ih f hdr.name s (by omega) (by omega) hp.1 hp.2)
      _ _ (by
        intro hdr hm
        obtain ⟨c, hc, hfc⟩ := List.mem_filterMap.1 hm
        rw [fillup_entry_name env c hdr hfc]
        exact children_clean env d hnames c hc) rfl]
    dsimp only
    rw [filter_dir_entries env (fun name => (walk env n name).filterMap (fillup_entry env)),
      walk, List.filterMap_append, List.append_assoc, filterMap_flatMap_walk]

/-- Below the deepest directory the walk does not change with the depth. -/
theorem walk_stable (env : Env) : ∀ (n : Nat) (d : List Byte), dirs_below env n d = [] →
    ∀ m, n ≤ m → walk env m d = walk env n d := by
  intro n
  induction n with
  | zero => intro d h; exact absurd h (List.cons_ne_nil _ _)
  | succ n ih =>
    intro d h m hm
    obtain ⟨k, rfl⟩ : ∃ k, m = k + 1 := ⟨m - 1, by omega⟩
    unfold dirs_below at h
    rw [walk, walk]
    congr 1
    apply List.flatMap_congr
    intro c hc
    exact ih c (List.flatMap_eq_nil_iff.1 h c hc) k (by omega)

theorem fillup_entry_some (env : Env) (name : List Byte) (hdr : tar_header)
    (h : fillup_entry env name = some hdr) :
    ∃ sbuf, env.lstat name = some sbuf ∧ hdr.typeflag = stat_type sbuf.st_mode := by
  unfold fillup_entry at h
  cases hl : env.lstat name with
  | none => rw [hl] at h; exact Option.noConfusion h
  | some sbuf =>
    rw [hl] at h
    simp only [Option.some.injEq] at h
    exact ⟨sbuf, rfl, by rw [← h]⟩

theorem fillup_entry_names (env : Env) : ∀ l : List (List Byte),
    (∀ n ∈ l, (env.lstat n).isSome) →
    (l.filterMap (fillup_entry env)).map (fun hdr => hdr.name) = l := by
  intro l
  induction l with
  | nil => intro _; rfl
  | cons n l ih =>
    intro h
    have hn := h n (List.mem_cons_self _ _)
    cases hf : fillup_entry env n with
    | none =>
      unfold fillup_entry at hf
      cases hl : env.lstat n with
      | none => rw [hl] at hn; exact Bool.noConfusion hn
      | some sbuf => rw [hl] at hf; exact Option.noConfusion hf
    | some hdr =>
      rw [List.filterMap_cons_some hf, List.map_cons, fillup_entry_name env n hdr hf,
        ih (fun m hm => h m (List.mem_cons_of_mem _ hm))]

theorem walk_unlisted (env : Env) (n : Nat) (d : List Byte) (h : env.readdir d = none) :
    walk env n d = [] := by
  cases n with
  | zero => rfl
  | succ n =>
    have hc : children env d = [] := by unfold children; rw [h]
    rw [walk, hc]
    rfl

/-- The list the pattern loop builds for one valid pattern that does not end
in a slash. -/
theorem scan_patterns_walk (env : Env) (P : List Byte)
    (hvalid : pattern_valid_p P = true)
    (hslash : P.getD (P.length - 1) 0 ≠ 47)
    (hnames : ∀ d des, env.readdir d = some des → ∀ c ∈ des, c ≠ [] ∧ 47 ∉ c)
    (hlist : ∀ sbuf, env.lstat P = some sbuf → stat_type sbuf.st_mode ≠ TF_DIRECTORY →
      stat_type sbuf.st_mode ≠ TF_SYMLINK → env.readdir P = none) :
    (scan_patterns env [P] ⟨[], 0⟩).flist
      = (P :: (if is_dir env P then walk env 201 P else [])).filterMap (fillup_entry env) := by
  have h0 : ¬ P.getD 0 0 = 0 := by
    intro h
    unfold pattern_valid_p at hvalid
    rw [if_pos h] at hvalid
    exact Bool.noConfusion hvalid
  have hne : P ≠ [] := by
    intro h
    rw [h] at h0
    exact h0 rfl
  obtain ⟨hd1, hd2⟩ := is_dir_fillup env P
  unfold scan_patterns
  rw [List.foldl_cons, List.foldl_nil, if_neg h0, if_neg (by simpa using hvalid)]
  dsimp only
  unfold add_entry
  dsimp only
  rw [if_neg hslash]
  cases hf : fillup_entry env P with
  | none =>
    dsimp only
    rw [List.filterMap_cons_none hf, hd2 hf]
    rfl
  | some hdr =>
    dsimp only
    rw [List.filterMap_cons_some hf]
    obtain ⟨hn, hd⟩ := hd1 hdr hf
    have hw := scan_recursive_walk env hnames 201 202 P ⟨[] ++ [hdr], 0⟩ rfl (by omega) hne hslash
    by_cases hdir : hdr.typeflag = TF_DIRECTORY
    · rw [hd.2 hdir, if_pos rfl]
      simp only [List.nil_append, List.drop_zero, List.length_nil]
      rw [if_pos (by rw [hdir]; decide)]
      exact hw
    · have hnd : is_dir env P = false := by
        cases h : is_dir env P with
        | false => rfl
        | true => exact absurd (hd.1 h) hdir
      rw [hnd]
      simp only [List.nil_append, List.drop_zero, List.length_nil, Bool.false_eq_true, if_false]
      by_cases hbit : hdr.typeflag.code &&& TF_DIRECTORY.code ≠ 0
      · rw [if_pos hbit]
        obtain ⟨sbuf, hl, ht⟩ := fillup_entry_some env P hdr hf
        have hsym : stat_type sbuf.st_mode ≠ TF_SYMLINK := by
          intro h
          rw [h] at ht
          rw [ht] at hbit
          exact hbit (by decide)
        have hr := hlist sbuf hl (by rw [← ht]; exact hdir) hsym
        rw [walk_unlisted env 201 P hr] at hw
        exact hw
      · rw [if_neg hbit]
        rfl


/-! ## The claims -/

set_option maxRecDepth 100000

/-- C1. Whenever `build_header` succeeds, the block has 512 bytes and its
8-byte checksum field is six ASCII octal digits, one NUL byte and one space,
and the number the six digits denote is the sum of all 512 bytes of the block
with the eight checksum bytes counted as spaces; this holds whatever the
owner names, the link target and the numeric fields contain. -/
theorem build_header_checksum (env : Env) (cache : IdCache) (hdr : tar_header)
    (record : List Byte) (cache' : IdCache)
    (h : build_header env cache hdr = some (GPG_ERR_NO_ERROR, record, cache')) :
    record.length = RECORDSIZE ∧
    ∃ digits : List Byte, digits.length = 6 ∧ (∀ d ∈ digits, is_octal_digit d) ∧
      field record RawField.checksum.offset RawField.checksum.sizeof = digits ++ [0, 32] ∧
      octal_value digits =
        ((memset record RawField.checksum.offset 32 RawField.checksum.sizeof).map Fin.val).sum := by
  obtain ⟨r0, r5, -, -, l5, -, h5, -⟩ := build_header_ok env cache hdr record cache' h
  obtain ⟨res, hres, lres, hl6, hdig, hf, hv, -⟩ := store_checksum_spec r5 l5
  rw [h5] at hres
  have := Option.some.inj hres
  subst this
  exact ⟨lres, field record 148 6, hl6, hdig, hf, hv⟩

/-- Witness for C1: a 10-byte regular file named `a`. -/
theorem build_header_checksum_witness :
    ∃ record cache', build_header (example_env []) initial_cache (example_entry [97] 10)
        = some (GPG_ERR_NO_ERROR, record, cache') ∧
      record.length = RECORDSIZE ∧
      ∃ digits : List Byte, digits.length = 6 ∧ (∀ d ∈ digits, is_octal_digit d) ∧
        field record RawField.checksum.offset RawField.checksum.sizeof = digits ++ [0, 32] ∧
        octal_value digits =
          ((memset record RawField.checksum.offset 32 RawField.checksum.sizeof).map Fin.val).sum :=
  (build_header_eval_ok _ (by decide)).elim fun record hr => hr.elim fun cache' hc =>
    ⟨record, cache', hc, build_header_checksum _ _ _ record cache' hc⟩

/-- C2. Whenever `build_header` succeeds for a name without NUL bytes, the
name can be read back from the header: a name shorter than 100 bytes is the
NUL-terminated name field, the prefix field being empty; otherwise the prefix
field is non-empty with at most 154 bytes, the name field has at most 98
bytes, and prefix, `/`, name concatenate to the entry name. -/
theorem build_header_name_roundtrip (env : Env) (cache : IdCache) (hdr : tar_header)
    (record : List Byte) (cache' : IdCache)
    (hname : ∀ b ∈ hdr.name, b ≠ 0)
    (h : build_header env cache hdr = some (GPG_ERR_NO_ERROR, record, cache')) :
    (hdr.name.length < 100 →
      cstring (field record RawField.name.offset RawField.name.sizeof) = hdr.name ∧
      cstring (field record RawField.pfx.offset RawField.pfx.sizeof) = []) ∧
    (100 ≤ hdr.name.length →
      cstring (field record RawField.pfx.offset RawField.pfx.sizeof) ≠ [] ∧
      (cstring (field record RawField.pfx.offset RawField.pfx.sizeof)).length ≤ 154 ∧
      (cstring (field record RawField.name.offset RawField.name.sizeof)).length ≤ 98 ∧
      cstring (field record RawField.pfx.offset RawField.pfx.sizeof) ++ [47] ++
        cstring (field record RawField.name.offset RawField.name.sizeof) = hdr.name) := by
  obtain ⟨r0, h0, lrec, fr⟩ := build_header_frame env cache hdr record cache' h
  have hZ : (List.replicate RECORDSIZE (0 : Byte)).length = 512 := List.length_replicate _ _
  have e1 : field record RawField.name.offset RawField.name.sizeof = field r0 0 100 := by
    apply field_congr
    intro i _ hi
    simp only [RawField.offset, RawField.sizeof] at hi
    exact fr i (by omega)
  have e2 : field record RawField.pfx.offset RawField.pfx.sizeof = field r0 345 155 := by
    apply field_congr
    intro i hi _
    simp only [RawField.offset] at hi
    exact fr i (by omega)
  rw [e1, e2]
  constructor
  · intro hs
    rw [store_name_fields_short _ _ hs] at h0
    rw [← Option.some.inj h0]
    obtain ⟨f1, f2⟩ := short_fields _ hdr.name hZ zeros_getElem? hs
    rw [f1, f2]
    exact ⟨cstring_append_zero _ _ hname, cstring_zeros _⟩
  · intro hL
    rw [store_name_fields_long _ _ hL] at h0
    obtain ⟨s1, s2, -⟩ := find_slash_spec hdr.name
      ((if hdr.name.length < 155 then hdr.name.length else 155) - 1)
    generalize find_slash hdr.name ((if hdr.name.length < 155 then hdr.name.length else 155) - 1)
      = n at h0 s1 s2
    split at h0
    · rename_i hlen
      have hn0 : n ≠ 0 := by omega
      have hsl := s2.resolve_left hn0
      obtain ⟨hnl, hget⟩ := getD_eq_slash _ _ hsl
      have hn154 : n ≤ 154 := by
        split at s1 <;> omega
      rw [← Option.some.inj h0]
      obtain ⟨f1, f2⟩ := split_fields _ hdr.name n hZ zeros_getElem? hn154 hnl hlen
      rw [f1, f2]
      have c1 : cstring (hdr.name.take n ++ List.replicate (155 - n) 0) = hdr.name.take n := by
        have : 155 - n = (154 - n) + 1 := by omega
        rw [this, List.replicate_succ]
        exact cstring_append_zero _ _ (fun b hb => hname b (List.mem_of_mem_take hb))
      have c2 : cstring (hdr.name.drop (n + 1) ++ 0 :: List.replicate (100 - (hdr.name.length - n)) 0)
          = hdr.name.drop (n + 1) :=
        cstring_append_zero _ _ (fun b hb => hname b (List.mem_of_mem_drop hb))
      rw [c1, c2]
      refine ⟨?_, ?_, ?_, split_at _ _ _ hget⟩
      · intro e
        have := congrArg List.length e
        rw [List.length_take, List.length_nil] at this
        omega
      · rw [List.length_take]; omega
      · rw [List.length_drop]; omega
    · exact Option.noConfusion h0

/-- Witness for C2: the 121-byte name `a...a/b...b`. -/
theorem build_header_name_roundtrip_witness :
    (∀ b ∈ example_long_name, b ≠ 0) ∧
    ∃ record cache', build_header (example_env []) initial_cache (example_entry example_long_name 10)
        = some (GPG_ERR_NO_ERROR, record, cache') ∧
      ((example_entry example_long_name 10).name.length < 100 →
        cstring (field record RawField.name.offset RawField.name.sizeof)
          = (example_entry example_long_name 10).name ∧
        cstring (field record RawField.pfx.offset RawField.pfx.sizeof) = []) ∧
      (100 ≤ (example_entry example_long_name 10).name.length →
        cstring (field record RawField.pfx.offset RawField.pfx.sizeof) ≠ [] ∧
        (cstring (field record RawField.pfx.offset RawField.pfx.sizeof)).length ≤ 154 ∧
        (cstring (field record RawField.name.offset RawField.name.sizeof)).length ≤ 98 ∧
        cstring (field record RawField.pfx.offset RawField.pfx.sizeof) ++ [47] ++
          cstring (field record RawField.name.offset RawField.name.sizeof)
          = (example_entry example_long_name 10).name) :=
  ⟨by decide, (build_header_eval_ok _ (by decide)).elim fun record hr => hr.elim fun cache' hc =>
    ⟨record, cache', hc, build_header_name_roundtrip _ _ _ record cache' (by decide) hc⟩⟩

/-- Counterexample to C3 as stated: the 101-byte name `a/b...b` has a slash
at index 1 with `L - k - 1 = 99 < 100` and `k < 155`, yet `build_header`
fails with `GPG_ERR_TOO_LARGE`. -/
theorem build_header_split_counterexample :
    100 ≤ example_name_99.length ∧
    example_name_99[1]? = some 47 ∧
    example_name_99.length - 1 - 1 < 100 ∧ 1 < 155 ∧
    build_header (example_env []) initial_cache (example_entry example_name_99 10)
      = some (GPG_ERR_TOO_LARGE, List.replicate RECORDSIZE 0, initial_cache) := by
  refine ⟨by decide, by decide, by decide, by decide, ?_⟩
  exact (build_header_too_large_iff _ _ _).1 (by decide)

/-- C3, amended. For every entry name of length `L ≥ 100`: if the name has a
`/` at some index `k < 155` with `L - k < 100` (at most 98 bytes follow the
slash), the name stage of `build_header` splits the name and `build_header`
does not fail with `GPG_ERR_TOO_LARGE`; and if the name has no `/` at any such
index, `build_header` fails with `GPG_ERR_TOO_LARGE`. -/
theorem build_header_split_iff (env : Env) (cache : IdCache) (hdr : tar_header)
    (hL : 100 ≤ hdr.name.length) :
    ((∃ k, k < 155 ∧ hdr.name[k]? = some 47 ∧ hdr.name.length - k < 100) →
      (∃ r0, store_name_fields (List.replicate RECORDSIZE 0) hdr.name = some r0) ∧
      ∀ r c, build_header env cache hdr ≠ some (GPG_ERR_TOO_LARGE, r, c)) ∧
    ((¬ ∃ k, k < 155 ∧ hdr.name[k]? = some 47 ∧ hdr.name.length - k < 100) →
      build_header env cache hdr
        = some (GPG_ERR_TOO_LARGE, List.replicate RECORDSIZE 0, cache)) := by
  obtain ⟨t1, t2⟩ := build_header_too_large_iff env cache hdr
  have hlong := store_name_fields_long (List.replicate RECORDSIZE 0) hdr.name hL
  obtain ⟨s1, s2, s3⟩ := find_slash_spec hdr.name
    ((if hdr.name.length < 155 then hdr.name.length else 155) - 1)
  generalize find_slash hdr.name ((if hdr.name.length < 155 then hdr.name.length else 155) - 1)
    = n at hlong s1 s2 s3
  constructor
  · rintro ⟨k, hk1, hk2, hk3⟩
    have hkl : k < hdr.name.length := by
      by_contra hc
      rw [List.getElem?_eq_none (by omega)] at hk2
      exact Option.noConfusion hk2
    have hkn : k ≤ n := by
      by_contra hc
      have hks : k ≤ (if hdr.name.length < 155 then hdr.name.length else 155) - 1 := by
        split <;> omega
      apply s3 k (by omega) hks
      rw [List.getD_eq_getElem?_getD, hk2]
      rfl
    rw [if_pos (by omega)] at hlong
    exact ⟨⟨_, hlong⟩, t2 _ hlong⟩
  · intro hno
    apply t1
    rw [hlong, if_neg]
    intro hlen
    apply hno
    have hsl := s2.resolve_left (by omega)
    obtain ⟨-, hget⟩ := getD_eq_slash _ _ hsl
    refine ⟨n, ?_, hget, hlen⟩
    split at s1 <;> omega

/-- Witness for C3 amended: a 121-byte name with a slash at index 60. -/
theorem build_header_split_iff_witness :
    100 ≤ (example_entry example_long_name 10).name.length ∧
    (∃ k, k < 155 ∧ (example_entry example_long_name 10).name[k]? = some 47 ∧
      (example_entry example_long_name 10).name.length - k < 100) ∧
    (∃ r0, store_name_fields (List.replicate RECORDSIZE 0)
      (example_entry example_long_name 10).name = some r0) ∧
    ∀ r c, build_header (example_env []) initial_cache (example_entry example_long_name 10)
      ≠ some (GPG_ERR_TOO_LARGE, r, c) :=
  ⟨by decide, ⟨60, by decide, by decide, by decide⟩,
    (build_header_split_iff (example_env []) initial_cache (example_entry example_long_name 10)
      (by decide)).1 ⟨60, by decide, by decide, by decide⟩⟩

/-- C4. For every field length `L > 1` and every value `v < 8^(L-1)`,
`store_xoctal` fills the `L`-byte field with exactly `L-1` ASCII octal digits
followed by one NUL byte, and reading those digits as an octal number gives
`v`; the bytes outside the field are untouched. -/
theorem store_xoctal_octal_roundtrip (buf : List Byte) (off L v : Nat)
    (hL : 1 < L) (hbuf : off + L ≤ buf.length) (hv : v < 8 ^ (L - 1)) :
    ∃ res, store_xoctal buf off L v = some res ∧
      res.length = buf.length ∧
      (field res off (L - 1)).length = L - 1 ∧
      (∀ d ∈ field res off (L - 1), is_octal_digit d) ∧
      field res off L = field res off (L - 1) ++ [0] ∧
      octal_value (field res off (L - 1)) = v ∧
      (∀ i, ¬ (off ≤ i ∧ i < off + L) → res[i]? = buf[i]?) :=
  store_xoctal_octal_fields buf off L v hL hbuf hv

/-- Witness for C4: the value 420 (octal 644) in an 8-byte field. -/
theorem store_xoctal_octal_roundtrip_witness :
    ∃ res, store_xoctal (List.replicate 8 0) 0 8 420 = some res ∧
      res.length = (List.replicate 8 (0 : Byte)).length ∧
      (field res 0 (8 - 1)).length = 8 - 1 ∧
      (∀ d ∈ field res 0 (8 - 1), is_octal_digit d) ∧
      field res 0 8 = field res 0 (8 - 1) ++ [0] ∧
      octal_value (field res 0 (8 - 1)) = 420 ∧
      (∀ i, ¬ (0 ≤ i ∧ i < 0 + 8) → res[i]? = (List.replicate 8 (0 : Byte))[i]?) :=
  store_xoctal_octal_roundtrip (List.replicate 8 0) 0 8 420 (by decide) (by decide) (by decide)

/-- C5. For every field length `L > 1`: the octal attempt leaves a remainder,
so that `store_xoctal` takes its binary branch, exactly when `v ≥ 8^(L-1)`;
and for `8^(L-1) ≤ v < 2^(8L-1)` all `L` bytes of the field are overwritten
with the big-endian bytes of `v` (unused leading bytes zero) with the top bit
of the first byte set, so that the field read as a big-endian number with
that bit cleared is `v`. -/
theorem store_xoctal_binary_roundtrip (buf : List Byte) (off L v : Nat)
    (hL : 1 < L) (hbuf : off + L ≤ buf.length) :
    ((xoctal_octal buf off L v).v ≠ 0 ↔ 8 ^ (L - 1) ≤ v) ∧
    (8 ^ (L - 1) ≤ v → v < 2 ^ (8 * L - 1) →
      ∃ res, store_xoctal buf off L v = some res ∧
        res.length = buf.length ∧
        (∀ i, ¬ (off ≤ i ∧ i < off + L) → res[i]? = buf[i]?) ∧
        field res off L = byte (v / 256 ^ (L - 1) + 128) ::
          (List.range (L - 1)).map (fun j => byte (v / 256 ^ (L - 2 - j) % 256)) ∧
        128 ≤ (res.getD off 0).val ∧
        binary_value (field res off L) = v) := by
  obtain ⟨m, rfl⟩ : ∃ m, L = m + 2 := ⟨L - 2, by omega⟩
  have e1 : m + 2 - 1 = m + 1 := by omega
  have e2 : m + 2 - 2 = m := by omega
  simp only [e1, e2]
  constructor
  · rw [Ne, xoctal_octal_fits buf off m v hbuf]
    omega
  · intro hlo hhi
    obtain ⟨res, hres, hlen, hget⟩ := store_xoctal_binary buf off m v hbuf hlo hhi
    have hx : v / 256 ^ (m + 1) < 128 := by
      rw [two_pow_bits] at hhi
      rw [Nat.div_lt_iff_lt_mul (Nat.pow_pos (by omega))]
      omega
    have hlt : v < 256 ^ (m + 2) := by
      rw [two_pow_bits] at hhi
      have : 256 ^ (m + 2) = 256 * 256 ^ (m + 1) := by ring
      omega
    have hfield : field res off (m + 2) = byte (v / 256 ^ (m + 1) + 128) ::
        (List.range (m + 1)).map (fun j => byte (v / 256 ^ (m - j) % 256)) := by
      apply List.ext_getElem?
      intro i
      rw [getElem?_field, hget]
      cases i with
      | zero =>
        rw [if_pos (by omega), if_pos (by omega)]
        simp
      | succ j =>
        rw [List.getElem?_cons_succ, List.getElem?_map]
        by_cases hj : j < m + 1
        · rw [if_pos (by omega), if_neg (by omega), if_pos (by omega),
            List.getElem?_range hj]
          have : off + m + 1 - (off + (j + 1)) = m - j := by omega
          rw [this]
          rfl
        · rw [if_neg (by omega), List.getElem?_eq_none (by simp; omega)]
          rfl
    have hb0 : (byte (v / 256 ^ (m + 1) + 128)).val = v / 256 ^ (m + 1) + 128 := by
      rw [byte_val]
      generalize v / 256 ^ (m + 1) = x at hx ⊢
      omega
    refine ⟨res, hres, hlen, ?_, hfield, ?_, ?_⟩
    · intro i hi
      rw [hget, if_neg (by omega), if_neg (by omega)]
    · rw [List.getD_eq_getElem?_getD, hget, if_pos rfl, Option.getD_some, hb0]
      exact Nat.le_add_left _ _
    · rw [hfield]
      rw [binary_value, hb0, and_127_add_128 _ hx]
      rw [be_value_eq _ (m + 2) v (by simp) ?_, Nat.mod_eq_of_lt hlt]
      intro i hi
      cases i with
      | zero =>
        rw [List.getElem?_cons_zero]
        have : m + 2 - 1 - 0 = m + 1 := by omega
        rw [this]
        have : v / 256 ^ (m + 1) % 256 = v / 256 ^ (m + 1) := Nat.mod_eq_of_lt (by omega)
        rw [this]
      | succ j =>
        rw [List.getElem?_cons_succ, List.getElem?_map, List.getElem?_range (by omega)]
        have : m + 2 - 1 - (j + 1) = m - j := by omega
        rw [this]
        rfl

/-- Witness for C5: the value `8^11` (8 GiB) in a 12-byte field. -/
theorem store_xoctal_binary_roundtrip_witness :
    ∃ res, store_xoctal (List.replicate 12 0) 0 12 (8 ^ 11) = some res ∧
      res.length = (List.replicate 12 (0 : Byte)).length ∧
      (∀ i, ¬ (0 ≤ i ∧ i < 0 + 12) → res[i]? = (List.replicate 12 (0 : Byte))[i]?) ∧
      field res 0 12 = byte (8 ^ 11 / 256 ^ (12 - 1) + 128) ::
        (List.range (12 - 1)).map (fun j => byte (8 ^ 11 / 256 ^ (12 - 2 - j) % 256)) ∧
      128 ≤ (res.getD 0 0).val ∧
      binary_value (field res 0 12) = 8 ^ 11 :=
  (store_xoctal_binary_roundtrip (List.replicate 12 0) 0 12 (8 ^ 11) (by decide)
    (by decide)).2 (by decide) (by decide)

/-- C6. For every regular entry of declared size `s` with `s + 511 < 2^64`
whose header builds, whose source file opens, holds at least `s` bytes and
closes, and for an output stream that accepts the records, `write_file`
succeeds and appends exactly the header record followed by `⌈s / 512⌉` data
records of 512 bytes each; a file that holds more than `s` bytes gets no
extra record. -/
theorem write_file_record_count (env : Env) (cache : IdCache) (stream : Sink)
    (hdr : tar_header) (header : List Byte) (cache' : IdCache) (data : List Byte)
    (hreg : hdr.typeflag = TF_REGULAR) (hsize : hdr.size + 511 < 2 ^ 64)
    (hb : build_header env cache hdr = some (GPG_ERR_NO_ERROR, header, cache'))
    (hopen : env.fopen hdr.name = some data) (hdata : hdr.size ≤ data.length)
    (hroom : 1 + (hdr.size + 511) / 512 ≤ stream.room)
    (hclose : env.fclose_fails hdr.name = false) :
    ∃ recs : List (List Byte),
      write_file env cache stream hdr =
        some (GPG_ERR_NO_ERROR,
          ⟨stream.records ++ header :: recs, stream.room - (1 + recs.length)⟩, cache') ∧
      header.length = RECORDSIZE ∧
      recs.length = (hdr.size + 511) / 512 ∧
      hdr.size ≤ recs.length * 512 ∧ recs.length * 512 < hdr.size + 512 ∧
      ∀ r ∈ recs, r.length = RECORDSIZE := by
  have hlen := build_header_length env cache hdr header cache' hb
  have hk : (hdr.size + RECORDSIZE - 1) % 2 ^ 64 / RECORDSIZE = (hdr.size + 511) / 512 := by
    rw [recordsize_eq]
    have : hdr.size + 512 - 1 = hdr.size + 511 := by omega
    rw [this, Nat.mod_eq_of_lt hsize]
  obtain ⟨recs, record', infp', hw, hrl, hrs⟩ :=
    write_data_ok hdr.size ((hdr.size + 511) / 512)
      ⟨stream.records ++ [header.take RECORDSIZE], stream.room - 1⟩ header data hlen
      (by simp only []; omega) (by intro _; omega)
  have htake : header.take RECORDSIZE = header := List.take_of_length_le (by rw [hlen])
  refine ⟨recs, ?_, hlen, hrl, by rw [hrl]; omega, by rw [hrl]; omega, hrs⟩
  rw [write_file_regular env cache stream hdr header cache' data hreg hb hopen (by omega),
    hk, hw]
  simp only [ne_eq, not_true_eq_false, if_false, hclose, htake, List.append_assoc,
    List.singleton_append, Bool.false_eq_true]
  have e : stream.room - 1 - (hdr.size + 511) / 512 = stream.room - (1 + recs.length) := by
    rw [hrl]; omega
  rw [e]

/-- Witness for C6: a file of declared size 1000 that holds 1200 bytes gets a
header record and two data records. -/
theorem write_file_record_count_witness :
    ∃ header cache', build_header (example_env (List.replicate 1200 1)) initial_cache
        (example_entry [97] 1000) = some (GPG_ERR_NO_ERROR, header, cache') ∧
      ∃ recs : List (List Byte),
        write_file (example_env (List.replicate 1200 1)) initial_cache ⟨[], 100⟩
          (example_entry [97] 1000) =
          some (GPG_ERR_NO_ERROR,
            ⟨([] : List (List Byte)) ++ header :: recs, 100 - (1 + recs.length)⟩, cache') ∧
        header.length = RECORDSIZE ∧
        recs.length = ((example_entry [97] 1000).size + 511) / 512 ∧
        (example_entry [97] 1000).size ≤ recs.length * 512 ∧
        recs.length * 512 < (example_entry [97] 1000).size + 512 ∧
        ∀ r ∈ recs, r.length = RECORDSIZE :=
  (build_header_eval_ok _ (by decide)).elim fun header hr => hr.elim fun cache' hc =>
    ⟨header, cache', hc,
      write_file_record_count (example_env (List.replicate 1200 1)) initial_cache ⟨[], 100⟩
        (example_entry [97] 1000) header cache' (List.replicate 1200 1) rfl (by decide) hc rfl
        (by decide) (by decide) rfl⟩

/-- C7 fails on the code. A regular file named `a` of declared size 512 that
holds 512 bytes of value 1: `write_file` succeeds and writes two records, but
the data record is the header block again (its first byte is `a`), not the
file's bytes. -/
theorem write_file_contents_bug :
    (example_env (List.replicate 512 1)).fopen (example_entry [97] 512).name
      = some (List.replicate 512 1) ∧
    ∃ header stream cache',
      write_file (example_env (List.replicate 512 1)) initial_cache ⟨[], 100⟩
        (example_entry [97] 512) = some (GPG_ERR_NO_ERROR, stream, cache') ∧
      stream.records = [header, header] ∧
      (stream.records.drop 1).flatten.take 1 = [97] ∧
      (List.replicate 512 (1 : Byte)).take 1 = [1] := by
  refine ⟨rfl, ?_⟩
  obtain ⟨header, cache', hb, h1⟩ := build_header_eval
    (build_header (example_env (List.replicate 512 1)) initial_cache (example_entry [97] 512))
    (fun r => r.take 1) [97] (by decide)
  have hlen := build_header_length _ _ _ _ _ hb
  have htake : header.take RECORDSIZE = header := List.take_of_length_le (by rw [hlen])
  refine ⟨header, _, cache',
    write_file_size_512 _ _ ⟨[], 100⟩ _ header cache' (List.replicate 512 1) rfl rfl hb rfl
      (by decide) rfl, ?_, ?_, rfl⟩
  · simp only [htake, List.nil_append]
  · simp only [htake, List.nil_append, List.drop_succ_cons, List.drop_zero, List.flatten_cons,
      List.flatten_nil, List.append_nil]
    exact h1

/-- C8 fails on the code. A regular file named `a` of declared size 10 that
holds 10 bytes: the one data record keeps the header block's bytes after the
first 10; its byte at offset 100 is the digit `0` of the mode field, not a
zero byte. -/
theorem write_file_padding_bug :
    ∃ header data_record stream cache',
      write_file (example_env (List.replicate 10 1)) initial_cache ⟨[], 100⟩
        (example_entry [97] 10) = some (GPG_ERR_NO_ERROR, stream, cache') ∧
      stream.records = [header, data_record] ∧
      field data_record 0 10 = List.replicate 10 1 ∧
      data_record[100]? = some 48 ∧
      field data_record 10 502 = field header 10 502 := by
  obtain ⟨header, cache', hb, h1⟩ := build_header_eval
    (build_header (example_env (List.replicate 10 1)) initial_cache (example_entry [97] 10))
    (fun r => r[100]?) (some 48) (by decide)
  have hlen := build_header_length _ _ _ _ _ hb
  have htake : header.take RECORDSIZE = header := List.take_of_length_le (by rw [hlen])
  have hl2 : (memcpy header 0 ((List.replicate 10 (1 : Byte)).take 10)).length = 512 := by
    rw [length_memcpy, hlen]
  have htake2 : (memcpy header 0 ((List.replicate 10 (1 : Byte)).take 10)).take RECORDSIZE
      = memcpy header 0 ((List.replicate 10 (1 : Byte)).take 10) :=
    List.take_of_length_le (by rw [hl2])
  have hget := getElem?_memcpy ((List.replicate 10 (1 : Byte)).take 10) header 0
  refine ⟨header, memcpy header 0 ((List.replicate 10 (1 : Byte)).take 10), _, cache',
    write_file_small _ _ ⟨[], 100⟩ _ header cache' (List.replicate 10 1) rfl (by decide)
      (by decide) hb rfl (by decide) (by decide) rfl, ?_, ?_, ?_, ?_⟩
  · simp only [htake, List.nil_append]
    exact congrArg (fun x => [header, x]) htake2
  · apply List.ext_getElem?
    intro i
    rw [getElem?_field, hget _ (by rw [hlen]; decide)]
    by_cases hi : i < 10
    · rw [if_pos hi, if_pos ⟨by omega, by simp; omega⟩]
      simp
    · rw [if_neg hi, List.getElem?_eq_none (by simp; omega)]
  · rw [hget _ (by rw [hlen]; decide), if_neg (by simp)]
    exact h1
  · apply field_congr
    intro i h10 _
    rw [hget _ (by rw [hlen]; decide), if_neg (by simp; omega)]

/-- C9. When the output stream opens: for every entry list for which every
`write_file` call succeeds and the stream accepts two more records, the
writing half of `gpgtar_create` writes after the entries' records exactly two
all-zero 512-byte records and nothing after them, and so does `gpgtar_create`
for every pattern list; for the empty entry list, and so for the single
pattern `..`, the whole output is these two records. -/
theorem gpgtar_create_eof_mark (env : Env)
    (hopen : ¬ (env.outfile.isSome ∧ env.create_fails)) :
    (∀ (cache : IdCache) (flist : List tar_header) (stream : Sink) (cache' : IdCache),
      write_files env cache ⟨[], env.room⟩ flist = some (GPG_ERR_NO_ERROR, stream, cache') →
      2 ≤ stream.room →
      ∃ c, create_archive env cache flist = some c ∧
        c.records = stream.records ++
          [List.replicate RECORDSIZE 0, List.replicate RECORDSIZE 0]) ∧
    (∀ (inpattern : List (List Byte)) (stream : Sink) (cache' : IdCache),
      write_files env initial_cache ⟨[], env.room⟩
        (scan_patterns env inpattern ⟨[], 0⟩).flist = some (GPG_ERR_NO_ERROR, stream, cache') →
      2 ≤ stream.room →
      ∃ c, gpgtar_create env inpattern = some c ∧
        c.records = stream.records ++
          [List.replicate RECORDSIZE 0, List.replicate RECORDSIZE 0]) ∧
    (2 ≤ env.room →
      (∀ cache : IdCache, ∃ c, create_archive env cache [] = some c ∧
        c.records = [List.replicate RECORDSIZE 0, List.replicate RECORDSIZE 0]) ∧
      ∃ c, gpgtar_create env [[46, 46]] = some c ∧
        c.records = [List.replicate RECORDSIZE 0, List.replicate RECORDSIZE 0]) := by
  have hempty : 2 ≤ env.room → ∀ cache : IdCache, ∃ c, create_archive env cache [] = some c ∧
      c.records = [List.replicate RECORDSIZE 0, List.replicate RECORDSIZE 0] := by
    intro hroom cache
    exact ⟨_, create_archive_ok env cache [] ⟨[], env.room⟩ cache hopen rfl hroom, rfl⟩
  refine ⟨?_, ?_, fun hroom => ⟨hempty hroom, ?_⟩⟩
  · intro cache flist stream cache' hfiles hroom
    exact ⟨_, create_archive_ok env cache flist stream cache' hopen hfiles hroom, rfl⟩
  · intro inpattern stream cache' hfiles hroom
    exact ⟨_, create_archive_ok env initial_cache _ stream cache' hopen hfiles hroom, rfl⟩
  · unfold gpgtar_create
    rw [scan_patterns_dotdot]
    exact hempty hroom initial_cache

/-- Witness for C9: one 10-byte regular file; the stream ends with the two
zero records. -/
theorem gpgtar_create_eof_mark_witness :
    ∃ stream cache' c,
      write_files (example_env (List.replicate 10 1)) initial_cache
        ⟨[], (example_env (List.replicate 10 1)).room⟩ [example_entry [97] 10]
        = some (GPG_ERR_NO_ERROR, stream, cache') ∧
      stream.records.length = 2 ∧
      create_archive (example_env (List.replicate 10 1)) initial_cache [example_entry [97] 10]
        = some c ∧
      c.records = stream.records ++
        [List.replicate RECORDSIZE 0, List.replicate RECORDSIZE 0] :=
  (write_files_eval _ (fun s => (s.room, s.records.length)) (98, 2) (by decide)).elim
    fun stream hs => hs.elim fun cache' hc =>
      ((gpgtar_create_eof_mark (example_env (List.replicate 10 1)) (by decide)).1
        initial_cache [example_entry [97] 10] stream cache' hc.1
        (by have := congrArg Prod.fst hc.2; simp only [] at this; omega)).elim
        fun c hcr => ⟨stream, cache', c, hc.1, congrArg Prod.snd hc.2, hcr.1, hcr.2⟩

/-- C10 fails on the code. A regular file named `a` of declared size 512 that
holds only 100 readable bytes: `write_file` returns success. -/
theorem write_file_shrunk_bug :
    (example_env (List.replicate 100 1)).fopen (example_entry [97] 512).name
      = some (List.replicate 100 1) ∧
    (List.replicate 100 (1 : Byte)).length < (example_entry [97] 512).size ∧
    ∃ stream cache',
      write_file (example_env (List.replicate 100 1)) initial_cache ⟨[], 100⟩
        (example_entry [97] 512) = some (GPG_ERR_NO_ERROR, stream, cache') := by
  refine ⟨rfl, by decide, ?_⟩
  obtain ⟨header, cache', hb⟩ := build_header_eval_ok
    (build_header (example_env (List.replicate 100 1)) initial_cache (example_entry [97] 512))
    (by decide)
  exact ⟨_, cache',
    write_file_size_512 _ _ ⟨[], 100⟩ _ header cache' (List.replicate 100 1) rfl rfl hb rfl
      (by decide) rfl⟩

/-- Counterexample to C11 as stated: an unsupported entry whose name is 100
bytes `a` without a slash. `write_file` returns `GPG_ERR_TOO_LARGE`, not
success, because `build_header` stores the name before it looks at the type. -/
theorem write_file_unsupported_counterexample :
    typeflag_char (example_unsupported (List.replicate 100 97)).typeflag = none ∧
    write_file (example_env []) initial_cache ⟨[], 100⟩
        (example_unsupported (List.replicate 100 97))
      = some (GPG_ERR_TOO_LARGE, ⟨[], 100⟩, initial_cache) := by
  refine ⟨rfl, ?_⟩
  unfold write_file
  rw [(build_header_too_large_iff (example_env []) initial_cache
    (example_unsupported (List.replicate 100 97))).1 (by decide)]
  rfl

/-- C11, amended. For every entry whose type is outside the seven mapped ones
and whose numeric fields `store_xoctal` can encode: if the name can be stored,
`write_file` writes no record and returns success; if it cannot,
`write_file` writes no record and returns `GPG_ERR_TOO_LARGE`. -/
theorem write_file_unsupported (env : Env) (cache : IdCache) (stream : Sink)
    (hdr : tar_header) (ht : typeflag_char hdr.typeflag = none)
    (hmode : hdr.mode < 2 ^ 63) (huid : hdr.uid < 2 ^ 63) (hgid : hdr.gid < 2 ^ 63)
    (hsize : hdr.size < 2 ^ 95) (hmtime : hdr.mtime < 2 ^ 95) :
    ((∃ r0, store_name_fields (List.replicate RECORDSIZE 0) hdr.name = some r0) →
      write_file env cache stream hdr = some (GPG_ERR_NO_ERROR, stream, cache)) ∧
    (store_name_fields (List.replicate RECORDSIZE 0) hdr.name = none →
      write_file env cache stream hdr = some (GPG_ERR_TOO_LARGE, stream, cache)) := by
  constructor
  · rintro ⟨r0, h0⟩
    have l0 : r0.length = 512 := by
      rw [store_name_fields_length _ _ _ h0]; exact List.length_replicate _ _
    obtain ⟨r1, h1⟩ := store_numeric_fields_ok r0 hdr l0 hmode huid hgid hsize hmtime
    unfold write_file
    rw [build_header_not_supported env cache hdr r0 r1 h0 h1 ht]
    rfl
  · intro h0
    unfold write_file
    rw [(build_header_too_large_iff env cache hdr).1 h0]
    rfl

/-- Witness for C11 amended: an unsupported entry named `a`. -/
theorem write_file_unsupported_witness :
    write_file (example_env []) initial_cache ⟨[], 100⟩ (example_unsupported [97])
      = some (GPG_ERR_NO_ERROR, ⟨[], 100⟩, initial_cache) :=
  (write_file_unsupported (example_env []) initial_cache ⟨[], 100⟩ (example_unsupported [97])
    rfl (by decide) (by decide) (by decide) (by decide) (by decide)).1
    ⟨_, store_name_fields_short _ _ (by decide)⟩


/-- C12. For a valid pattern `P` that does not end in a slash, in a
filesystem whose listings hold no empty name and no name with a slash and in
which `P` can be listed only if it is a directory or a link, the entry list
of the scanner is the entries of `P` followed by `walk (P)` when `P` is a
directory, and of `P` alone otherwise, the walk being followed through the
201 levels the cap allows; names that cannot be stat-ed have no entry. When
every stat succeeds and no directory lies 201 levels below `P`, the names of
the list are `P` followed by the walk of `P` to any depth from 201 on. -/
theorem scan_pattern_walk (env : Env) (P : List Byte)
    (hvalid : pattern_valid_p P = true)
    (hslash : P.getD (P.length - 1) 0 ≠ 47)
    (hnames : ∀ d des, env.readdir d = some des → ∀ c ∈ des, c ≠ [] ∧ 47 ∉ c)
    (hlist : ∀ sbuf, env.lstat P = some sbuf → stat_type sbuf.st_mode ≠ TF_DIRECTORY →
      stat_type sbuf.st_mode ≠ TF_SYMLINK → env.readdir P = none) :
    (scan_patterns env [P] ⟨[], 0⟩).flist
      = (P :: (if is_dir env P then walk env 201 P else [])).filterMap (fillup_entry env) ∧
    (∀ depth, 201 ≤ depth → dirs_below env 201 P = [] →
      (∀ n ∈ P :: (if is_dir env P then walk env depth P else []), (env.lstat n).isSome) →
      (scan_patterns env [P] ⟨[], 0⟩).flist.map (fun hdr => hdr.name)
        = P :: (if is_dir env P then walk env depth P else [])) := by
  have h1 := scan_patterns_walk env P hvalid hslash hnames hlist
  refine ⟨h1, ?_⟩
  intro depth hdepth hdirs hstat
  rw [walk_stable env 201 P hdirs depth hdepth] at hstat ⊢
  rw [h1]
  exact fillup_entry_names env _ hstat

/-- Witness for C12: the pattern `src` holding the file `a.txt` and the empty
directory `sub`: the list is `src`, `src/a.txt`, `src/sub`. -/
theorem scan_pattern_walk_witness :
    (scan_patterns example_src_env [[115, 114, 99]] ⟨[], 0⟩).flist.map (fun hdr => hdr.name)
      = [[115, 114, 99], [115, 114, 99, 47, 97, 46, 116, 120, 116],
         [115, 114, 99, 47, 115, 117, 98]] :=
  ((scan_pattern_walk example_src_env [115, 114, 99] (by decide) (by decide)
    (by
      intro d des h
      simp only [example_src_env] at h
      split_ifs at h <;> first
        | exact Option.noConfusion h
        | (cases h; decide))
    (by
      intro sbuf h hd
      simp only [example_src_env, if_true, Option.some.injEq] at h
      subst h
      exact absurd (by decide) hd)).2 201 (le_refl _) (by decide) (by decide)).trans
    (by decide)


/-- C13. On the POSIX build a pattern (a C string) is rejected by
`pattern_valid_p` exactly when it is empty, or its first two characters are
`..`, or its first character is `/`; a rejected pattern adds no entry to the
list and the patterns after it are scanned as if it were absent; the pattern
`..` alone yields an empty entry list. -/
theorem pattern_rejected_iff (env : Env) (pattern : List Byte)
    (hstr : ∀ b ∈ pattern, b ≠ 0) :
    (pattern_valid_p pattern = false ↔
      pattern = [] ∨ pattern.take 2 = [46, 46] ∨ pattern.head? = some 47) ∧
    (pattern_valid_p pattern = false →
      ∀ (rest : List (List Byte)) (sc : scanctrl_s),
        scan_patterns env [pattern] sc = sc ∧
        scan_patterns env (pattern :: rest) sc = scan_patterns env rest sc) ∧
    (scan_patterns env [[46, 46]] ⟨[], 0⟩).flist = [] := by
  refine ⟨pattern_valid_p_eq_false pattern hstr, ?_, rfl⟩
  intro h rest sc
  refine ⟨scan_patterns_invalid env pattern sc h, ?_⟩
  rw [scan_patterns_cons, scan_patterns_invalid env pattern sc h]

/-- Witness for C13: the pattern `../x`. -/
theorem pattern_rejected_iff_witness :
    pattern_valid_p [46, 46, 47, 120] = false ∧
    ∀ (rest : List (List Byte)) (sc : scanctrl_s),
      scan_patterns (example_env []) [[46, 46, 47, 120]] sc = sc ∧
      scan_patterns (example_env []) ([46, 46, 47, 120] :: rest) sc
        = scan_patterns (example_env []) rest sc :=
  ⟨rfl, (pattern_rejected_iff (example_env []) [46, 46, 47, 120] (by decide)).2.1 rfl⟩


/-- C14. Every entry of the list the scanner builds, for every list of
patterns and every filesystem, has a name that is non-empty, does not begin
with `/` and does not begin with `..`. -/
theorem scan_names_relative (env : Env) (inpattern : List (List Byte)) (hdr : tar_header)
    (h : hdr ∈ (scan_patterns env inpattern ⟨[], 0⟩).flist) :
    hdr.name ≠ [] ∧ hdr.name.head? ≠ some 47 ∧ hdr.name.take 2 ≠ [46, 46] :=
  scan_patterns_relative env inpattern ⟨[], 0⟩ (fun _ hm => absurd hm (List.not_mem_nil _)) hdr h

/-- Witness for C14: the entry of the file `f`, scanned from the patterns
`..`, `/f` and `f`. -/
theorem scan_names_relative_witness :
    (scan_patterns example_shrunk_env [[46, 46], [47, 102], [102]] ⟨[], 0⟩).flist.map
        (fun hdr => hdr.name) = [[102]] ∧
    ([102] : List Byte) ≠ [] ∧ ([102] : List Byte).head? ≠ some 47 ∧
      ([102] : List Byte).take 2 ≠ [46, 46] :=
  ⟨by decide,
   scan_names_relative example_shrunk_env [[46, 46], [47, 102], [102]]
    { mode := 0o644, nlink := 1, uid := 0, gid := 0, size := 1000, mtime := 1234567,
      typeflag := TF_REGULAR, nrecords := 0, name := [102] } (by decide)⟩


/-- C15. For every entry whose name can be stored and whose numeric fields
`store_xoctal` can encode: `build_header` writes the typeflag byte `'0'` for
Regular, `'1'` for HardLink, `'2'` for SymbolicLink, `'3'` for CharDevice,
`'4'` for BlockDevice, `'5'` for Directory and `'6'` for Fifo, an injective
mapping, without failing with `GPG_ERR_NOT_SUPPORTED`; and it fails with
`GPG_ERR_NOT_SUPPORTED` for every other type. -/
theorem build_header_typeflag_table (env : Env) (cache : IdCache) (hdr : tar_header)
    (r0 : List Byte)
    (h0 : store_name_fields (List.replicate RECORDSIZE 0) hdr.name = some r0)
    (hmode : hdr.mode < 2 ^ 63) (huid : hdr.uid < 2 ^ 63) (hgid : hdr.gid < 2 ^ 63)
    (hsize : hdr.size < 2 ^ 95) (hmtime : hdr.mtime < 2 ^ 95) :
    (typeflag_char TF_REGULAR = some 48 ∧ typeflag_char TF_HARDLINK = some 49 ∧
      typeflag_char TF_SYMLINK = some 50 ∧ typeflag_char TF_CHARDEV = some 51 ∧
      typeflag_char TF_BLOCKDEV = some 52 ∧ typeflag_char TF_DIRECTORY = some 53 ∧
      typeflag_char TF_FIFO = some 54) ∧
    (∀ a b c, typeflag_char a = some c → typeflag_char b = some c → a = b) ∧
    (∀ c, typeflag_char hdr.typeflag = some c →
      ∃ err record cache', build_header env cache hdr = some (err, record, cache') ∧
        err ≠ GPG_ERR_NOT_SUPPORTED ∧ record[RawField.typeflag.offset]? = some c) ∧
    (typeflag_char hdr.typeflag = none →
      ∃ record, build_header env cache hdr = some (GPG_ERR_NOT_SUPPORTED, record, cache)) ∧
    (typeflag_char hdr.typeflag = none ↔
      hdr.typeflag ∉ [TF_REGULAR, TF_HARDLINK, TF_SYMLINK, TF_CHARDEV, TF_BLOCKDEV,
        TF_DIRECTORY, TF_FIFO]) := by
  have l0 : r0.length = 512 := by
    rw [store_name_fields_length _ _ _ h0]; exact List.length_replicate _ _
  obtain ⟨r1, h1⟩ := store_numeric_fields_ok r0 hdr l0 hmode huid hgid hsize hmtime
  refine ⟨⟨rfl, rfl, rfl, rfl, rfl, rfl, rfl⟩, ?_, ?_, ?_, ?_⟩
  · intro a b c ha hb
    cases a <;> cases b <;> first
      | rfl
      | exact Option.noConfusion ha
      | exact Option.noConfusion hb
      | exact absurd (Option.some.inj (ha.trans hb.symm)) (by decide)
  · intro c hc
    obtain ⟨err, record, cache', hb, he, hr⟩ := build_header_typeflag env cache hdr r0 r1 c h0 h1 hc
    refine ⟨err, record, cache', hb, ?_, hr⟩
    rcases he with rfl | rfl <;> simp
  · intro ht
    exact ⟨r1, build_header_not_supported env cache hdr r0 r1 h0 h1 ht⟩
  · cases hdr.typeflag <;> simp [typeflag_char]

/-- Witness for C15: a regular file named `a` gets the typeflag `'0'`. -/
theorem build_header_typeflag_table_witness :
    ∃ err record cache',
      build_header (example_env []) initial_cache (example_entry [97] 10)
        = some (err, record, cache') ∧
      err ≠ GPG_ERR_NOT_SUPPORTED ∧ record[RawField.typeflag.offset]? = some 48 :=
  (build_header_typeflag_table (example_env []) initial_cache (example_entry [97] 10) _
    (store_name_fields_short _ _ (by decide)) (by decide) (by decide) (by decide) (by decide)
    (by decide)).2.2.1 48 rfl


/-- C16. The single-slot cache of `store_uname` and `store_gname` is
transparent. Both are the common body `store_name_of_id` on their own statics
and their own lookup; for every sequence of ids, started from the statics of a
fresh process, the buffer the i-th call leaves is the buffer an uncached
implementation leaves for the i-th id, and the lookup is performed on the
first call and on exactly those later calls whose id differs from the previous
one. In the 32-byte field the uncached implementation leaves a NUL-terminated
string that reads back as the looked-up name cut to 31 bytes, or as the empty
string when the lookup finds no name. -/
theorem store_name_cache_transparent (env : Env) (buf : List Byte) (off length : Nat)
    (ids : List Nat) :
    (∀ c id, store_uname env c buf off length id
        = ((store_name_of_id env.getpwuid c.uname buf off length id).1,
           { c with uname := (store_name_of_id env.getpwuid c.uname buf off length id).2 })) ∧
    (∀ c id, store_gname env c buf off length id
        = ((store_name_of_id env.getgrgid c.gname buf off length id).1,
           { c with gname := (store_name_of_id env.getgrgid c.gname buf off length id).2 })) ∧
    (∀ lookup : Nat → Option (List Byte),
      (store_name_run lookup buf off length initial_cache.uname ids).map Prod.fst
          = ids.map (store_name_uncached lookup buf off length) ∧
      (store_name_run lookup buf off length initial_cache.gname ids).map Prod.fst
          = ids.map (store_name_uncached lookup buf off length) ∧
      (store_name_run lookup buf off length initial_cache.uname ids).map Prod.snd
          = lookup_expected none ids ∧
      (store_name_run lookup buf off length initial_cache.gname ids).map Prod.snd
          = lookup_expected none ids) ∧
    (∀ (lookup : Nat → Option (List Byte)) (id : Nat), off + 32 ≤ buf.length →
      cstring (field (store_name_uncached lookup buf off 32 id) off 32)
          = uncached_name lookup id ∧
      (∀ nm, lookup id = some nm → uncached_name lookup id = (cstring nm).take 31) ∧
      (lookup id = none → uncached_name lookup id = [])) := by
  refine ⟨fun _ _ => rfl, fun _ _ => rfl, ?_, ?_⟩
  · intro lookup
    have hu := store_name_run_spec lookup buf off length ids initial_cache.uname none
      (Or.inl ⟨rfl, rfl⟩)
    have hg := store_name_run_spec lookup buf off length ids initial_cache.gname none
      (Or.inl ⟨rfl, rfl⟩)
    exact ⟨hu.1, hg.1, hu.2, hg.2⟩
  · intro lookup id hl
    refine ⟨?_, ?_, ?_⟩
    · have hs := uncached_name_spec lookup id
      exact cstring_mem2str buf off _ 32 (by omega) hs.2 hl
    · intro nm h; unfold uncached_name; rw [h]
    · intro h; unfold uncached_name; rw [h]


/-- C17. For every field length `L > 1` and every value `v`, `store_xoctal`
ends in its abort (`BUG ()`) exactly when `v ≥ 2^(8L-1)`, and returns for
every smaller `v`; so it never aborts on a 64-bit value for a 12-byte field
such as size and mtime. -/
theorem store_xoctal_bug_iff (buf : List Byte) (off L v : Nat) (hL : 1 < L)
    (hbuf : off + L ≤ buf.length) :
    (store_xoctal buf off L v = none ↔ 2 ^ (8 * L - 1) ≤ v) ∧
    (v < 2 ^ (8 * L - 1) → ∃ res, store_xoctal buf off L v = some res) ∧
    (L = 12 → v < 2 ^ 64 → ∃ res, store_xoctal buf off L v = some res) := by
  have hok := store_xoctal_ok buf off L v hL hbuf
  refine ⟨⟨?_, ?_⟩, hok, ?_⟩
  · intro hnone
    by_contra hc
    obtain ⟨r, hr⟩ := hok (by omega)
    rw [hnone] at hr
    exact Option.noConfusion hr
  · intro hv
    obtain ⟨m, rfl⟩ : ∃ m, L = m + 2 := ⟨L - 2, by omega⟩
    exact store_xoctal_bug buf off m v hbuf hv
  · intro h12 hv
    subst h12
    exact hok (lt_of_lt_of_le hv (by norm_num))

/-- Witness for C17: the value `2^63` does not fit the 8-byte uid field. -/
theorem store_xoctal_bug_iff_witness :
    store_xoctal (List.replicate 8 0) 0 8 (2 ^ 63) = none :=
  (store_xoctal_bug_iff (List.replicate 8 0) 0 8 (2 ^ 63) (by decide) (by decide)).1.2
    (by decide)


/-- C18. When `write_file` fails for an entry of the scanned list (the
entries before it having been written without error), `gpgtar_create` returns
that error, its output is the records of the entries before the failing one
followed only by the records the failing entry had already written (nothing
of a later entry, no end-of-archive marker), and the output file is removed
exactly when the archive goes to an owned file named by `opt.outfile`. A
regular file of declared size 1000 of which 500 bytes can be read fails after
its header record and nothing more. -/
theorem gpgtar_create_failure (env : Env) (inpattern : List (List Byte))
    (pre post : List tar_header) (hdr : tar_header) (err : gpg_error_t)
    (s1 s2 : Sink) (c1 c2 : IdCache)
    (hlist : (scan_patterns env inpattern ⟨[], 0⟩).flist = pre ++ hdr :: post)
    (hopen : ¬ (env.outfile.isSome ∧ env.create_fails))
    (hpre : write_files env initial_cache ⟨[], env.room⟩ pre = some (GPG_ERR_NO_ERROR, s1, c1))
    (hfail : write_file env c1 s1 hdr = some (err, s2, c2))
    (herr : err ≠ GPG_ERR_NO_ERROR) :
    gpgtar_create env inpattern
      = some { err := err, records := s2.records, removed := env.outfile.isSome } ∧
    (∃ recs, s2.records = s1.records ++ recs) ∧
    (∀ (header : List Byte) (data : List Byte),
      hdr.typeflag = TF_REGULAR → hdr.size = 1000 → data.length = 500 →
      build_header env c1 hdr = some (GPG_ERR_NO_ERROR, header, c2) →
      env.fopen hdr.name = some data → 0 < s1.room →
      err = GPG_ERR_SYSTEM ∧ s2.records = s1.records ++ [header.take RECORDSIZE]) := by
  refine ⟨?_, write_file_appends env c1 s1 hdr err s2 c2 hfail, ?_⟩
  · unfold gpgtar_create
    dsimp only
    rw [hlist]
    exact create_archive_fail env initial_cache _ err s2 c2 hopen
      (by rw [write_files_append env pre _ _ _ s1 c1 hpre]
          exact write_files_fail env c1 s1 hdr post err s2 c2 hfail herr) herr
  · intro header data hreg hsize hdata hb hopen2 hroom
    have h := write_file_shrunk_1000 env c1 s1 hdr header c2 data hreg hsize hdata hb hopen2 hroom
    rw [hfail] at h
    simp only [Option.some.injEq, Prod.mk.injEq] at h
    exact ⟨h.1, by rw [h.2.1]⟩

/-- Witness for C18: the file `f` of declared size 1000 with 500 readable
bytes, archived into the owned file `out`: one record is written, the run
fails and the output file is removed. -/
theorem gpgtar_create_failure_witness :
    (gpgtar_create example_shrunk_env [[102]]).map
        (fun r => (r.err, r.records.length, r.removed))
      = some (GPG_ERR_SYSTEM, 1, true) :=
  (write_file_eval
      (write_file example_shrunk_env initial_cache ⟨[], 100⟩
        { mode := 0o644, nlink := 1, uid := 0, gid := 0, size := 1000, mtime := 1234567,
          typeflag := TF_REGULAR, nrecords := 0, name := [102] })
      (fun s => s.records.length) GPG_ERR_SYSTEM 1 (by decide)).elim
    fun s2 h => h.elim fun c2 h => by
      rw [(gpgtar_create_failure example_shrunk_env [[102]] [] []
        { mode := 0o644, nlink := 1, uid := 0, gid := 0, size := 1000, mtime := 1234567,
          typeflag := TF_REGULAR, nrecords := 0, name := [102] }
        GPG_ERR_SYSTEM ⟨[], 100⟩ s2 initial_cache c2 (by decide) (by decide) rfl h.1
        (by decide)).1]
      simp only [Option.map_some', h.2]
      rfl


/-- Counterexample to C19 as stated: in a filesystem whose directories nest
without bound the scan of the pattern `d` takes `scanctrl.nestlevel` to 201,
and the call of `scan_recursive` entered with nesting level 200, which takes
the depth beyond 200, does not fail. -/
theorem nestlevel_bound_counterexample :
    scan_patterns_peak example_deep_env [[100]] ⟨[], 0⟩ = 201 ∧
    (scan_recursive example_deep_env 2 [100] ⟨[], 200⟩).1 = GPG_ERR_NO_ERROR ∧
    nestlevel_peak example_deep_env 2 [100] ⟨[], 200⟩ = 201 :=
  ⟨by decide, by decide, by decide⟩

/-- C19, amended. The scanner's nesting-depth counter is bounded at 201: for
every filesystem and every pattern list `scanctrl.nestlevel` never exceeds
201 during the scan. A call of `scan_recursive` entered with a nesting level
above 200 fails with `GPG_ERR_RESOURCE_LIMIT` and leaves the scan state, and
so every entry of the list, as it was; a call entered with a nesting level of
at most 200 raises the level by one and returns without error; no call
removes or changes an entry already in the list. -/
theorem nestlevel_bound (env : Env) (inpattern : List (List Byte)) :
    scan_patterns_peak env inpattern ⟨[], 0⟩ ≤ 201 ∧
    (∀ fuel dname sc, sc.nestlevel ≤ 201 → nestlevel_peak env fuel dname sc ≤ 201) ∧
    (∀ fuel dname sc, sc.nestlevel > 200 →
      scan_recursive env fuel dname sc = (GPG_ERR_RESOURCE_LIMIT, sc)) ∧
    (∀ fuel dname sc, sc.nestlevel ≤ 200 →
      (scan_recursive env (fuel + 1) dname sc).1 = GPG_ERR_NO_ERROR ∧
      sc.nestlevel + 1 ≤ nestlevel_peak env (fuel + 1) dname sc) ∧
    (∀ fuel dname sc, ∃ l, (scan_recursive env fuel dname sc).2.flist = sc.flist ++ l) := by
  refine ⟨?_, ?_, ?_, ?_, ?_⟩
  · exact scan_patterns_peak_le env inpattern ⟨[], 0⟩
  · intro fuel dname sc h
    exact le_trans (nestlevel_peak_le env fuel dname sc) (max_le h (le_refl _))
  · exact fun fuel dname sc h => scan_recursive_too_deep env fuel dname sc h
  · exact fun fuel dname sc h =>
      ⟨scan_recursive_below_cap env fuel dname sc h, nestlevel_peak_ge env fuel dname sc h⟩
  · exact fun fuel dname sc => (scan_recursive_appends env fuel dname sc).2


/-- C20. `scan_recursive` terminates on every filesystem: the recursion is
never deeper than 202 levels less the nesting level at entry, so a larger
depth bound gives the same result, whatever the filesystem (directories
nesting without bound or in a cycle included). It returns with
`scanctrl.nestlevel` equal to its value at entry, on the normal path and on
the too-deeply-nested path alike, and so the counter is 0 again before each
pattern of the pattern loop is scanned. -/
theorem scan_recursive_terminates (env : Env) (dname : List Byte) (sc : scanctrl_s) :
    (∀ fuel k, 202 ≤ sc.nestlevel + fuel →
      scan_recursive env (fuel + k) dname sc = scan_recursive env fuel dname sc) ∧
    (∀ fuel, (scan_recursive env fuel dname sc).2.nestlevel = sc.nestlevel) ∧
    (sc.nestlevel > 200 → ∀ fuel,
      scan_recursive env fuel dname sc = (GPG_ERR_RESOURCE_LIMIT, sc)) ∧
    (∀ pre rest : List (List Byte),
      (scan_patterns env pre ⟨[], 0⟩).nestlevel = 0 ∧
      scan_patterns env (pre ++ rest) ⟨[], 0⟩
        = scan_patterns env rest (scan_patterns env pre ⟨[], 0⟩)) ∧
    (scan_patterns example_deep_env [[100]] ⟨[], 0⟩).flist.length = 202 := by
  refine ⟨?_, ?_, ?_, ?_, by decide⟩
  · exact fun fuel k h => scan_recursive_fuel_le env dname sc k fuel h
  · exact fun fuel => (scan_recursive_appends env fuel dname sc).1
  · exact fun h fuel => scan_recursive_too_deep env fuel dname sc h
  · intro pre rest
    exact ⟨(scan_patterns_appends env pre ⟨[], 0⟩).1, by
      unfold scan_patterns; rw [List.foldl_append]⟩


end GpgTar
